import Mathlib

/-!
Verification of the boundary-segmentation core of `quad_patch.py`.

The file embeds, as executable Lean definitions, the pure algorithmic parts of
the script: `checkFlatLoop`, `segmentsAdaptiveOpen`, `segmentsPositions_adaptive`,
`vtxLoopOrderCheck` and `getEdgeRingGroupList`.  The host (Maya) supplies vertex
positions and mesh adjacency; in the embedding those queries are parameters:

* the per-vertex turning angle (source: `mc.xform` positions fed through
  `acos` of the normalized dot product, a real-number computation) is
  abstracted as an input `angle : Nat → ℚ`; each function then computes
  `deviation = |angle - 90|` exactly as the source does;
* positions are an opaque map `pos : α → β` used only to build the
  `segments_pos` / `corner_positions` outputs;
* mesh adjacency (`mc.polyInfo`) is a pair of parameters `e2v` / `v2e`.

Python floats are modelled by `ℚ`; Python lists by `List`; a Python `while`
loop by fuel-indexed recursion with fuel no smaller than the exact number of
iterations the source loop performs; Python exceptions (`IndexError`,
`ValueError` from `list.remove`, `KeyError` from `set.remove`) by `Option`,
`none` meaning the source raises.
-/

namespace QuadPatch

/-! ## Python-style list primitives -/

/-- Python slice `l[a:b]` for nonnegative `a`, `b` (clamped, empty when `b ≤ a`). -/
def pySlice {α : Type} (l : List α) (a b : Nat) : List α := (l.drop a).take (b - a)

/-- One insertion step of a stable sort: `x` goes before the first element whose
key is not smaller, hence after every earlier element with an equal key. -/
def insertStable {β κ : Type} [LinearOrder κ] (key : β → κ) (x : β) : List β → List β
  | [] => [x]
  | y :: ys => if key y < key x then y :: insertStable key x ys else x :: y :: ys

/-- Python `sorted(l, key=key)`: stable ascending sort by `key`. -/
def sortStable {β κ : Type} [LinearOrder κ] (key : β → κ) : List β → List β
  | [] => []
  | x :: xs => insertStable key x (sortStable key xs)

/-- Python `max(l)` for a nonempty list (the default is never used by callers,
which guard for emptiness first, as the source does). -/
def pyMax (l : List ℚ) : ℚ := l.foldl max (l.headD 0)

/-- Python `min(l)` for a nonempty list. -/
def pyMin (l : List ℚ) : ℚ := l.foldl min (l.headD 0)

/-- Python `min(range(k), key=f)`: the first index attaining the minimum of `f`. -/
def argminFirst (f : Nat → ℚ) (k : Nat) : Nat :=
  (List.range k).foldl (fun acc i => if f i < f acc then i else acc) 0

/-! ## Angle samples (`angle_data`) -/

/-- One entry of the source's `angle_data`: `(i, v, angle, deviation)`. -/
structure Sample (α : Type) where
  idx : Nat
  vtx : α
  angle : ℚ
  dev : ℚ

/-- `angle_data` of the closed-loop segmenter (`segmentsPositions_adaptive`,
lines 404-422): every index gets its turning angle (the abstracted `angle`
input) and `deviation = abs(angle - 90.0)`. -/
def angleDataClosed {α : Type} [Inhabited α] (angle : Nat → ℚ) (vtx : List α) :
    List (Sample α) :=
  (List.range vtx.length).map (fun i => ⟨i, vtx.getD i default, angle i, |angle i - 90|⟩)

/-- `angle_data` of the open-loop functions (`checkFlatLoop` lines 19-40,
`segmentsAdaptiveOpen` lines 57-76): the two loop endpoints are fixed at
angle `180`, deviation `90`; interior vertices get their turning angle. -/
def angleDataOpen {α : Type} [Inhabited α] (angle : Nat → ℚ) (vtx : List α) :
    List (Sample α) :=
  (List.range vtx.length).map (fun i =>
    if i = 0 ∨ i = vtx.length - 1 then ⟨i, vtx.getD i default, 180, 90⟩
    else ⟨i, vtx.getD i default, angle i, |angle i - 90|⟩)

/-! ## `checkFlatLoop` (lines 17-48) -/

/-- `checkFlatLoop(vtx_list, flat_threshold)`: averages the absolute successive
differences of the per-vertex angles (endpoints fixed at 180) and compares with
the threshold; returns the Python ints 1 ("flat") or 0. -/
def checkFlatLoop {α : Type} [Inhabited α] (angle : Nat → ℚ) (vtx : List α)
    (flat_threshold : ℚ) : Nat :=
  let angles := (angleDataOpen angle vtx).map (·.angle)
  let abs_diffs := (angles.zip angles.tail).map (fun p => |p.1 - p.2|)
  if abs_diffs.isEmpty then 0
  else if abs_diffs.sum / (abs_diffs.length : ℚ) < flat_threshold then 1 else 0

/-- The quantity the specification describes: the average absolute successive
angle difference of a loop (endpoint samples fixed at 180°).  Stated from the
spec's words, for comparison with `checkFlatLoop`. -/
def specAvgAbsDiff {α : Type} [Inhabited α] (angle : Nat → ℚ) (vtx : List α) : ℚ :=
  let angles := (angleDataOpen angle vtx).map (·.angle)
  ((angles.zip angles.tail).map (fun p => |p.1 - p.2|)).sum / ((vtx.length - 1 : Nat) : ℚ)

/-! ## `segmentsAdaptiveOpen` (lines 52-132) -/

/-- The `while True` loop of lines 103-108: starting at `idx`, append
`vtx_list[idx]` and stop upon appending index `e`, else advance to `idx + 1`.
The fuel only needs to exceed `e - idx`; the callers pass `vtx.length`. -/
def openWalk {α : Type} [Inhabited α] (vtx : List α) (e : Nat) :
    Nat → Nat → List α
  | 0, _ => []
  | fuel+1, idx =>
      vtx.getD idx default :: (if idx = e then [] else openWalk vtx e fuel (idx + 1))

/-- Lines 118-124: the three balanced lengths of the no-sharp-pair branch,
with the `for i in range(rem)` loop unrolled over `rem = n % 3 ∈ {0,1,2}`
(for `rem = 0` the loop body never runs) and the final swap of the first two. -/
def openElseLengths (n : Nat) : Nat × Nat × Nat :=
  let base := n / 3
  let lengths :=
    match n % 3 with
    | 1 => (base + 1, base, base)
    | 2 => (base, base + 1, base + 1)
    | _ => (base, base, base)
  (lengths.2.1, lengths.1, lengths.2.2)

/-- Interior candidate filter shared by lines 81-82, 86, 91 and 97-98:
samples whose index is not an endpoint (optionally thresholded by `dev`). -/
def openInterior {α : Type} (n : Nat) (l : List (Sample α)) : List (Sample α) :=
  l.filter (fun s => decide (s.idx ≠ 0) && decide (s.idx ≠ n - 1))

/-- The `sharp` list of lines 97-98: interior indices whose deviation is within
the corner threshold, in loop order. -/
def openSharpIdxs {α : Type} [Inhabited α] (angle : Nat → ℚ) (vtx : List α)
    (corner_threshold : ℚ) : List Nat :=
  (openInterior vtx.length
    ((angleDataOpen angle vtx).filter
      (fun s => decide (s.dev ≤ corner_threshold)))).map (·.idx)

/-- `segmentsAdaptiveOpen(vtx_list, similarity_threshold, corner_threshold)`. -/
def segmentsAdaptiveOpen {α β : Type} [Inhabited α] (angle : Nat → ℚ) (pos : α → β)
    (vtx : List α) (similarity_threshold corner_threshold : ℚ) :
    List (List α) × List (List β) × List α × List β :=
  let k := 3
  let n := vtx.length
  if n < k then ([], [], [], []) else
  let angle_data := angleDataOpen angle vtx
  let deviations := (angle_data.filter (fun s => decide (s.dev ≠ 90))).map (·.dev)
  let corner_idxs :=
    if deviations ≠ [] ∧ pyMax deviations - pyMin deviations ≤ similarity_threshold then
      (List.range k).map (fun i => i * n / k)
    else
      let candidates := openInterior n
        (angle_data.filter (fun s => decide (s.dev ≤ corner_threshold)))
      let candidates :=
        if k ≤ candidates.length then (sortStable (·.dev) candidates).take k
        else (sortStable (·.dev) (openInterior n angle_data)).take k
      (sortStable (·.idx) candidates).map (·.idx)
  let corner_idxs :=
    if corner_idxs.length ≠ k then
      (sortStable (·.idx)
        ((sortStable (·.dev) (openInterior n angle_data)).take k)).map (·.idx)
    else corner_idxs
  let corner_vertices := corner_idxs.map (fun i => vtx.getD i default)
  let corner_positions := corner_vertices.map pos
  let sharp := openSharpIdxs angle vtx corner_threshold
  let init_segments :=
    if sharp.length = 2 then
      let c0 := min (sharp.getD 0 0) (sharp.getD 1 0)
      let c1 := max (sharp.getD 0 0) (sharp.getD 1 0)
      let seg0 := openWalk vtx c1 n c0
      let seg1 := vtx.take (c0 + 1)
      let seg2 := vtx.drop c1
      let l1 := seg1.length
      let l2 := seg2.length
      let seg1 := if l2 < l1 then seg1.drop (l1 - l2) else seg1
      let seg2 := if l1 < l2 then seg2.take l1 else seg2
      [seg0, seg1, seg2]
    else
      let lens := openElseLengths n
      let seg0 := vtx.take lens.1
      let seg1 := pySlice vtx (lens.1 - 1) (lens.1 + lens.2.1 + 1)
      let seg2 := pySlice vtx (lens.1 + lens.2.1 - 1) (n - 1)
      [seg1, seg0, seg2]
  (init_segments, init_segments.map (·.map pos), corner_vertices, corner_positions)

/-! ## `segmentsPositions_adaptive` (lines 398-478) -/

/-- The `while True` loop of lines 446-452: append `vtx_list[idx]`, stop once
index `e` was appended, else step to `(idx + 1) % n`.  With `idx, e < n` the
source loop appends exactly `(n + e - idx) % n + 1` entries, so the callers'
fuel `n` never runs out on the inputs the theorems below consider. -/
def closedWalk {α : Type} [Inhabited α] (vtx : List α) (n e : Nat) :
    Nat → Nat → List α
  | 0, _ => []
  | fuel+1, idx =>
      vtx.getD idx default :: (if idx = e then [] else closedWalk vtx n e fuel ((idx + 1) % n))

/-- Lines 423-438: corner index selection of the closed-loop segmenter.
`int(i * n / 4)` truncates the float quotient, i.e. floor division here. -/
def adaptiveCornerIdxs {α : Type} [Inhabited α] (angle : Nat → ℚ) (vtx : List α)
    (similarity_threshold corner_threshold : ℚ) : List Nat :=
  let n := vtx.length
  let angle_data := angleDataClosed angle vtx
  let deviations := angle_data.map (·.dev)
  let corner_idxs :=
    if pyMax deviations - pyMin deviations ≤ similarity_threshold then
      (List.range 4).map (fun i => i * n / 4)
    else
      let candidates := angle_data.filter (fun s => decide (s.dev ≤ corner_threshold))
      let candidates :=
        if 4 ≤ candidates.length then (sortStable (·.dev) candidates).take 4
        else (sortStable (·.dev) angle_data).take 4
      (sortStable (·.idx) candidates).map (·.idx)
  if corner_idxs.length ≠ 4 then
    (sortStable (·.idx) ((sortStable (·.dev) angle_data).take 4)).map (·.idx)
  else corner_idxs

/-- Lines 442-453: the four naturally-cut segments between consecutive corners. -/
def adaptiveInitSegments {α : Type} [Inhabited α] (vtx : List α)
    (corner_idxs : List Nat) : List (List α) :=
  (List.range 4).map (fun k =>
    closedWalk vtx vtx.length (corner_idxs.getD ((k + 1) % 4) 0) vtx.length
      (corner_idxs.getD k 0))

/-- Lines 455-456: `min(range(4), key=lambda i: abs(len(init_segments[i]) - n/4.0))`. -/
def adaptiveBestIdx (segLens : List Nat) (n : Nat) : Nat :=
  argminFirst (fun i => |(segLens.getD i 0 : ℚ) - (n : ℚ) / 4|) 4

/-- Lines 460-473: the arithmetic rebalancing cut of the rotated loop.
`len1 = half - len0` is a Python int and may be negative, hence `ℤ` here; the
slice bounds `start1`, `end1`, `start2`, `end2` are nonnegative in every
reachable call (`len0 ≥ 1` since segments of `closedWalk` with positive fuel
are nonempty, and `end1 = half + 1`).  `rotated[last2]` and `rotated[0]`
raise `IndexError` when out of range; the embedding uses `getD`, whose default
is never reached under the bounds assumed by the theorems below. -/
def rebalanceSegments {α : Type} [Inhabited α] (rotated : List α) (n len0 : Nat) :
    List (List α) :=
  let half := n / 2
  let len1 : Int := (half : Int) - (len0 : Int)
  let len2 := len0
  let seg0 := rotated.take len0
  let start1 := len0 - 1
  let end1 := ((len0 : Int) + len1 + 1).toNat
  let seg1 := pySlice rotated start1 end1
  let start2 := end1 - 1
  let end2 := start2 + len2
  let seg2 := pySlice rotated start2 end2
  let last2 := end2 - 1
  let seg3 := rotated.getD last2 default :: (rotated.drop (last2 + 1) ++ [rotated.getD 0 default])
  [seg0, seg1, seg2, seg3]

/-- The anchor span length `len0` (line 459) of the rebalancing step. -/
def adaptiveLen0 {α : Type} [Inhabited α] (angle : Nat → ℚ) (vtx : List α)
    (similarity_threshold corner_threshold : ℚ) : Nat :=
  let corner_idxs := adaptiveCornerIdxs angle vtx similarity_threshold corner_threshold
  let init_segments := adaptiveInitSegments vtx corner_idxs
  (init_segments.getD (adaptiveBestIdx (init_segments.map List.length) vtx.length) []).length

/-- The rotation anchor `start_loop = corner_idxs[best_idx]` (line 457). -/
def adaptiveStartLoop {α : Type} [Inhabited α] (angle : Nat → ℚ) (vtx : List α)
    (similarity_threshold corner_threshold : ℚ) : Nat :=
  let corner_idxs := adaptiveCornerIdxs angle vtx similarity_threshold corner_threshold
  let init_segments := adaptiveInitSegments vtx corner_idxs
  corner_idxs.getD (adaptiveBestIdx (init_segments.map List.length) vtx.length) 0

/-- `segmentsPositions_adaptive(vtx_list, similarity_threshold, corner_threshold)`. -/
def segmentsPositions_adaptive {α β : Type} [Inhabited α] (angle : Nat → ℚ) (pos : α → β)
    (vtx : List α) (similarity_threshold corner_threshold : ℚ) :
    List (List α) × List (List β) × List α × List β :=
  let n := vtx.length
  if n < 4 then ([], [], [], []) else
  let corner_idxs := adaptiveCornerIdxs angle vtx similarity_threshold corner_threshold
  let corner_vertices := corner_idxs.map (fun i => vtx.getD i default)
  let corner_positions := corner_vertices.map pos
  let init_segments := adaptiveInitSegments vtx corner_idxs
  let best_idx := adaptiveBestIdx (init_segments.map List.length) n
  let start_loop := corner_idxs.getD best_idx 0
  let rotated := vtx.drop start_loop ++ vtx.take start_loop
  let len0 := (init_segments.getD best_idx []).length
  let segments := rebalanceSegments rotated n len0
  (segments, segments.map (·.map pos), corner_vertices, corner_positions)

/-! ## `vtxLoopOrderCheck` (lines 297-364) -/

/-- State of the `while` walk of lines 324-352: the remaining selected edges
(`edgeNumberList`), the remaining duplicated vertices (`dup`, a Python set
modelled as a duplicate-free list), and the vertex order built so far
(`vftOrder`). -/
structure WalkState (E V : Type) where
  edgeNumberList : List E
  dup : List V
  vftOrder : List V

/-- `found = []; for g in cands: if g in pool: found = g` — the last member of
`cands` lying in `pool`, `none` when Python would leave the `[]` sentinel. -/
def lastMatch {X : Type} [DecidableEq X] (cands pool : List X) : Option X :=
  (cands.filter (fun x => decide (x ∈ pool))).getLast?

/-- One iteration of the walk (lines 325-351).  `none` models the Python
exceptions: `list.remove([])` (ValueError, line 337) and `set.remove([])`
(KeyError, line 350) when no candidate matched. -/
def loopBody {E V : Type} [DecidableEq E] [DecidableEq V] (v2e : V → List E)
    (e2v : E → V × V) (st : WalkState E V) : Option (WalkState E V) :=
  match st.vftOrder.getLast? with
  | none => none
  | some current =>
    match lastMatch (v2e current) st.edgeNumberList with
    | none => none
    | some e =>
      let el := st.edgeNumberList.erase e
      let a := (e2v e).1
      let b := (e2v e).2
      match lastMatch [a, b] st.dup with
      | none => none
      | some w => some ⟨el, st.dup.erase w, st.vftOrder ++ [w]⟩

/-- The `while len(dup) > 0 and count < 1000` loop (line 324); returns the
final state together with the final `count`.  The fuel argument stands for
`1000 - count`; the caller passes 1000. -/
def walkLoop {E V : Type} [DecidableEq E] [DecidableEq V] (v2e : V → List E)
    (e2v : E → V × V) : Nat → Nat → WalkState E V → Option (WalkState E V × Nat)
  | 0, count, st => some (st, count)
  | fuel+1, count, st =>
      if st.dup.isEmpty then some (st, count)
      else
        match loopBody v2e e2v st with
        | none => none
        | some st2 => walkLoop v2e e2v fuel (count + 1) st2

/-- The Python set `dup` (line 315) as a duplicate-free list: the vertex ids
occurring more than once among the selected edges' endpoint ids. -/
def dupList {V : Type} [DecidableEq V] (getNumber : List V) : List V :=
  (getNumber.filter (fun x => decide (1 < getNumber.count x))).dedup

/-- The endpoint-candidate set `set(getNumber) - dup` (line 316), as a
duplicate-free list; its Python iteration order is unspecified, so the
functions below take the enumerated list `ht` as a parameter and the theorems
quantify over the realizable orders. -/
def headTailSet {V : Type} [DecidableEq V] (getNumber : List V) : List V :=
  (getNumber.filter (fun x => decide (getNumber.count x = 1))).dedup

/-- `vtxLoopOrderCheck(selEdges)`.  Host adjacency (`mc.polyInfo`) is the pair
of parameters `v2e` (vertex → incident edges, print order) and `e2v`
(edge → endpoint vertices); the output vertex names `transform.vtx[id]` are
modelled by the ids.  `ht` stands for the source's `getHeadTail` list, whose
order `list(set(...))` leaves unspecified.  `none` models an uncaught Python
exception. -/
def vtxLoopOrderCheck {E V : Type} [DecidableEq E] [DecidableEq V] [Inhabited V]
    (v2e : V → List E) (e2v : E → V × V) (selEdges : List E) (ht : List V) :
    Option (Nat × List V) :=
  if selEdges.isEmpty then none else   -- `selEdges[0]` (line 298) raises
  let getNumber := selEdges.flatMap (fun e => [(e2v e).1, (e2v e).2])
  let dup := dupList getNumber
  let checkCircleState := if ht.isEmpty then 1 else 0
  let getHeadTail := if ht.isEmpty then [getNumber.headD default] else ht
  let st0 : WalkState E V := ⟨selEdges, dup, [getHeadTail.headD default]⟩
  match walkLoop v2e e2v 1000 0 st0 with
  | none => none
  | some (st, _) =>
    if checkCircleState = 0 then
      match getHeadTail[1]? with
      | none => none               -- `getHeadTail[1]` raises IndexError
      | some t => some (0, st.vftOrder ++ [t])
    else
      match st.vftOrder[1]? with
      | none => none               -- `vftOrder[1]` raises IndexError
      | some v1 =>
        if st.vftOrder.headD default = v1 then some (1, st.vftOrder.tail)
        else if st.vftOrder.headD default = st.vftOrder.getLastD default then
          some (1, st.vftOrder.dropLast)
        else some (1, st.vftOrder)

/-- The final iteration count of the same walk (the variable `count`). -/
def vtxLoopOrderCount {E V : Type} [DecidableEq E] [DecidableEq V] [Inhabited V]
    (v2e : V → List E) (e2v : E → V × V) (selEdges : List E) (ht : List V) :
    Option Nat :=
  if selEdges.isEmpty then none else
  let getNumber := selEdges.flatMap (fun e => [(e2v e).1, (e2v e).2])
  let dup := dupList getNumber
  let getHeadTail := if ht.isEmpty then [getNumber.headD default] else ht
  let st0 : WalkState E V := ⟨selEdges, dup, [getHeadTail.headD default]⟩
  (walkLoop v2e e2v 1000 0 st0).map Prod.snd

/-- Synthetic open path of `M` vertices `0..M-1`: edge `i` joins `i` and
`i+1`, for `i < M-1`.  `pathV2E` is the host incident-edge query. -/
def pathE2V : Nat → Nat × Nat := fun e => (e, e + 1)

/-- Incident edges of vertex `v` on the synthetic `M`-vertex path. -/
def pathV2E (M : Nat) : Nat → List Nat := fun v =>
  if v = 0 then [0]
  else if v = M - 1 then [M - 2]
  else [v - 1, v]

/-- Y-shaped branching selection: centre vertex 0, leaves 1, 2, 3; edge `i`
joins 0 and `i+1`. -/
def yE2V : Nat → Nat × Nat := fun e => (0, e + 1)

/-- Incident edges on the Y-shaped selection. -/
def yV2E : Nat → List Nat := fun v => if v = 0 then [0, 1, 2] else [v - 1]

/-! ## getEdgeRingGroupList (lines 247-295) -/

/-- Python dict assignment `d[k] = v` on an insertion-ordered dict:
overwrite in place when the key exists, else append. -/
def assocSet {E β : Type} [DecidableEq E] : List (E × β) → E → β → List (E × β)
  | [], e, val => [(e, val)]
  | (k, v) :: rest, e, val =>
      if k = e then (e, val) :: rest else (k, v) :: assocSet rest e val

/-- Python `d.pop(k, None)`: the stored value together with the dict without
`k`, or `none` when the key is absent. -/
def lookupRemove {E β : Type} [DecidableEq E] :
    List (E × β) → E → Option (β × List (E × β))
  | [], _ => none
  | (k, v) :: rest, e =>
      if k = e then some (v, rest)
      else match lookupRemove rest e with
        | none => none
        | some (r, rest2) => some (r, (k, v) :: rest2)

/-- Python `v2e[v].add(e)` on the vertex-to-incident-edges table (a set:
adding an existing member is a no-op). -/
def addEdge {E V : Type} [DecidableEq E] [DecidableEq V]
    (v2e : V → List E) (v : V) (e : E) : V → List E :=
  fun x => if x = v then (if e ∈ v2e v then v2e v else v2e v ++ [e]) else v2e x

/-- Python `v2e[v].discard(e)`. -/
def discardEdge {E V : Type} [DecidableEq E] [DecidableEq V]
    (v2e : V → List E) (v : V) (e : E) : V → List E :=
  fun x => if x = v then (v2e v).erase e else v2e x

/-- Lines 251-261: build the edge dict `e2v` (insertion order) and the
incidence table `v2e` from the host's edge-to-endpoints data `e2vHost`
(`mc.polyInfo(ev=True)`). -/
def buildMaps {E V : Type} [DecidableEq E] [DecidableEq V]
    (e2vHost : E → V × V) (selEdges : List E) :
    List (E × (V × V)) × (V → List E) :=
  selEdges.foldl
    (fun acc e =>
      (assocSet acc.1 e (e2vHost e),
       addEdge (addEdge acc.2 (e2vHost e).1 e) (e2vHost e).2 e))
    ([], fun _ => [])

/-- The `while True` walk of lines 273-289, growing `ring` in one direction.
Each successful iteration removes one edge from `e2v`, so the callers pass
`e2v.length` as fuel.  Python's `adj.pop()` mutates the incidence set even
when the following `e2v.pop` misses, hence the `discardEdge` before the
lookup in the `none` branch as well. -/
def ringWalk {E V : Type} [DecidableEq E] [DecidableEq V] :
    Nat → (V → List E) → List (E × (V × V)) → V → Bool → List E →
    List E × List (E × (V × V)) × (V → List E)
  | 0, v2e, e2v, _, _, ring => (ring, e2v, v2e)
  | fuel + 1, v2e, e2v, current, prepend, ring =>
      match v2e current with
      | [e] =>
          let v2eP := discardEdge v2e current e
          match lookupRemove e2v e with
          | none => (ring, e2v, v2eP)
          | some ((a, b), e2v2) =>
              let v2e2 := discardEdge (discardEdge v2eP a e) b e
              let ring2 := if prepend then e :: ring else ring ++ [e]
              ringWalk fuel v2e2 e2v2 (if a = current then b else a) prepend ring2
      | _ => (ring, e2v, v2e)

/-- The `for start in list(e2v.keys())` loop of lines 263-291: pop the next
snapshot key (skip if an earlier walk consumed it), remove the starting edge
from the incidence table, then walk forward from `v2` and backward from `v1`. -/
def groupsLoop {E V : Type} [DecidableEq E] [DecidableEq V] :
    List E → List (E × (V × V)) → (V → List E) → List (List E)
  | [], _, _ => []
  | start :: keys, e2v, v2e =>
      match lookupRemove e2v start with
      | none => groupsLoop keys e2v v2e
      | some ((v1, v2), e2v1) =>
          let v2e1 := discardEdge (discardEdge v2e v1 start) v2 start
          let r1 := ringWalk e2v1.length v2e1 e2v1 v2 false [start]
          let r2 := ringWalk r1.2.1.length r1.2.2 r1.2.1 v1 true r1.1
          r2.1 :: groupsLoop keys r2.2.1 r2.2.2

/-- `getEdgeRingGroupList(selEdges)` (lines 247-295).  The rings carry the
edge ids; the final formatting into `transform.e[id]` strings is a bijective
renaming and is dropped. -/
def getEdgeRingGroupList {E V : Type} [DecidableEq E] [DecidableEq V]
    (e2vHost : E → V × V) (selEdges : List E) : List (List E) :=
  if selEdges.isEmpty then []
  else
    let m := buildMaps e2vHost selEdges
    groupsLoop (m.1.map Prod.fst) m.1 m.2

/-- Canonical disjoint unions, component list `cs`: entry `(isCycle, m)` at
position `j` is a simple path with `m` edges on vertices `(j,0)..(j,m)` or a
simple cycle with `m` edges on vertices `(j,0)..(j,m-1)`; edge `(j,i)` joins
`(j,i)` and `(j,i+1)`, the cycle's last edge closing back to `(j,0)`. -/
def compE2V (c : Bool × Nat) (j i : Nat) : (Nat × Nat) × (Nat × Nat) :=
  if c.1 = true ∧ i = c.2 - 1 then ((j, i), (j, 0)) else ((j, i), (j, i + 1))

/-- Host endpoint data of the canonical family. -/
def multiE2V (cs : List (Bool × Nat)) : Nat × Nat → (Nat × Nat) × (Nat × Nat) :=
  fun e => compE2V (cs.getD e.1 (false, 0)) e.1 e.2

/-- The edges of the component at position `j`, in index order. -/
def compEdges (m j : Nat) : List (Nat × Nat) :=
  (List.range m).map (fun i => (j, i))

/-- The edges of the components of `cs` starting at position `j0`. -/
def sufEdges : List (Bool × Nat) → Nat → List (Nat × Nat)
  | [], _ => []
  | c :: rest, j0 => compEdges c.2 j0 ++ sufEdges rest (j0 + 1)

/-- The canonical selection: all edges of all components. -/
def multiEdges (cs : List (Bool × Nat)) : List (Nat × Nat) :=
  sufEdges cs 0

/-- The canonical `e2v` dict rows of one component. -/
def compAssoc (c : Bool × Nat) (j : Nat) :
    List ((Nat × Nat) × ((Nat × Nat) × (Nat × Nat))) :=
  (List.range c.2).map (fun i => ((j, i), compE2V c j i))

/-- The canonical dict rows of the component at position `j`, restricted to
edge indices `> t` (the first `t + 1` edges already consumed). -/
def compAssocFrom (c : Bool × Nat) (j t : Nat) :
    List ((Nat × Nat) × ((Nat × Nat) × (Nat × Nat))) :=
  (List.range' (t + 1) (c.2 - 1 - t)).map (fun i => ((j, i), compE2V c j i))

/-- The canonical `e2v` dict of the components from position `j0` on. -/
def sufAssoc : List (Bool × Nat) → Nat → List ((Nat × Nat) × ((Nat × Nat) × (Nat × Nat)))
  | [], _ => []
  | c :: rest, j0 => compAssoc c j0 ++ sufAssoc rest (j0 + 1)

/-- The canonical incidence lists of one untouched component (vertex index
`i` of component `(isCycle, m)` at position `j`), in `buildMaps` insertion
order. -/
def compV2E (c : Bool × Nat) (j : Nat) : Nat → List (Nat × Nat) :=
  fun i =>
    if c.1 = true then
      if c.2 ≤ i then []
      else if i = 0 then [(j, 0), (j, c.2 - 1)]
      else [(j, i - 1), (j, i)]
    else
      if c.2 + 1 ≤ i then []
      else if i = 0 then [(j, 0)]
      else if i = c.2 then [(j, c.2 - 1)]
      else [(j, i - 1), (j, i)]

/-- Route vertices of component `j0` to `f`, all others to `g`. -/
def overlayV2E (j0 : Nat) (f : Nat → List (Nat × Nat))
    (g : Nat × Nat → List (Nat × Nat)) : Nat × Nat → List (Nat × Nat) :=
  fun v => if v.1 = j0 then f v.2 else g v

/-- The canonical incidence table of the components from position `j0` on. -/
def sufV2E : List (Bool × Nat) → Nat → Nat × Nat → List (Nat × Nat)
  | [], _ => fun _ => []
  | c :: rest, j0 => overlayV2E j0 (compV2E c j0) (sufV2E rest (j0 + 1))

/-- The expected rings: one per component, in component order. -/
def sufRings : List (Bool × Nat) → Nat → List (List (Nat × Nat))
  | [], _ => []
  | c :: rest, j0 => compEdges c.2 j0 :: sufRings rest (j0 + 1)

/-- Incidence lists of a path component mid forward walk: edges `0..t`
consumed. -/
def pathMidV2E (m j t : Nat) : Nat → List (Nat × Nat) :=
  fun i =>
    if i ≤ t then []
    else if i = t + 1 then (if t + 1 < m then [(j, t + 1)] else [])
    else if i < m then [(j, i - 1), (j, i)]
    else if i = m then [(j, m - 1)]
    else []

/-- Incidence lists of a cycle component mid forward walk: edges `0..t`
consumed. -/
def cycMidV2E (m j t : Nat) : Nat → List (Nat × Nat) :=
  fun i =>
    if i = 0 then (if t = m - 1 then [] else [(j, m - 1)])
    else if i ≤ t then []
    else if i = t + 1 then (if t + 1 ≤ m - 1 then [(j, t + 1)] else [])
    else if i < m then [(j, i - 1), (j, i)]
    else []

/-- One fold step of `buildMaps` on the incidence table. -/
def buildStep {E V : Type} [DecidableEq E] [DecidableEq V] (h : E → V × V)
    (g : V → List E) (e : E) : V → List E :=
  addEdge (addEdge g (h e).1 e) (h e).2 e

/-- Incidence lists of component `j` while its open chain edges `0..t-1` have
been inserted by `buildMaps`. -/
def chainUpto (j t : Nat) : Nat → List (Nat × Nat) :=
  fun i =>
    if i < t then (if i = 0 then [(j, 0)] else [(j, i - 1), (j, i)])
    else if i = t ∧ 1 ≤ t then [(j, t - 1)]
    else []

/-- The endpoint of `e` other than `v` (`b if a == current else a`). -/
def otherEnd {E V : Type} [DecidableEq V] (h : E → V × V) (e : E) (v : V) : V :=
  if (h e).1 = v then (h e).2 else (h e).1

/-- `e` is incident to `v`. -/
def inc {E V : Type} [DecidableEq V] (h : E → V × V) (v : V) (e : E) : Bool :=
  decide ((h e).1 = v) || decide ((h e).2 = v)

/-- `es` is a chain of edges starting at `v`: each edge is incident to the
running vertex, which moves to the edge's other endpoint. -/
def chainOk {E V : Type} [DecidableEq V] (h : E → V × V) : V → List E → Bool
  | _, [] => true
  | v, e :: es => inc h v e && chainOk h (otherEnd h e v) es

/-- The vertices visited by a chain, starting vertex included. -/
def chainVerts {E V : Type} [DecidableEq V] (h : E → V × V) : V → List E → List V
  | v, [] => [v]
  | v, e :: es => v :: chainVerts h (otherEnd h e v) es

/-- The final vertex of a chain. -/
def chainEnd {E V : Type} [DecidableEq V] (h : E → V × V) : V → List E → V
  | v, [] => v
  | v, e :: es => chainEnd h (otherEnd h e v) es

/-- `(a, es)` is a simple component of the selection graph: a simple open
path (at least one edge, all visited vertices distinct) or a simple cycle
(at least three edges, returning to `a`, all other visited vertices
distinct). -/
def compOk {E V : Type} [DecidableEq V] (h : E → V × V) (c : V × List E) : Bool :=
  chainOk h c.1 c.2 && !c.2.isEmpty &&
    (if chainEnd h c.1 c.2 = c.1 then
      decide (3 ≤ c.2.length) && decide (chainVerts h c.1 c.2).dropLast.Nodup
    else decide (chainVerts h c.1 c.2).Nodup)

/-- The walk hypothesis: in the remaining edge set `R`, the running vertex
is incident exactly to the next chain edge, recursively as edges are
consumed; at the final vertex nothing is left. -/
def chainInc {E V : Type} [DecidableEq E] [DecidableEq V] (h : E → V × V) :
    List E → V → List E → Prop
  | R, w, [] => ∀ e ∈ R, inc h w e = false
  | R, w, f :: es =>
      (∀ e ∈ R, (inc h w e = true ↔ e = f)) ∧
      chainInc h (R.erase f) (otherEnd h f w) es

/-! ## Basic lemmas about the list primitives -/

theorem length_insertStable {β κ : Type} [LinearOrder κ] (key : β → κ) (x : β) :
    ∀ l : List β, (insertStable key x l).length = l.length + 1
  | [] => rfl
  | y :: ys => by
      simp only [insertStable]
      split
      · simp [length_insertStable key x ys]
      · simp

theorem length_sortStable {β κ : Type} [LinearOrder κ] (key : β → κ) :
    ∀ l : List β, (sortStable key l).length = l.length
  | [] => rfl
  | x :: xs => by
      simp [sortStable, length_insertStable, length_sortStable key xs]

theorem mem_insertStable {β κ : Type} [LinearOrder κ] (key : β → κ) (x y : β) :
    ∀ l : List β, (y ∈ insertStable key x l ↔ y = x ∨ y ∈ l)
  | [] => by simp [insertStable]
  | z :: zs => by
      simp only [insertStable]
      split
      · simp only [List.mem_cons, mem_insertStable key x y zs]
        tauto
      · simp only [List.mem_cons]

theorem mem_sortStable {β κ : Type} [LinearOrder κ] (key : β → κ) (y : β) :
    ∀ l : List β, (y ∈ sortStable key l ↔ y ∈ l)
  | [] => Iff.rfl
  | x :: xs => by
      simp only [sortStable, mem_insertStable, List.mem_cons, mem_sortStable key y xs]

/-- The head of a stable sort is a minimum of the list. -/
theorem sortStable_cons_min {β κ : Type} [LinearOrder κ] (key : β → κ) :
    ∀ l : List β, l ≠ [] →
      ∃ z rest, sortStable key l = z :: rest ∧ z ∈ l ∧ ∀ y ∈ l, key z ≤ key y
  | [], h => absurd rfl h
  | x :: xs, _ => by
      rcases eq_or_ne xs [] with rfl | hxs
      · exact ⟨x, [], rfl, List.mem_singleton_self x, by simp⟩
      · obtain ⟨z, rest, hz, hzm, hzmin⟩ := sortStable_cons_min key xs hxs
        simp only [sortStable, hz, insertStable]
        split
        · refine ⟨z, _, rfl, List.mem_cons_of_mem _ hzm, ?_⟩
          intro y hy
          rcases List.mem_cons.mp hy with rfl | hy
          · exact le_of_lt (by assumption)
          · exact hzmin y hy
        · refine ⟨x, _, rfl, List.mem_cons_self x xs, ?_⟩
          intro y hy
          rcases List.mem_cons.mp hy with rfl | hy
          · exact le_rfl
          · exact le_trans (not_lt.mp (by assumption)) (hzmin y hy)

theorem argminFirst_lt (f : Nat → ℚ) (k : Nat) (hk : 0 < k) : argminFirst f k < k := by
  have aux : ∀ (l : List Nat) (acc : Nat), acc < k → (∀ i ∈ l, i < k) →
      l.foldl (fun acc i => if f i < f acc then i else acc) acc < k := by
    intro l
    induction l with
    | nil => intro acc h _; exact h
    | cons i t ih =>
        intro acc h hm
        simp only [List.foldl]
        split
        · exact ih i (hm i (List.mem_cons_self i t)) (fun j hj => hm j (List.mem_cons_of_mem _ hj))
        · exact ih acc h (fun j hj => hm j (List.mem_cons_of_mem _ hj))
  exact aux (List.range k) 0 hk (fun i hi => List.mem_range.mp hi)

theorem argminFirst_four_zero (f : Nat → ℚ) (h1 : ¬ f 1 < f 0) (h2 : ¬ f 2 < f 0)
    (h3 : ¬ f 3 < f 0) : argminFirst f 4 = 0 := by
  have e : List.range 4 = [0, 1, 2, 3] := rfl
  simp only [argminFirst, e, List.foldl]
  rw [if_neg (lt_irrefl _), if_neg h1, if_neg h2, if_neg h3]

theorem foldl_max_const (d : ℚ) : ∀ (l : List ℚ), (∀ x ∈ l, x = d) → l.foldl max d = d
  | [], _ => rfl
  | x :: xs, h => by
      have hx : x = d := h x (List.mem_cons_self x xs)
      simp only [List.foldl, hx, max_self]
      exact foldl_max_const d xs (fun y hy => h y (List.mem_cons_of_mem _ hy))

theorem foldl_min_const (d : ℚ) : ∀ (l : List ℚ), (∀ x ∈ l, x = d) → l.foldl min d = d
  | [], _ => rfl
  | x :: xs, h => by
      have hx : x = d := h x (List.mem_cons_self x xs)
      simp only [List.foldl, hx, min_self]
      exact foldl_min_const d xs (fun y hy => h y (List.mem_cons_of_mem _ hy))

theorem pyMax_const (d : ℚ) (l : List ℚ) (h : ∀ x ∈ l, x = d) (hne : l ≠ []) :
    pyMax l = d := by
  obtain ⟨x, xs, rfl⟩ := List.exists_cons_of_ne_nil hne
  have hx : x = d := h x (List.mem_cons_self x xs)
  simp only [pyMax, List.headD, hx]
  exact foldl_max_const d _ (by simpa [hx] using h)

theorem pyMin_const (d : ℚ) (l : List ℚ) (h : ∀ x ∈ l, x = d) (hne : l ≠ []) :
    pyMin l = d := by
  obtain ⟨x, xs, rfl⟩ := List.exists_cons_of_ne_nil hne
  have hx : x = d := h x (List.mem_cons_self x xs)
  simp only [pyMin, List.headD, hx]
  exact foldl_min_const d _ (by simpa [hx] using h)

theorem getD_mem_of_lt {γ : Type} (l : List γ) (d : γ) (n : Nat) (h : n < l.length) :
    l.getD n d ∈ l := by
  rw [List.getD_eq_getElem l d h]
  exact List.getElem_mem h

theorem angleDataClosed_length {α : Type} [Inhabited α] (angle : Nat → ℚ) (vtx : List α) :
    (angleDataClosed angle vtx).length = vtx.length := by
  simp [angleDataClosed]

theorem mem_angleDataClosed {α : Type} [Inhabited α] (angle : Nat → ℚ) (vtx : List α)
    (s : Sample α) (hs : s ∈ angleDataClosed angle vtx) :
    s.idx < vtx.length ∧ s.dev = |angle s.idx - 90| := by
  simp only [angleDataClosed, List.mem_map, List.mem_range] at hs
  obtain ⟨i, hi, rfl⟩ := hs
  exact ⟨hi, rfl⟩

/-! ## Claim C10: under-sized loops yield four empty lists -/

/-- C10: for fewer than 4 vertices, `segmentsPositions_adaptive` returns four
empty lists, and for fewer than 3 vertices so does `segmentsAdaptiveOpen`;
neither branch can raise. -/
theorem claim10_undersized_loops {α β : Type} [Inhabited α] (angle : Nat → ℚ)
    (pos : α → β) (vtxC vtxO : List α) (st ct : ℚ)
    (hC : vtxC.length < 4) (hO : vtxO.length < 3) :
    segmentsPositions_adaptive angle pos vtxC st ct = ([], [], [], []) ∧
    segmentsAdaptiveOpen angle pos vtxO st ct = ([], [], [], []) := by
  constructor
  · simp [segmentsPositions_adaptive, hC]
  · simp [segmentsAdaptiveOpen, hO]

/-- C10 witness at concrete under-sized inputs. -/
theorem claim10_undersized_loops_witness :
    segmentsPositions_adaptive (fun _ => (150 : ℚ)) (id : Nat → Nat) [7, 8, 9] 5 30
        = ([], [], [], []) ∧
    segmentsAdaptiveOpen (fun _ => (150 : ℚ)) (id : Nat → Nat) [7, 8] 5 30
        = ([], [], [], []) :=
  claim10_undersized_loops (fun _ => (150 : ℚ)) id [7, 8, 9] [7, 8] 5 30
    (by decide) (by decide)

/-! ## Claim C9: `checkFlatLoop` is the thresholded average angle difference -/

/-- C9: `checkFlatLoop` returns 1 iff the average absolute successive angle
difference (endpoint samples fixed at 180°) is strictly below the threshold,
and returns the "not flat" sentinel 0 whenever there are zero difference
pairs (length ≤ 1). -/
theorem claim9_checkFlatLoop {α : Type} [Inhabited α] (angle : Nat → ℚ)
    (vtx : List α) (thr : ℚ) :
    (2 ≤ vtx.length →
      (checkFlatLoop angle vtx thr = 1 ↔ specAvgAbsDiff angle vtx < thr)) ∧
    (vtx.length ≤ 1 → checkFlatLoop angle vtx thr = 0) := by
  have hanglen : ((angleDataOpen angle vtx).map (·.angle)).length = vtx.length := by
    simp [angleDataOpen]
  set angles := (angleDataOpen angle vtx).map (·.angle) with hang
  have hdlen : ((angles.zip angles.tail).map (fun p => |p.1 - p.2|)).length
      = vtx.length - 1 := by
    simp [List.length_zip, hanglen]
  constructor
  · intro h2
    have hne : ¬ ((angles.zip angles.tail).map (fun p => |p.1 - p.2|)).isEmpty := by
      rw [List.isEmpty_iff_length_eq_zero, hdlen]
      omega
    simp only [checkFlatLoop, specAvgAbsDiff, ← hang, hne, if_false, Bool.false_eq_true,
      hdlen]
    split
    · simp_all
    · simp_all
  · intro h1
    have hz : (angles.zip angles.tail).map (fun p => |p.1 - p.2|) = [] := by
      rw [← List.length_eq_zero, hdlen]
      omega
    simp only [checkFlatLoop, ← hang, hz]
    simp

/-- C9 witness: a concrete 4-vertex loop with small angle differences is flat,
and a loop of length 1 returns 0. -/
theorem claim9_checkFlatLoop_witness :
    checkFlatLoop (fun i => [0, 178, 179, 0].getD i 0) (List.range 4) (5 : ℚ) = 1 ∧
    checkFlatLoop (fun _ => (0 : ℚ)) [0] (5 : ℚ) = 0 := by
  constructor
  · exact ((claim9_checkFlatLoop (fun i => [0, 178, 179, 0].getD i 0)
      (List.range 4) 5).1 (by decide)).mpr
      (by norm_num [specAvgAbsDiff, angleDataOpen, List.range_succ])
  · exact (claim9_checkFlatLoop (fun _ => (0 : ℚ)) [0] 5).2 (by decide)

/-! ## Claim C2: the sharp vertex and the returned corner set -/

/-- C2 as stated is false (see `claim2_sharp_vertex_counterexample`): the code
ranks candidates by *ascending* deviation from 90°, so a sharp vertex
(angle 10°, deviation 80) among vertices slightly below 170° (deviation < 80)
is not selected.  Amended: if the sharp vertex's deviation is strictly below
every other vertex's deviation and no vertex passes the corner threshold,
then — given `spread > similarity_threshold` — the sharp vertex's index is a
member of the returned corner index set. -/
theorem claim2_sharp_vertex_amended {α : Type} [Inhabited α] (angle : Nat → ℚ)
    (vtx : List α) (st ct : ℚ) (s : Nat) (hn : 4 ≤ vtx.length) (hs : s < vtx.length)
    (hmin : ∀ i < vtx.length, i ≠ s → |angle s - 90| < |angle i - 90|)
    (hct : ∀ i < vtx.length, ct < |angle i - 90|)
    (hspread : ¬ (pyMax ((angleDataClosed angle vtx).map (·.dev))
                 - pyMin ((angleDataClosed angle vtx).map (·.dev)) ≤ st)) :
    s ∈ adaptiveCornerIdxs angle vtx st ct := by
  have hadlen : (angleDataClosed angle vtx).length = vtx.length :=
    angleDataClosed_length angle vtx
  have hfilter : (angleDataClosed angle vtx).filter (fun x => decide (x.dev ≤ ct)) = [] := by
    rw [List.filter_eq_nil_iff]
    intro a ha
    obtain ⟨hia, hda⟩ := mem_angleDataClosed angle vtx a ha
    simp only [decide_eq_true_eq, not_le]
    rw [hda]
    exact hct a.idx hia
  have hne : angleDataClosed angle vtx ≠ [] := by
    intro h
    rw [h] at hadlen
    simp at hadlen
    omega
  obtain ⟨z, rest, hz, hzm, hzmin⟩ := sortStable_cons_min (·.dev) (angleDataClosed angle vtx) hne
  have hsmem : (⟨s, vtx.getD s default, angle s, |angle s - 90|⟩ : Sample α)
      ∈ angleDataClosed angle vtx := by
    simp only [angleDataClosed, List.mem_map, List.mem_range]
    exact ⟨s, hs, rfl⟩
  have hzidx : z.idx = s := by
    by_contra hne2
    obtain ⟨hzi, hzd⟩ := mem_angleDataClosed angle vtx z hzm
    have h1 := hmin z.idx hzi hne2
    have h2 := hzmin _ hsmem
    rw [hzd] at h2
    exact absurd h1 (not_lt.mpr h2)
  have hlen4 : ((sortStable (·.idx)
      ((sortStable (·.dev) (angleDataClosed angle vtx)).take 4)).map (·.idx)).length = 4 := by
    rw [List.length_map, length_sortStable, List.length_take, length_sortStable, hadlen]
    omega
  have hmem : s ∈ (sortStable (·.idx)
      ((sortStable (·.dev) (angleDataClosed angle vtx)).take 4)).map (·.idx) := by
    refine List.mem_map.mpr ⟨z, ?_, hzidx⟩
    rw [mem_sortStable, hz]
    exact List.mem_cons_self z (rest.take 3)
  simp only [adaptiveCornerIdxs]
  rw [if_neg hspread, hfilter]
  simp only [List.length_nil, show ¬ ((4 : Nat) ≤ 0) from by omega, if_false]
  rw [if_neg]
  · exact hmem
  · rw [hlen4]
    simp

/-- C2 amended, witness: 8-vertex loop, sharp vertex 10° at index 0, all other
angles strictly between 170° and 180° (deviations strictly above 80);
thresholds 5 and 30; index 0 is returned as a corner. -/
theorem claim2_sharp_vertex_amended_witness :
    0 ∈ adaptiveCornerIdxs
        (fun i => [10, 171, 172, 173, 174, 175, 176, 177].getD i 0)
        (List.range 8) (5 : ℚ) (30 : ℚ) := by
  refine claim2_sharp_vertex_amended _ _ _ _ 0 (by decide) (by decide) ?_ ?_ ?_
  · intro i hi hne
    simp only [List.length_range] at hi
    interval_cases i
    · exact absurd rfl hne
    all_goals norm_num
  · intro i hi
    simp only [List.length_range] at hi
    interval_cases i
    all_goals norm_num
  · norm_num [angleDataClosed, pyMax, pyMin, List.range_succ]

/-- C2 counterexample to the claim as stated: closed loop of 8 vertices, one
sharp vertex (angle 10°, deviation 80) at index 0, the others near 170°
(angles 165..172, deviations 75..82), spread 7 > similarity threshold 5:
the sharp vertex's index 0 is not in the returned corner set [1, 2, 3, 4]. -/
theorem claim2_sharp_vertex_counterexample :
    adaptiveCornerIdxs
        (fun i => [10, 165, 166, 167, 168, 169, 171, 172].getD i 0)
        (List.range 8) (5 : ℚ) (30 : ℚ) = [1, 2, 3, 4] ∧
    0 ∉ adaptiveCornerIdxs
        (fun i => [10, 165, 166, 167, 168, 169, 171, 172].getD i 0)
        (List.range 8) (5 : ℚ) (30 : ℚ) := by
  have h : adaptiveCornerIdxs
      (fun i => [10, 165, 166, 167, 168, 169, 171, 172].getD i 0)
      (List.range 8) (5 : ℚ) (30 : ℚ) = [1, 2, 3, 4] := by
    norm_num [adaptiveCornerIdxs, angleDataClosed, pyMax, pyMin, sortStable,
      insertStable, List.range_succ]
  rw [h]
  refine ⟨rfl, by decide⟩

/-! ## Lemmas about the closed-loop walk and the rebalancing cut -/

theorem closedWalk_ne_nil {α : Type} [Inhabited α] (vtx : List α) (n e fuel start : Nat)
    (h : 0 < fuel) : closedWalk vtx n e fuel start ≠ [] := by
  cases fuel with
  | zero => omega
  | succ f => simp [closedWalk]

/-- Length of a non-wrapping walk: from `start` up to `e` it collects
`e + 1 - start` vertices. -/
theorem closedWalk_length_no_wrap {α : Type} [Inhabited α] (vtx : List α) (n e : Nat)
    (he : e < n) :
    ∀ (fuel start : Nat), start ≤ e → e - start < fuel →
      (closedWalk vtx n e fuel start).length = e + 1 - start := by
  intro fuel
  induction fuel with
  | zero => intro start _ h; omega
  | succ f ih =>
      intro start hse hf
      rcases eq_or_ne start e with rfl | hne
      · simp [closedWalk]
      · have hlt : start < e := lt_of_le_of_ne hse hne
        have hmod : (start + 1) % n = start + 1 := Nat.mod_eq_of_lt (by omega)
        simp only [closedWalk, if_neg hne, hmod, List.length_cons]
        rw [ih (start + 1) (by omega) (by omega)]
        omega

/-- Length of the wrapping walk back to corner 0: from `start ≥ 1` it collects
the `n - start` tail vertices and then vertex 0. -/
theorem closedWalk_length_wrap_zero {α : Type} [Inhabited α] (vtx : List α) (n : Nat)
    (hn : 0 < n) :
    ∀ (fuel start : Nat), 1 ≤ start → start < n → n - start < fuel →
      (closedWalk vtx n 0 fuel start).length = n - start + 1 := by
  intro fuel
  induction fuel with
  | zero => intro start _ _ h; omega
  | succ f ih =>
      intro start h1 h2 hf
      rcases eq_or_ne (start + 1) n with hsn | hsn
      · have hmod : (start + 1) % n = 0 := by rw [hsn, Nat.mod_self]
        obtain ⟨g, rfl⟩ : ∃ g, f = g + 1 := ⟨f - 1, by omega⟩
        simp only [closedWalk, if_neg (by omega : ¬ start = 0), hmod, if_true,
          eq_self_iff_true, List.length_cons, List.length_nil]
        omega
      · have hmod : (start + 1) % n = start + 1 := Nat.mod_eq_of_lt (by omega)
        simp only [closedWalk, if_neg (by omega : ¬ start = 0), hmod, List.length_cons]
        rw [ih (start + 1) (by omega) (by omega) (by omega)]
        omega

/-- The four final segment lengths produced by the rebalancing cut. -/
theorem rebalanceSegments_lengths {α : Type} [Inhabited α] (rotated : List α)
    (n len0 : Nat) (hrot : rotated.length = n) (h1 : 1 ≤ len0) (h2 : len0 ≤ n / 2)
    (hn : 4 ≤ n) :
    (rebalanceSegments rotated n len0).map List.length =
      [len0, n / 2 + 2 - len0, len0, n - n / 2 - len0 + 2] := by
  have hend1 : ((len0 : Int) + ((n / 2 : Nat) - (len0 : Nat) : Int) + 1).toNat
      = n / 2 + 1 := by omega
  simp only [rebalanceSegments, pySlice, List.map, List.length_cons, List.length_nil,
    List.length_take, List.length_drop, List.length_append, hrot, hend1]
  have e0 : min len0 n = len0 := by omega
  have e1 : min (n / 2 + 1 - (len0 - 1)) (n - (len0 - 1)) = n / 2 + 2 - len0 := by omega
  have e2 : min (n / 2 + 1 - 1 + len0 - (n / 2 + 1 - 1)) (n - (n / 2 + 1 - 1))
      = len0 := by omega
  rw [e0, e1, e2]
  have e3 : n - (n / 2 + 1 - 1 + len0 - 1 + 1) + (0 + 1) + 1 = n - n / 2 - len0 + 2 := by
    omega
  rw [e3]

/-! ## Structural lemmas about `adaptiveCornerIdxs` and friends -/

theorem ite_length_four {c fb : List Nat} (hfb : fb.length = 4) :
    (if c.length ≠ 4 then fb else c).length = 4 := by
  split
  · exact hfb
  · next h => exact not_not.mp h

theorem adaptiveCornerIdxs_length {α : Type} [Inhabited α] (angle : Nat → ℚ)
    (vtx : List α) (st ct : ℚ) (hn : 4 ≤ vtx.length) :
    (adaptiveCornerIdxs angle vtx st ct).length = 4 := by
  have hadlen : (angleDataClosed angle vtx).length = vtx.length :=
    angleDataClosed_length angle vtx
  have hfb : ((sortStable (·.idx)
      ((sortStable (·.dev) (angleDataClosed angle vtx)).take 4)).map (·.idx)).length = 4 := by
    rw [List.length_map, length_sortStable, List.length_take, length_sortStable, hadlen]
    omega
  simp only [adaptiveCornerIdxs]
  exact ite_length_four hfb

theorem adaptiveCornerIdxs_lt {α : Type} [Inhabited α] (angle : Nat → ℚ)
    (vtx : List α) (st ct : ℚ) (hn : 0 < vtx.length) :
    ∀ x ∈ adaptiveCornerIdxs angle vtx st ct, x < vtx.length := by
  have hidx : ∀ s ∈ angleDataClosed angle vtx, Sample.idx s < vtx.length :=
    fun s hs => (mem_angleDataClosed angle vtx s hs).1
  have hchain : ∀ (l : List (Sample α)), (∀ s ∈ l, Sample.idx s < vtx.length) →
      ∀ x ∈ (sortStable (·.idx) l).map (·.idx), x < vtx.length := by
    intro l hl x hx
    obtain ⟨s, hs, rfl⟩ := List.mem_map.mp hx
    exact hl s ((mem_sortStable _ _ _).mp hs)
  intro x hx
  simp only [adaptiveCornerIdxs] at hx
  have hfb : ∀ x ∈ (sortStable (·.idx)
      ((sortStable (·.dev) (angleDataClosed angle vtx)).take 4)).map (·.idx),
      x < vtx.length := by
    refine hchain _ ?_
    intro s hs
    exact hidx s ((mem_sortStable _ _ _).mp (List.mem_of_mem_take hs))
  split at hx
  · -- uniform-spacing branch
    split at hx
    · exact hfb x hx
    · simp only [List.mem_map, List.mem_range] at hx
      obtain ⟨i, hi, rfl⟩ := hx
      have him : i * vtx.length ≤ 3 * vtx.length := by
        have : i ≤ 3 := by omega
        exact Nat.mul_le_mul_right _ this
      calc i * vtx.length / 4 ≤ 3 * vtx.length / 4 := Nat.div_le_div_right him
        _ < vtx.length := by omega
  · -- angle-driven branch
    split at hx
    · split at hx
      · exact hfb x hx
      · refine hchain _ ?_ x hx
        intro s hs
        exact hidx s (List.mem_filter.mp
          ((mem_sortStable _ _ _).mp (List.mem_of_mem_take hs))).1
    · split at hx
      · exact hfb x hx
      · refine hchain _ ?_ x hx
        intro s hs
        exact hidx s ((mem_sortStable _ _ _).mp (List.mem_of_mem_take hs))

theorem adaptiveInitSegments_length {α : Type} [Inhabited α] (vtx : List α)
    (ci : List Nat) : (adaptiveInitSegments vtx ci).length = 4 := by
  simp [adaptiveInitSegments]

theorem adaptiveStartLoop_lt {α : Type} [Inhabited α] (angle : Nat → ℚ) (vtx : List α)
    (st ct : ℚ) (hn : 4 ≤ vtx.length) : adaptiveStartLoop angle vtx st ct < vtx.length := by
  have hb := argminFirst_lt
    (fun i => |(((adaptiveInitSegments vtx (adaptiveCornerIdxs angle vtx st ct)).map
        List.length).getD i 0 : ℚ) - (vtx.length : ℚ) / 4|) 4 (by omega)
  have hlen := adaptiveCornerIdxs_length angle vtx st ct hn
  have hmem : (adaptiveCornerIdxs angle vtx st ct).getD
      (adaptiveBestIdx ((adaptiveInitSegments vtx
        (adaptiveCornerIdxs angle vtx st ct)).map List.length) vtx.length) 0
      ∈ adaptiveCornerIdxs angle vtx st ct := by
    apply getD_mem_of_lt
    rw [hlen]
    exact hb
  exact adaptiveCornerIdxs_lt angle vtx st ct (by omega) _ hmem

theorem adaptiveLen0_pos {α : Type} [Inhabited α] (angle : Nat → ℚ) (vtx : List α)
    (st ct : ℚ) (hn : 4 ≤ vtx.length) : 1 ≤ adaptiveLen0 angle vtx st ct := by
  simp only [adaptiveLen0, adaptiveInitSegments, adaptiveBestIdx]
  have hb := argminFirst_lt
    (fun i => |((((List.range 4).map (fun k =>
        closedWalk vtx vtx.length
          ((adaptiveCornerIdxs angle vtx st ct).getD ((k + 1) % 4) 0) vtx.length
          ((adaptiveCornerIdxs angle vtx st ct).getD k 0))).map
        List.length).getD i 0 : ℚ) - (vtx.length : ℚ) / 4|) 4 (by omega)
  set b := argminFirst (fun i => |((((List.range 4).map (fun k =>
        closedWalk vtx vtx.length
          ((adaptiveCornerIdxs angle vtx st ct).getD ((k + 1) % 4) 0) vtx.length
          ((adaptiveCornerIdxs angle vtx st ct).getD k 0))).map
        List.length).getD i 0 : ℚ) - (vtx.length : ℚ) / 4|) 4 with hbdef
  have hmem : ((List.range 4).map (fun k =>
      closedWalk vtx vtx.length
        ((adaptiveCornerIdxs angle vtx st ct).getD ((k + 1) % 4) 0) vtx.length
        ((adaptiveCornerIdxs angle vtx st ct).getD k 0))).getD b []
      ∈ (List.range 4).map (fun k =>
        closedWalk vtx vtx.length
          ((adaptiveCornerIdxs angle vtx st ct).getD ((k + 1) % 4) 0) vtx.length
          ((adaptiveCornerIdxs angle vtx st ct).getD k 0)) := by
    apply getD_mem_of_lt
    simp only [List.length_map, List.length_range]
    exact hb
  obtain ⟨k, _, hk⟩ := List.mem_map.mp hmem
  rw [← hk]
  have := closedWalk_ne_nil vtx vtx.length
    ((adaptiveCornerIdxs angle vtx st ct).getD ((k + 1) % 4) 0) vtx.length
    ((adaptiveCornerIdxs angle vtx st ct).getD k 0) (by omega)
  have hpos := List.length_pos.mpr this
  omega

/-- Under-the-hood form of the segments component for `n ≥ 4`. -/
theorem segmentsPositions_adaptive_fst {α β : Type} [Inhabited α] (angle : Nat → ℚ)
    (pos : α → β) (vtx : List α) (st ct : ℚ) (hn : 4 ≤ vtx.length) :
    (segmentsPositions_adaptive angle pos vtx st ct).1 =
      rebalanceSegments
        (vtx.drop (adaptiveStartLoop angle vtx st ct)
          ++ vtx.take (adaptiveStartLoop angle vtx st ct))
        vtx.length (adaptiveLen0 angle vtx st ct) := by
  simp only [segmentsPositions_adaptive, adaptiveStartLoop, adaptiveLen0]
  rw [if_neg (by omega)]

/-! ## Claim C3: equal opposite segment pairs after rebalancing -/

/-- C3: on an even-length closed loop of `n ≥ 4` vertices with anchor span
`len0 ≤ n/2`, the rebalancing step yields segment lengths
`[len0, n/2 - len0 + 2, len0, n/2 - len0 + 2]`: opposite pairs are equal. -/
theorem claim3_rebalanced_opposite_pairs {α β : Type} [Inhabited α] (angle : Nat → ℚ)
    (pos : α → β) (vtx : List α) (st ct : ℚ) (hn : 4 ≤ vtx.length)
    (hev : vtx.length % 2 = 0)
    (hl : adaptiveLen0 angle vtx st ct ≤ vtx.length / 2) :
    ((segmentsPositions_adaptive angle pos vtx st ct).1).map List.length =
      [adaptiveLen0 angle vtx st ct,
       vtx.length / 2 - adaptiveLen0 angle vtx st ct + 2,
       adaptiveLen0 angle vtx st ct,
       vtx.length / 2 - adaptiveLen0 angle vtx st ct + 2] := by
  have hstart := adaptiveStartLoop_lt angle vtx st ct hn
  have hrot : (vtx.drop (adaptiveStartLoop angle vtx st ct)
      ++ vtx.take (adaptiveStartLoop angle vtx st ct)).length = vtx.length := by
    rw [List.length_append, List.length_drop, List.length_take]
    omega
  have hpos := adaptiveLen0_pos angle vtx st ct hn
  rw [segmentsPositions_adaptive_fst angle pos vtx st ct hn,
    rebalanceSegments_lengths _ _ _ hrot hpos hl hn]
  have e1 : vtx.length / 2 + 2 - adaptiveLen0 angle vtx st ct
      = vtx.length / 2 - adaptiveLen0 angle vtx st ct + 2 := by omega
  have e2 : vtx.length - vtx.length / 2 - adaptiveLen0 angle vtx st ct + 2
      = vtx.length / 2 - adaptiveLen0 angle vtx st ct + 2 := by omega
  rw [e1, e2]

/-- C3 witness: closed loop of 6 vertices, constant angle: anchor span
`len0 = 2 ≤ 3`, segment lengths `[2, 3, 2, 3]`. -/
theorem claim3_rebalanced_opposite_pairs_witness :
    ((segmentsPositions_adaptive (fun _ => (100 : ℚ)) (id : Nat → Nat)
        (List.range 6) 5 30).1).map List.length = [2, 3, 2, 3] := by
  have hc : adaptiveCornerIdxs (fun _ => (100 : ℚ)) (List.range 6) 5 30
      = [0, 1, 3, 4] := by
    norm_num [adaptiveCornerIdxs, angleDataClosed, pyMax, pyMin, List.range_succ]
  have hinit : adaptiveInitSegments (List.range 6) [0, 1, 3, 4]
      = [[0, 1], [1, 2, 3], [3, 4], [4, 5, 0]] := by
    norm_num [adaptiveInitSegments, closedWalk, List.range_succ]
  have hbest : adaptiveBestIdx [2, 3, 2, 3] 6 = 0 := by
    norm_num [adaptiveBestIdx, argminFirst, List.range_succ, List.getD, abs]
  have hlen : adaptiveLen0 (fun _ => (100 : ℚ)) (List.range 6) 5 30 = 2 := by
    simp only [adaptiveLen0]
    rw [hc, hinit]
    norm_num [hbest]
  have h := claim3_rebalanced_opposite_pairs (fun _ => (100 : ℚ)) (id : Nat → Nat)
    (List.range 6) 5 30 (by simp) (by simp) (by rw [hlen]; norm_num)
  rw [h, hlen]
  norm_num

/-! ## Claim C1: regular polygons and uniform corner spacing -/

theorem absDist_monotone (t x y : ℚ) (hx : t ≤ x) (hxy : x ≤ y) :
    ¬ |y - t| < |x - t| := by
  rw [abs_of_nonneg (by linarith), abs_of_nonneg (by linarith)]
  linarith

/-- C1 (amended): on a closed loop of `N ≥ 4` vertices whose per-vertex
deviations are all equal (regular polygon) with `0 ≤ similarity_threshold`,
the corner indices are `⌊i·N/4⌋` for `i = 0..3` and the four segment vertex
counts are `[N/4+1, N/2+1-N/4, N/4+1, N-N/2+1-N/4]`; these differ pairwise by
at most 1 whenever `N % 4 ≠ 3` (for `N % 4 = 3` the last exceeds the first
by 2, see the counterexample at `N = 7`). -/
theorem claim1_regular_polygon_amended {α β : Type} [Inhabited α] (angle : Nat → ℚ)
    (pos : α → β) (vtx : List α) (d st ct : ℚ)
    (hdev : ∀ i < vtx.length, |angle i - 90| = d)
    (hn : 4 ≤ vtx.length) (hst : 0 ≤ st) :
    adaptiveCornerIdxs angle vtx st ct =
      [0, vtx.length / 4, 2 * vtx.length / 4, 3 * vtx.length / 4] ∧
    ((segmentsPositions_adaptive angle pos vtx st ct).1).map List.length =
      [vtx.length / 4 + 1, vtx.length / 2 + 1 - vtx.length / 4,
       vtx.length / 4 + 1, vtx.length - vtx.length / 2 + 1 - vtx.length / 4] ∧
    (vtx.length % 4 ≠ 3 →
      ∀ a ∈ ((segmentsPositions_adaptive angle pos vtx st ct).1).map List.length,
      ∀ b ∈ ((segmentsPositions_adaptive angle pos vtx st ct).1).map List.length,
        a ≤ b + 1) := by
  have hconst : ∀ x ∈ (angleDataClosed angle vtx).map (·.dev), x = d := by
    intro x hx
    obtain ⟨s, hs, rfl⟩ := List.mem_map.mp hx
    obtain ⟨hi, hd⟩ := mem_angleDataClosed angle vtx s hs
    rw [hd]
    exact hdev s.idx hi
  have hdne : (angleDataClosed angle vtx).map (·.dev) ≠ [] := by
    have := angleDataClosed_length angle vtx
    intro h
    rw [← List.length_eq_zero, List.length_map, this] at h
    omega
  have hspread : pyMax ((angleDataClosed angle vtx).map (·.dev))
      - pyMin ((angleDataClosed angle vtx).map (·.dev)) ≤ st := by
    rw [pyMax_const d _ hconst hdne, pyMin_const d _ hconst hdne]
    simpa using hst
  have hmapuni : (List.range 4).map (fun i => i * vtx.length / 4)
      = [0, vtx.length / 4, 2 * vtx.length / 4, 3 * vtx.length / 4] := by
    rw [show List.range 4 = [0, 1, 2, 3] from rfl]
    simp
  have hcorners : adaptiveCornerIdxs angle vtx st ct =
      [0, vtx.length / 4, 2 * vtx.length / 4, 3 * vtx.length / 4] := by
    simp only [adaptiveCornerIdxs]
    rw [if_pos hspread, hmapuni, if_neg (by norm_num)]
  have hinitexp : adaptiveInitSegments vtx
      [0, vtx.length / 4, 2 * vtx.length / 4, 3 * vtx.length / 4] =
      [closedWalk vtx vtx.length (vtx.length / 4) vtx.length 0,
       closedWalk vtx vtx.length (2 * vtx.length / 4) vtx.length (vtx.length / 4),
       closedWalk vtx vtx.length (3 * vtx.length / 4) vtx.length (2 * vtx.length / 4),
       closedWalk vtx vtx.length 0 vtx.length (3 * vtx.length / 4)] := rfl
  have hl0 := closedWalk_length_no_wrap vtx vtx.length (vtx.length / 4) (by omega)
    vtx.length 0 (by omega) (by omega)
  have hl1 := closedWalk_length_no_wrap vtx vtx.length (2 * vtx.length / 4) (by omega)
    vtx.length (vtx.length / 4) (by omega) (by omega)
  have hl2 := closedWalk_length_no_wrap vtx vtx.length (3 * vtx.length / 4) (by omega)
    vtx.length (2 * vtx.length / 4) (by omega) (by omega)
  have hl3 := closedWalk_length_wrap_zero vtx vtx.length (by omega)
    vtx.length (3 * vtx.length / 4) (by omega) (by omega) (by omega)
  have hinitlen : (adaptiveInitSegments vtx
      (adaptiveCornerIdxs angle vtx st ct)).map List.length =
      [vtx.length / 4 + 1 - 0,
       2 * vtx.length / 4 + 1 - vtx.length / 4,
       3 * vtx.length / 4 + 1 - 2 * vtx.length / 4,
       vtx.length - 3 * vtx.length / 4 + 1] := by
    rw [hcorners, hinitexp]
    simp only [List.map]
    rw [hl0, hl1, hl2, hl3]
  have hcast : ∀ m : Nat, vtx.length / 4 + 1 ≤ m →
      ¬ |((m : ℚ)) - (vtx.length : ℚ) / 4| <
        |((vtx.length / 4 + 1 : Nat) : ℚ) - (vtx.length : ℚ) / 4| := by
    intro m hm
    apply absDist_monotone
    · have h1 : (vtx.length : ℚ) ≤ 4 * ((vtx.length / 4 : Nat) + 1 : ℚ) := by
        have h2 : vtx.length ≤ 4 * (vtx.length / 4 + 1) := by omega
        calc (vtx.length : ℚ) ≤ ((4 * (vtx.length / 4 + 1) : Nat) : ℚ) := by
              exact_mod_cast h2
          _ = 4 * ((vtx.length / 4 : Nat) + 1 : ℚ) := by push_cast; ring
      have : ((vtx.length / 4 + 1 : Nat) : ℚ) = ((vtx.length / 4 : Nat) + 1 : ℚ) := by
        push_cast
        ring
      rw [this]
      linarith
    · exact_mod_cast hm
  have hbest : adaptiveBestIdx ((adaptiveInitSegments vtx
      (adaptiveCornerIdxs angle vtx st ct)).map List.length) vtx.length = 0 := by
    rw [hinitlen]
    apply argminFirst_four_zero
    · have e : vtx.length / 4 + 1 - 0 = vtx.length / 4 + 1 := by omega
      rw [e]
      have hm : vtx.length / 4 + 1 ≤ 2 * vtx.length / 4 + 1 - vtx.length / 4 := by omega
      exact hcast _ hm
    · have e : vtx.length / 4 + 1 - 0 = vtx.length / 4 + 1 := by omega
      rw [e]
      have hm : vtx.length / 4 + 1 ≤ 3 * vtx.length / 4 + 1 - 2 * vtx.length / 4 := by
        omega
      exact hcast _ hm
    · have e : vtx.length / 4 + 1 - 0 = vtx.length / 4 + 1 := by omega
      rw [e]
      have hm : vtx.length / 4 + 1 ≤ vtx.length - 3 * vtx.length / 4 + 1 := by omega
      exact hcast _ hm
  have hstart : adaptiveStartLoop angle vtx st ct = 0 := by
    simp only [adaptiveStartLoop]
    rw [hbest, hcorners]
    rfl
  have hlen0 : adaptiveLen0 angle vtx st ct = vtx.length / 4 + 1 := by
    simp only [adaptiveLen0]
    rw [hbest, hcorners, hinitexp]
    simp only [List.getD_cons_zero]
    rw [hl0]
    omega
  have hseg : ((segmentsPositions_adaptive angle pos vtx st ct).1).map List.length =
      [vtx.length / 4 + 1, vtx.length / 2 + 1 - vtx.length / 4,
       vtx.length / 4 + 1, vtx.length - vtx.length / 2 + 1 - vtx.length / 4] := by
    rw [segmentsPositions_adaptive_fst angle pos vtx st ct hn, hstart, hlen0,
      List.drop_zero, List.take_zero, List.append_nil,
      rebalanceSegments_lengths vtx vtx.length _ rfl (by omega) (by omega) hn]
    simp only [List.cons.injEq, and_true]
    exact ⟨trivial, by omega, trivial, by omega⟩
  refine ⟨hcorners, hseg, ?_⟩
  intro h3 a ha b hb
  rw [hseg] at ha hb
  simp only [List.mem_cons, List.not_mem_nil, or_false] at ha hb
  rcases ha with rfl | rfl | rfl | rfl <;> rcases hb with rfl | rfl | rfl | rfl <;> omega

/-- C1 witness, the spec's 12-vertex perfect-circle scenario: regular 12-gon
(every interior angle 150°, every deviation 60), `similarity_threshold = 5`:
corners [0, 3, 6, 9], four segments of 4 vertices each. -/
theorem claim1_regular_polygon_witness :
    adaptiveCornerIdxs (fun _ => (150 : ℚ)) (List.range 12) 5 30 = [0, 3, 6, 9] ∧
    ((segmentsPositions_adaptive (fun _ => (150 : ℚ)) (id : Nat → Nat)
        (List.range 12) 5 30).1).map List.length = [4, 4, 4, 4] := by
  have h := claim1_regular_polygon_amended (fun _ => (150 : ℚ)) (id : Nat → Nat)
    (List.range 12) 60 5 30 (by intro i _; norm_num) (by simp) (by norm_num)
  refine ⟨?_, ?_⟩
  · have := h.1
    simpa using this
  · have := h.2.1
    simpa using this

/-- C1 counterexample to the claim as stated: a regular loop of 7 vertices
(constant angle, spread 0 ≤ 5) gets corners at ⌊i·7/4⌋ = [0,1,3,5] but final
segment vertex counts [2, 3, 2, 4]; two of them differ by 2, not at most 1. -/
theorem claim1_counterexample :
    ((segmentsPositions_adaptive (fun _ => (100 : ℚ)) (id : Nat → Nat)
        (List.range 7) 5 30).1).map List.length = [2, 3, 2, 4] ∧
    ¬ (∀ a ∈ ([2, 3, 2, 4] : List Nat), ∀ b ∈ ([2, 3, 2, 4] : List Nat),
        a ≤ b + 1) := by
  constructor
  · have hc : adaptiveCornerIdxs (fun _ => (100 : ℚ)) (List.range 7) 5 30
        = [0, 1, 3, 5] := by
      norm_num [adaptiveCornerIdxs, angleDataClosed, pyMax, pyMin, List.range_succ]
    have hinit : adaptiveInitSegments (List.range 7) [0, 1, 3, 5]
        = [[0, 1], [1, 2, 3], [3, 4, 5], [5, 6, 0]] := by
      norm_num [adaptiveInitSegments, closedWalk, List.range_succ]
    have hbest : adaptiveBestIdx [2, 3, 3, 3] 7 = 0 := by
      norm_num [adaptiveBestIdx, argminFirst, List.range_succ, List.getD, abs]
    have hstart : adaptiveStartLoop (fun _ => (100 : ℚ)) (List.range 7) 5 30 = 0 := by
      simp only [adaptiveStartLoop]
      rw [hc, hinit]
      norm_num [hbest]
    have hlen0 : adaptiveLen0 (fun _ => (100 : ℚ)) (List.range 7) 5 30 = 2 := by
      simp only [adaptiveLen0]
      rw [hc, hinit]
      norm_num [hbest]
    rw [segmentsPositions_adaptive_fst _ _ _ _ _ (by simp), hstart, hlen0]
    norm_num [rebalanceSegments, pySlice, List.range_succ,
      show Int.toNat 4 = 4 from rfl]
  · decide

/-! ## Claim C4: the open-loop two-sharp-corner split -/

theorem openWalk_eq_range {α : Type} [Inhabited α] (vtx : List α) (e : Nat) :
    ∀ (fuel start : Nat), start ≤ e → e - start < fuel →
      openWalk vtx e fuel start =
        (List.range (e - start + 1)).map (fun j => vtx.getD (start + j) default) := by
  intro fuel
  induction fuel with
  | zero => intro start _ h; omega
  | succ f ih =>
      intro start hse hf
      rcases eq_or_ne start e with rfl | hne
      · simp [openWalk, List.range_succ]
      · have hlt : start < e := lt_of_le_of_ne hse hne
        have hd : e - start = (e - (start + 1)) + 1 := by omega
        have hr : (List.range (e - start + 1)).map (fun j => vtx.getD (start + j) default)
            = vtx.getD start default ::
              (List.range (e - (start + 1) + 1)).map
                (fun j => vtx.getD (start + 1 + j) default) := by
          rw [hd, List.range_succ_eq_map, List.map_cons, List.map_map]
          congr 1
          refine List.map_congr_left ?_
          intro a _
          simp only [Function.comp_apply]
          congr 1
          omega
        simp only [openWalk, if_neg hne]
        rw [ih (start + 1) (by omega) (by omega), hr]

theorem getLast?_drop_of_lt {γ : Type} (l : List γ) (k : Nat) (h : k < l.length) :
    (l.drop k).getLast? = l.getLast? := by
  have hne : l.drop k ≠ [] := by
    intro hc
    rw [List.drop_eq_nil_iff] at hc
    omega
  obtain ⟨a, ha⟩ := Option.isSome_iff_exists.mp (List.getLast?_isSome.mpr hne)
  conv_rhs => rw [← List.take_append_drop k l]
  rw [List.getLast?_append, ha]
  rfl

theorem getLast?_take_succ {γ : Type} (l : List γ) (k : Nat) (h : k < l.length) :
    (l.take (k + 1)).getLast? = l[k]? := by
  rw [List.take_succ, List.getLast?_append]
  simp [List.getElem?_eq_getElem h]

theorem head?_drop_idx {γ : Type} (l : List γ) (c : Nat) : (l.drop c).head? = l[c]? := by
  rw [List.head?_eq_getElem?, List.getElem?_drop]
  simp

theorem head?_take_pos {γ : Type} (l : List γ) (k : Nat) (hk : 0 < k) :
    (l.take k).head? = l.head? := by
  rw [List.head?_eq_getElem?, List.head?_eq_getElem?, List.getElem?_take]
  rw [if_pos hk]

theorem angleDataOpen_fun_idx {α : Type} [Inhabited α] (angle : Nat → ℚ)
    (vtx : List α) (i : Nat) :
    (Sample.idx (if i = 0 ∨ i = vtx.length - 1
      then (⟨i, vtx.getD i default, 180, 90⟩ : Sample α)
      else ⟨i, vtx.getD i default, angle i, |angle i - 90|⟩)) = i := by
  split <;> rfl

theorem angleDataOpen_idx {α : Type} [Inhabited α] (angle : Nat → ℚ) (vtx : List α)
    (s : Sample α) (hs : s ∈ angleDataOpen angle vtx) : s.idx < vtx.length := by
  simp only [angleDataOpen, List.mem_map, List.mem_range] at hs
  obtain ⟨i, hi, hsEq⟩ := hs
  have : s.idx = i := by
    rw [← hsEq]
    exact angleDataOpen_fun_idx angle vtx i
  omega

theorem openSharpIdxs_sorted {α : Type} [Inhabited α] (angle : Nat → ℚ) (vtx : List α)
    (ct : ℚ) : (openSharpIdxs angle vtx ct).Pairwise (· < ·) := by
  have h0 : (angleDataOpen angle vtx).Pairwise (fun s t => s.idx < t.idx) := by
    simp only [angleDataOpen]
    rw [List.pairwise_map]
    refine (List.pairwise_lt_range vtx.length).imp ?_
    intro a b hab
    rw [angleDataOpen_fun_idx, angleDataOpen_fun_idx]
    exact hab
  simp only [openSharpIdxs]
  rw [List.pairwise_map]
  exact h0.sublist ((List.filter_sublist _).trans (List.filter_sublist _))

theorem mem_openSharpIdxs {α : Type} [Inhabited α] (angle : Nat → ℚ) (vtx : List α)
    (ct : ℚ) (x : Nat) (hx : x ∈ openSharpIdxs angle vtx ct) :
    x < vtx.length ∧ x ≠ 0 ∧ x ≠ vtx.length - 1 := by
  simp only [openSharpIdxs, openInterior, List.mem_map] at hx
  obtain ⟨s, hs, rfl⟩ := hx
  have hs1 := List.mem_filter.mp hs
  have hs2 := List.mem_filter.mp hs1.1
  have hb := hs1.2
  simp only [Bool.and_eq_true, decide_eq_true_eq] at hb
  exact ⟨angleDataOpen_idx angle vtx s hs2.1, hb.1, hb.2⟩

/-- C4: when exactly two interior indices `c0 < c1` pass the corner threshold
on an open loop, `segmentsAdaptiveOpen` returns three segments: the middle
span `[v_c0 .. v_c1]`, an end span that is a tail part of `[v_0 .. v_c0]` and
one that is a front part of `[v_c1 .. v_(n-1)]`, both of the equal length
`min (c0+1) (n-c1)` (the longer one truncated on its loop-end side), ending
at `v_c0` resp. starting at `v_c1`. -/
theorem claim4_open_two_corners {α β : Type} [Inhabited α] (angle : Nat → ℚ)
    (pos : α → β) (vtx : List α) (st ct : ℚ) (c0 c1 : Nat)
    (hn : 3 ≤ vtx.length)
    (hsharp : openSharpIdxs angle vtx ct = [c0, c1]) :
    ∃ e1 e2,
      (segmentsAdaptiveOpen angle pos vtx st ct).1 =
        [(List.range (c1 - c0 + 1)).map (fun j => vtx.getD (c0 + j) default), e1, e2] ∧
      e1 <:+ vtx.take (c0 + 1) ∧ e2 <+: vtx.drop c1 ∧
      e1.length = min (c0 + 1) (vtx.length - c1) ∧ e2.length = e1.length ∧
      e1.getLast? = some (vtx.getD c0 default) ∧
      e2.head? = some (vtx.getD c1 default) := by
  have hpw := openSharpIdxs_sorted angle vtx ct
  rw [hsharp] at hpw
  have hc01 : c0 < c1 := by
    simp only [List.pairwise_cons, List.mem_singleton, List.mem_cons] at hpw
    exact hpw.1 c1 (Or.inl rfl)
  have h0 := mem_openSharpIdxs angle vtx ct c0 (by rw [hsharp]; simp)
  have h1 := mem_openSharpIdxs angle vtx ct c1 (by rw [hsharp]; simp)
  have hc0pos : 1 ≤ c0 := by omega
  have hc1lt : c1 ≤ vtx.length - 2 := by omega
  have hl1 : (vtx.take (c0 + 1)).length = c0 + 1 := by
    rw [List.length_take]
    omega
  have hl2 : (vtx.drop c1).length = vtx.length - c1 := List.length_drop c1 vtx
  have hgd : ([c0, c1].getD 1 0) = c1 := rfl
  have hmin : min c0 c1 = c0 := by omega
  have hmax : max c0 c1 = c1 := by omega
  simp only [segmentsAdaptiveOpen, hsharp]
  rw [if_neg (by omega : ¬ vtx.length < 3)]
  simp only [List.length_cons, List.length_nil, List.getD_cons_zero, hgd, if_true]
  rw [hmin, hmax]
  rw [openWalk_eq_range vtx c1 vtx.length c0 (le_of_lt hc01) (by omega)]
  refine ⟨_, _, rfl, ?_, ?_, ?_, ?_, ?_, ?_⟩
  · split
    · exact List.drop_suffix _ _
    · exact List.suffix_refl _
  · split
    · exact List.take_prefix _ _
    · exact List.prefix_refl _
  · rw [apply_ite List.length]
    simp only [List.length_drop, List.length_take]
    split <;> omega
  · rw [apply_ite List.length, apply_ite List.length]
    simp only [List.length_drop, List.length_take]
    split <;> split <;> omega
  · have hc0lt : c0 < vtx.length := by omega
    have hlastTake : (vtx.take (c0 + 1)).getLast? = some (vtx.getD c0 default) := by
      rw [getLast?_take_succ vtx c0 hc0lt, List.getD_eq_getElem vtx default hc0lt,
        List.getElem?_eq_getElem hc0lt]
    split
    · rw [getLast?_drop_of_lt _ _ (by rw [hl1, hl2]; omega), hlastTake]
    · exact hlastTake
  · have hc1lt2 : c1 < vtx.length := by omega
    have hheadDrop : (vtx.drop c1).head? = some (vtx.getD c1 default) := by
      rw [head?_drop_idx vtx c1, List.getD_eq_getElem vtx default hc1lt2,
        List.getElem?_eq_getElem hc1lt2]
    split
    · rw [head?_take_pos _ _ (by rw [hl1]; omega), hheadDrop]
    · exact hheadDrop

/-- C4 witness, the spec's 7-vertex scenario: only interior indices 2 and 4
pass `corner_threshold = 55`; middle span `[v2, v3, v4]`, end spans of equal
length `min 3 3 = 3`. -/
theorem claim4_open_two_corners_witness :
    ∃ e1 e2,
      (segmentsAdaptiveOpen (fun i => [0, 170, 120, 170, 120, 170, 0].getD i 0)
          (id : Nat → Nat) (List.range 7) 35 55).1 =
        [(List.range (4 - 2 + 1)).map (fun j => (List.range 7).getD (2 + j) default),
         e1, e2] ∧
      e1 <:+ (List.range 7).take (2 + 1) ∧ e2 <+: (List.range 7).drop 4 ∧
      e1.length = min (2 + 1) ((List.range 7).length - 4) ∧ e2.length = e1.length ∧
      e1.getLast? = some ((List.range 7).getD 2 default) ∧
      e2.head? = some ((List.range 7).getD 4 default) :=
  claim4_open_two_corners (fun i => [0, 170, 120, 170, 120, 170, 0].getD i 0)
    (id : Nat → Nat) (List.range 7) 35 55 2 4 (by simp)
    (by norm_num [openSharpIdxs, openInterior, angleDataOpen, List.range_succ, abs])

/-! ## Claims C5, C7, C8: the loop orderer -/

theorem getLast?_range_succ (n : Nat) : (List.range (n + 1)).getLast? = some n := by
  rw [List.range_succ, List.getLast?_concat]

theorem range'_erase_last (s k : Nat) :
    (List.range' s (k + 1)).erase (s + k) = List.range' s k := by
  rw [List.range'_1_concat, List.erase_append_right _ (by simp [List.mem_range'_1]),
    List.erase_cons_head, List.append_nil]

/-- Endpoint-id multiplicities on the synthetic path with `m` edges. -/
theorem count_path_getNumber (m x : Nat) :
    ((List.range m).flatMap (fun e => [e, e + 1])).count x
      = (if x < m then 1 else 0) + (if 1 ≤ x ∧ x ≤ m then 1 else 0) := by
  induction m with
  | zero =>
      simp only [List.range_zero, List.flatMap_nil, List.count_nil]
      split_ifs <;> omega
  | succ k ih =>
      rw [List.range_succ, List.flatMap_append, List.count_append, ih]
      have hc : ([k].flatMap (fun e => [e, e + 1])).count x
          = (if x = k then 1 else 0) + (if x = k + 1 then 1 else 0) := by
        simp only [List.flatMap_cons, List.flatMap_nil, List.append_nil, List.count_cons,
          List.count_nil, beq_iff_eq]
        split_ifs <;> omega
      rw [hc]
      split_ifs <;> omega

theorem pathE2V_getNumber (m : Nat) :
    (List.range m).flatMap (fun e => [(pathE2V e).1, (pathE2V e).2])
      = (List.range m).flatMap (fun e => [e, e + 1]) := rfl

theorem mem_dupList {V : Type} [DecidableEq V] (g : List V) (x : V) :
    x ∈ dupList g ↔ 1 < g.count x := by
  simp only [dupList, List.mem_dedup, List.mem_filter, decide_eq_true_eq]
  constructor
  · exact fun h => h.2
  · intro h
    exact ⟨List.count_pos_iff.mp (by omega), h⟩

theorem nodup_dupList {V : Type} [DecidableEq V] (g : List V) : (dupList g).Nodup :=
  List.nodup_dedup _

theorem dupList_path (M : Nat) (hM : 2 ≤ M) :
    (dupList ((List.range (M - 1)).flatMap
      (fun e => [(pathE2V e).1, (pathE2V e).2]))).Perm (List.range' 1 (M - 2)) := by
  rw [pathE2V_getNumber]
  refine (List.perm_ext_iff_of_nodup (nodup_dupList _) (List.nodup_range' ..)).mpr ?_
  intro a
  rw [mem_dupList, count_path_getNumber, List.mem_range'_1]
  split_ifs <;> omega

theorem nodup_headTailSet {V : Type} [DecidableEq V] (g : List V) :
    (headTailSet g).Nodup := List.nodup_dedup _

theorem mem_headTailSet {V : Type} [DecidableEq V] (g : List V) (x : V) :
    x ∈ headTailSet g ↔ g.count x = 1 := by
  simp only [headTailSet, List.mem_dedup, List.mem_filter, decide_eq_true_eq]
  constructor
  · exact fun h => h.2
  · intro h
    exact ⟨List.count_pos_iff.mp (by omega), h⟩

/-- On the synthetic path the endpoint-candidate set is `{0, M-1}`. -/
theorem headTailSet_path (M : Nat) (hM : 2 ≤ M) :
    (headTailSet ((List.range (M - 1)).flatMap
      (fun e => [(pathE2V e).1, (pathE2V e).2]))).Perm [0, M - 1] := by
  rw [pathE2V_getNumber]
  refine (List.perm_ext_iff_of_nodup (nodup_headTailSet _) ?_).mpr ?_
  · simp
    omega
  · intro a
    rw [mem_headTailSet, count_path_getNumber]
    simp only [List.mem_cons, List.mem_singleton, List.not_mem_nil, or_false]
    split_ifs <;> omega

/-- One forward iteration of the walk on the path. -/
theorem loopBody_path_fwd (M t : Nat) (dup : List Nat) (hM : 3 ≤ M) (ht : t ≤ M - 3)
    (hperm : dup.Perm (List.range' (t + 1) (M - 2 - t))) :
    loopBody (pathV2E M) pathE2V ⟨List.range' t (M - 1 - t), dup, List.range (t + 1)⟩ =
      some ⟨List.range' (t + 1) (M - 1 - (t + 1)), dup.erase (t + 1),
            List.range (t + 1 + 1)⟩ := by
  have hmem1 : t + 1 ∈ dup := hperm.mem_iff.mpr (by simp [List.mem_range'_1]; omega)
  have hmem0 : t ∉ dup := by
    intro h
    have := hperm.mem_iff.mp h
    simp [List.mem_range'_1] at this
  have hlm1 : lastMatch (pathV2E M t) (List.range' t (M - 1 - t)) = some t := by
    have hin : t ∈ List.range' t (M - 1 - t) := by
      simp [List.mem_range'_1]
      omega
    rcases Nat.eq_zero_or_pos t with rfl | htpos
    · simp [lastMatch, pathV2E, hin]
      omega
    · have h1 : t ≠ 0 := by omega
      have h2 : t ≠ M - 1 := by omega
      have hout : t - 1 ∉ List.range' t (M - 1 - t) := by
        simp [List.mem_range'_1]
        omega
      simp [lastMatch, pathV2E, h1, h2, hin, hout]
      omega
  have hlm2 : lastMatch [(pathE2V t).1, (pathE2V t).2] dup = some (t + 1) := by
    simp [lastMatch, pathE2V, hmem0, hmem1]
  have herase : (List.range' t (M - 1 - t)).erase t
      = List.range' (t + 1) (M - 1 - (t + 1)) := by
    rw [show M - 1 - t = (M - 1 - (t + 1)) + 1 from by omega, List.range'_succ,
      List.erase_cons_head]
  simp only [loopBody, getLast?_range_succ, hlm1, hlm2, herase, ← List.range_succ]

/-- The forward walk on the path: from `t` completed iterations the loop
performs `min fuel (M-2-t)` more, consuming edges and interior vertices in
ascending order. -/
theorem walkLoop_path_fwd (M : Nat) (hM : 2 ≤ M) :
    ∀ (fuel t count : Nat) (dup : List Nat), t ≤ M - 2 →
      dup.Perm (List.range' (t + 1) (M - 2 - t)) →
      ∃ dup2 : List Nat,
        walkLoop (pathV2E M) pathE2V fuel count
            ⟨List.range' t (M - 1 - t), dup, List.range (t + 1)⟩
          = some (⟨List.range' (t + min fuel (M - 2 - t))
                     (M - 1 - (t + min fuel (M - 2 - t))), dup2,
                   List.range (t + min fuel (M - 2 - t) + 1)⟩,
                  count + min fuel (M - 2 - t)) := by
  intro fuel
  induction fuel with
  | zero =>
      intro t count dup ht hperm
      refine ⟨dup, ?_⟩
      simp [walkLoop]
  | succ f ih =>
      intro t count dup ht hperm
      by_cases hd : dup.isEmpty
      · have hdnil : dup = [] := List.isEmpty_iff.mp hd
        subst hdnil
        have h0 : M - 2 - t = 0 := by
          have hl := hperm.length_eq
          simp [List.length_range'] at hl
          omega
        refine ⟨[], ?_⟩
        rw [h0]
        simp [walkLoop]
      · have hne : dup ≠ [] := fun h => by simp [h] at hd
        have hlen : 1 ≤ M - 2 - t := by
          have hl := hperm.length_eq
          rcases Nat.eq_zero_or_pos (M - 2 - t) with h0 | h1
          · rw [h0] at hl
            simp at hl
            exact absurd hl hne
          · omega
        have hM3 : 3 ≤ M := by omega
        have ht3 : t ≤ M - 3 := by omega
        have hperm2 : (dup.erase (t + 1)).Perm
            (List.range' (t + 1 + 1) (M - 2 - (t + 1))) := by
          have hp := hperm.erase (t + 1)
          rwa [show M - 2 - t = (M - 2 - (t + 1)) + 1 from by omega, List.range'_succ,
            List.erase_cons_head] at hp
        obtain ⟨dup2, heq⟩ := ih (t + 1) (count + 1) (dup.erase (t + 1)) (by omega) hperm2
        refine ⟨dup2, ?_⟩
        simp only [walkLoop, if_neg hd, loopBody_path_fwd M t dup hM3 ht3 hperm]
        rw [heq]
        have hmin : t + 1 + min f (M - 2 - (t + 1)) = t + min (f + 1) (M - 2 - t) := by
          omega
        have hcnt : count + 1 + min f (M - 2 - (t + 1))
            = count + min (f + 1) (M - 2 - t) := by
          omega
        rw [hmin, hcnt]

/-- The visible result of the loop orderer on the path with head choice `0`:
`min 1000 (M-2)` iterations, then the tail endpoint appended. -/
theorem vtxLoopOrderCheck_path_fwd (M : Nat) (hM : 2 ≤ M) :
    vtxLoopOrderCheck (pathV2E M) pathE2V (List.range (M - 1)) [0, M - 1]
      = some (0, List.range (min 1000 (M - 2) + 1) ++ [M - 1]) := by
  have hne : ¬ ((List.range (M - 1)).isEmpty = true) := by
    simp [List.isEmpty_iff]
    omega
  obtain ⟨dup2, heq⟩ := walkLoop_path_fwd M hM 1000 0 0
    (dupList ((List.range (M - 1)).flatMap (fun e => [(pathE2V e).1, (pathE2V e).2])))
    (by omega) (by simpa using dupList_path M hM)
  simp only [Nat.sub_zero, Nat.zero_add] at heq
  rw [← List.range_eq_range', show List.range 1 = [0] from rfl] at heq
  simp only [vtxLoopOrderCheck, hne, if_false, List.isEmpty_cons, List.headD,
    Bool.false_eq_true]
  rw [heq]
  simp

/-- One backward iteration of the walk on the path (head choice `M-1`). -/
theorem loopBody_path_bwd (M t : Nat) (dup : List Nat) (hM : 3 ≤ M) (ht : t ≤ M - 3)
    (hperm : dup.Perm (List.range' 1 (M - 2 - t))) :
    loopBody (pathV2E M) pathE2V
        ⟨List.range (M - 1 - t), dup, (List.range' (M - 1 - t) (t + 1)).reverse⟩ =
      some ⟨List.range (M - 1 - (t + 1)), dup.erase (M - 2 - t),
            (List.range' (M - 1 - (t + 1)) (t + 1 + 1)).reverse⟩ := by
  have hcur : ((List.range' (M - 1 - t) (t + 1)).reverse).getLast? = some (M - 1 - t) := by
    rw [List.getLast?_reverse, List.range'_succ]
    rfl
  have hlm1 : lastMatch (pathV2E M (M - 1 - t)) (List.range (M - 1 - t))
      = some (M - 2 - t) := by
    rcases Nat.eq_zero_or_pos t with rfl | htpos
    · have h1 : M - 1 - 0 = M - 1 := by omega
      have h2 : ¬ (M - 1 = 0) := by omega
      have h3 : M - 2 < M - 1 := by omega
      simp [lastMatch, pathV2E, h1, h2, h3]
    · have h1 : M - 1 - t ≠ 0 := by omega
      have h2 : M - 1 - t ≠ M - 1 := by omega
      have hin : M - 1 - t - 1 ∈ List.range (M - 1 - t) := by
        simp [List.mem_range]
        omega
      have hout : M - 1 - t ∉ List.range (M - 1 - t) := by simp
      have h3 : M - 1 - t - 1 = M - 2 - t := by omega
      simp [lastMatch, pathV2E, h1, h2, hin, hout, h3]
      omega
  have hmemin : M - 2 - t ∈ dup := by
    refine hperm.mem_iff.mpr ?_
    simp [List.mem_range'_1]
    omega
  have hmemout : M - 2 - t + 1 ∉ dup := by
    intro h
    have hmm := hperm.mem_iff.mp h
    simp [List.mem_range'_1] at hmm
    omega
  have hlm2 : lastMatch [(pathE2V (M - 2 - t)).1, (pathE2V (M - 2 - t)).2] dup
      = some (M - 2 - t) := by
    simp [lastMatch, pathE2V, hmemin, hmemout]
  have herase : (List.range (M - 1 - t)).erase (M - 2 - t)
      = List.range (M - 1 - (t + 1)) := by
    rw [show M - 1 - (t + 1) = M - 2 - t from by omega,
      show M - 1 - t = (M - 2 - t) + 1 from by omega, List.range_succ,
      List.erase_append_right _ (by simp), List.erase_cons_head, List.append_nil]
  have hvft : (List.range' (M - 1 - t) (t + 1)).reverse ++ [M - 2 - t]
      = (List.range' (M - 1 - (t + 1)) (t + 1 + 1)).reverse := by
    have hr : List.range' (M - 1 - (t + 1)) (t + 1 + 1)
        = (M - 2 - t) :: List.range' (M - 1 - t) (t + 1) := by
      rw [show M - 1 - (t + 1) = M - 2 - t from by omega]
      nth_rewrite 1 [List.range'_succ]
      rw [show M - 2 - t + 1 = M - 1 - t from by omega]
    rw [hr, List.reverse_cons]
  simp only [loopBody, hcur, hlm1, hlm2, herase, hvft]

/-- The backward walk on the path. -/
theorem walkLoop_path_bwd (M : Nat) (hM : 2 ≤ M) :
    ∀ (fuel t count : Nat) (dup : List Nat), t ≤ M - 2 →
      dup.Perm (List.range' 1 (M - 2 - t)) →
      ∃ dup2 : List Nat,
        walkLoop (pathV2E M) pathE2V fuel count
            ⟨List.range (M - 1 - t), dup, (List.range' (M - 1 - t) (t + 1)).reverse⟩
          = some (⟨List.range (M - 1 - (t + min fuel (M - 2 - t))), dup2,
                   (List.range' (M - 1 - (t + min fuel (M - 2 - t)))
                     (t + min fuel (M - 2 - t) + 1)).reverse⟩,
                  count + min fuel (M - 2 - t)) := by
  intro fuel
  induction fuel with
  | zero =>
      intro t count dup ht hperm
      refine ⟨dup, ?_⟩
      simp [walkLoop]
  | succ f ih =>
      intro t count dup ht hperm
      by_cases hd : dup.isEmpty
      · have hdnil : dup = [] := List.isEmpty_iff.mp hd
        subst hdnil
        have h0 : M - 2 - t = 0 := by
          have hl := hperm.length_eq
          simp [List.length_range'] at hl
          omega
        refine ⟨[], ?_⟩
        rw [h0]
        simp [walkLoop]
      · have hne : dup ≠ [] := fun h => by simp [h] at hd
        have hlen : 1 ≤ M - 2 - t := by
          have hl := hperm.length_eq
          rcases Nat.eq_zero_or_pos (M - 2 - t) with h0 | h1
          · rw [h0] at hl
            simp at hl
            exact absurd hl hne
          · omega
        have hM3 : 3 ≤ M := by omega
        have ht3 : t ≤ M - 3 := by omega
        have hperm2 : (dup.erase (M - 2 - t)).Perm
            (List.range' 1 (M - 2 - (t + 1))) := by
          have hp := hperm.erase (M - 2 - t)
          have he : (List.range' 1 (M - 2 - t)).erase (M - 2 - t)
              = List.range' 1 (M - 2 - (t + 1)) := by
            have hr := range'_erase_last 1 (M - 2 - (t + 1))
            rw [show 1 + (M - 2 - (t + 1)) = M - 2 - (t + 1) + 1 from by omega] at hr
            rw [show M - 2 - t = M - 2 - (t + 1) + 1 from by omega]
            exact hr
          rwa [he] at hp
      -- continue
        obtain ⟨dup2, heq⟩ := ih (t + 1) (count + 1) (dup.erase (M - 2 - t)) (by omega) hperm2
        refine ⟨dup2, ?_⟩
        simp only [walkLoop, if_neg hd, loopBody_path_bwd M t dup hM3 ht3 hperm]
        rw [heq]
        have hmin : t + 1 + min f (M - 2 - (t + 1)) = t + min (f + 1) (M - 2 - t) := by
          omega
        have hcnt : count + 1 + min f (M - 2 - (t + 1))
            = count + min (f + 1) (M - 2 - t) := by
          omega
        rw [hmin, hcnt]

/-- The visible result of the loop orderer on the path with head choice `M-1`. -/
theorem vtxLoopOrderCheck_path_bwd (M : Nat) (hM : 2 ≤ M) :
    vtxLoopOrderCheck (pathV2E M) pathE2V (List.range (M - 1)) [M - 1, 0]
      = some (0, (List.range' (M - 1 - min 1000 (M - 2))
          (min 1000 (M - 2) + 1)).reverse ++ [0]) := by
  have hne : ¬ ((List.range (M - 1)).isEmpty = true) := by
    simp [List.isEmpty_iff]
    omega
  obtain ⟨dup2, heq⟩ := walkLoop_path_bwd M hM 1000 0 0
    (dupList ((List.range (M - 1)).flatMap (fun e => [(pathE2V e).1, (pathE2V e).2])))
    (by omega) (by simpa using dupList_path M hM)
  simp only [Nat.sub_zero, Nat.zero_add] at heq
  rw [show (List.range' (M - 1) (0 + 1)).reverse = [M - 1] from by simp] at heq
  simp only [vtxLoopOrderCheck, hne, if_false, List.isEmpty_cons, List.headD,
    Bool.false_eq_true]
  rw [heq]
  simp

/-! ## Claims 5, 7, 8: the loop orderer -/

/-- A list permuting a two-element list is one of its two orders. -/
theorem perm_pair_eq {α : Type} (l : List α) (a b : α) (h : l.Perm [a, b]) :
    l = [a, b] ∨ l = [b, a] := by
  have hlen := h.length_eq
  rcases l with _ | ⟨x, l2⟩
  · simp at hlen
  rcases l2 with _ | ⟨y, l3⟩
  · simp at hlen
  rcases l3 with _ | ⟨z, l4⟩
  · have hx : x ∈ [a, b] := h.mem_iff.mp (by simp)
    simp only [List.mem_cons, List.not_mem_nil, or_false] at hx
    rcases hx with rfl | rfl
    · have h2 := (List.perm_cons x).mp h
      rw [List.perm_singleton] at h2
      simp [h2]
    · have hs : ([a, x] : List α).Perm [x, a] := List.Perm.swap x a []
      have h2 := (List.perm_cons x).mp (h.trans hs)
      rw [List.perm_singleton] at h2
      simp [h2]
  · simp only [List.length_cons, List.length_nil] at hlen
    omega

/-- A list permuting a three-element list is one of its six orders. -/
theorem perm_triple_eq {α : Type} (l : List α) (a b c : α) (h : l.Perm [a, b, c]) :
    l = [a, b, c] ∨ l = [a, c, b] ∨ l = [b, a, c] ∨ l = [b, c, a] ∨
    l = [c, a, b] ∨ l = [c, b, a] := by
  have hlen := h.length_eq
  rcases l with _ | ⟨x, l2⟩
  · simp at hlen
  rcases l2 with _ | ⟨y, l3⟩
  · simp at hlen
  rcases l3 with _ | ⟨z, l4⟩
  · simp at hlen
  rcases l4 with _ | ⟨w, l5⟩
  · have hx : x ∈ [a, b, c] := h.mem_iff.mp (by simp)
    simp only [List.mem_cons, List.not_mem_nil, or_false] at hx
    rcases hx with rfl | rfl | rfl
    · have h2 := (List.perm_cons x).mp h
      rcases perm_pair_eq _ b c h2 with h3 | h3 <;> simp [h3]
    · have hs : ([a, x, c] : List α).Perm [x, a, c] := List.Perm.swap x a [c]
      have h2 := (List.perm_cons x).mp (h.trans hs)
      rcases perm_pair_eq _ a c h2 with h3 | h3 <;> simp [h3]
    · have hs : ([a, b, x] : List α).Perm [x, a, b] := by
        have h1 : ([a, b, x] : List α).Perm [a, x, b] :=
          List.Perm.cons a (List.Perm.swap x b [])
        have h2 : ([a, x, b] : List α).Perm [x, a, b] := List.Perm.swap x a [b]
        exact h1.trans h2
      have h2 := (List.perm_cons x).mp (h.trans hs)
      rcases perm_pair_eq _ a b h2 with h3 | h3 <;> simp [h3]
  · simp only [List.length_cons, List.length_nil] at hlen
    omega

/-- The iteration count of the walk: the final `count` never exceeds the
initial `count` plus the available fuel. -/
theorem walkLoop_count_le {E V : Type} [DecidableEq E] [DecidableEq V]
    (v2e : V → List E) (e2v : E → V × V) :
    ∀ (fuel count : Nat) (st st2 : WalkState E V) (c : Nat),
      walkLoop v2e e2v fuel count st = some (st2, c) → c ≤ count + fuel := by
  intro fuel
  induction fuel with
  | zero =>
      intro count st st2 c h
      simp only [walkLoop, Option.some.injEq, Prod.mk.injEq] at h
      omega
  | succ f ih =>
      intro count st st2 c h
      simp only [walkLoop] at h
      by_cases hd : st.dup.isEmpty = true
      · rw [if_pos hd] at h
        simp only [Option.some.injEq, Prod.mk.injEq] at h
        omega
      · rw [if_neg hd] at h
        cases hlb : loopBody v2e e2v st with
        | none => rw [hlb] at h; simp at h
        | some st3 =>
            rw [hlb] at h
            have := ih (count + 1) st3 st2 c h
            omega

/-- The loop count reported by the orderer is capped at 1000 on every input. -/
theorem vtxLoopOrderCount_le {E V : Type} [DecidableEq E] [DecidableEq V]
    [Inhabited V] (v2e : V → List E) (e2v : E → V × V) (selEdges : List E)
    (ht : List V) (c : Nat)
    (h : vtxLoopOrderCount v2e e2v selEdges ht = some c) : c ≤ 1000 := by
  by_cases hs : selEdges.isEmpty = true
  · simp [vtxLoopOrderCount, hs] at h
  · unfold vtxLoopOrderCount at h
    rw [if_neg hs] at h
    simp only [Option.map_eq_some'] at h
    obtain ⟨⟨st2, c2⟩, heq, hc2⟩ := h
    have hc := walkLoop_count_le v2e e2v 1000 0 _ st2 c2 heq
    simp only [Prod.snd] at hc2
    omega

/-- The final iteration count on the path with head choice 0. -/
theorem vtxLoopOrderCount_path_fwd (M : Nat) (hM : 2 ≤ M) :
    vtxLoopOrderCount (pathV2E M) pathE2V (List.range (M - 1)) [0, M - 1]
      = some (min 1000 (M - 2)) := by
  have hne : ¬ ((List.range (M - 1)).isEmpty = true) := by
    simp [List.isEmpty_iff]
    omega
  obtain ⟨dup2, heq⟩ := walkLoop_path_fwd M hM 1000 0 0
    (dupList ((List.range (M - 1)).flatMap (fun e => [(pathE2V e).1, (pathE2V e).2])))
    (by omega) (by simpa using dupList_path M hM)
  simp only [Nat.sub_zero, Nat.zero_add] at heq
  rw [← List.range_eq_range', show List.range 1 = [0] from rfl] at heq
  simp only [vtxLoopOrderCount, hne, if_false, List.isEmpty_cons, List.headD,
    Bool.false_eq_true]
  rw [heq]
  rfl

/-- C5 (amended): on the synthetic open path of `M` vertices with
`2 ≤ M ≤ 1002`, for every realizable iteration order of the head/tail set the
loop orderer returns the open flag 0 and the vertex sequence `[0..M-1]` or its
exact reverse.  (For `M > 1002` the 1000-iteration cap truncates the walk, see
the counterexample.) -/
theorem claim5_path_roundtrip_amended (M : Nat) (hM : 2 ≤ M) (hcap : M ≤ 1002)
    (ht : List Nat)
    (hht : ht.Perm (headTailSet ((List.range (M - 1)).flatMap
      (fun e => [(pathE2V e).1, (pathE2V e).2])))) :
    vtxLoopOrderCheck (pathV2E M) pathE2V (List.range (M - 1)) ht
      = some (0, List.range M) ∨
    vtxLoopOrderCheck (pathV2E M) pathE2V (List.range (M - 1)) ht
      = some (0, (List.range M).reverse) := by
  have hpair := perm_pair_eq ht 0 (M - 1) (hht.trans (headTailSet_path M hM))
  have hmin : min 1000 (M - 2) = M - 2 := by omega
  rcases hpair with rfl | rfl
  · left
    have heq := vtxLoopOrderCheck_path_fwd M hM
    rw [hmin] at heq
    rw [heq, show M - 2 + 1 = M - 1 from by omega, ← List.range_succ,
      show (M - 1).succ = M from by omega]
  · right
    have heq := vtxLoopOrderCheck_path_bwd M hM
    rw [hmin] at heq
    obtain ⟨k, rfl⟩ : ∃ k, M = k + 1 := ⟨M - 1, by omega⟩
    rw [show k + 1 - 1 - (k + 1 - 2) = 1 from by omega,
      show k + 1 - 2 + 1 = k from by omega] at heq
    rw [heq]
    have hr : List.range (k + 1) = 0 :: List.range' 1 k := by
      rw [List.range_eq_range', List.range'_succ]
    rw [hr, List.reverse_cons]

/-- C5 witness: the 5-vertex path with head/tail order `[0, 4]`. -/
theorem claim5_path_roundtrip_witness :
    (2 ≤ 5 ∧ 5 ≤ 1002 ∧
      ([0, 4] : List Nat).Perm (headTailSet ((List.range 4).flatMap
        (fun e => [(pathE2V e).1, (pathE2V e).2])))) ∧
    (vtxLoopOrderCheck (pathV2E 5) pathE2V (List.range 4) [0, 4]
        = some (0, List.range 5) ∨
     vtxLoopOrderCheck (pathV2E 5) pathE2V (List.range 4) [0, 4]
        = some (0, (List.range 5).reverse)) :=
  ⟨⟨by decide, by decide, by decide⟩,
   claim5_path_roundtrip_amended 5 (by decide) (by decide) [0, 4] (by decide)⟩

set_option maxRecDepth 8000 in
/-- C5 counterexample: on the 1003-vertex path with the realizable head/tail
order `[0, 1002]`, the returned sequence is neither `[0..1002]` nor its
reverse (the walk is silently truncated at 1000 iterations). -/
theorem claim5_counterexample :
    ([0, 1002] : List Nat).Perm (headTailSet ((List.range 1002).flatMap
      (fun e => [(pathE2V e).1, (pathE2V e).2]))) ∧
    vtxLoopOrderCheck (pathV2E 1003) pathE2V (List.range 1002) [0, 1002]
      ≠ some (0, List.range 1003) ∧
    vtxLoopOrderCheck (pathV2E 1003) pathE2V (List.range 1002) [0, 1002]
      ≠ some (0, (List.range 1003).reverse) := by
  have heq := vtxLoopOrderCheck_path_fwd 1003 (by norm_num)
  rw [show min 1000 (1003 - 2) = 1000 from by norm_num] at heq
  refine ⟨(headTailSet_path 1003 (by norm_num)).symm, ?_, ?_⟩
  · rw [heq]
    intro hcon
    have hlen := congrArg (fun p : Nat × List Nat => p.2.length)
      (Option.some.inj hcon)
    simp only [List.length_append, List.length_range, List.length_cons,
      List.length_nil] at hlen
    omega
  · rw [heq]
    intro hcon
    have hlen := congrArg (fun p : Nat × List Nat => p.2.length)
      (Option.some.inj hcon)
    simp only [List.length_append, List.length_range, List.length_cons,
      List.length_nil, List.length_reverse] at hlen
    omega

set_option maxRecDepth 8000 in
/-- C7 (amended): on the Y-shaped branching selection the loop orderer does
not fail: for every realizable iteration order `ht` of the head/tail set it
returns the open flag 0 and the partial ordering `[ht[0], 0, ht[1]]`, silently
dropping the third branch. -/
theorem claim7_branching_amended (ht : List Nat)
    (hht : ht.Perm (headTailSet (([0, 1, 2] : List Nat).flatMap
      (fun e => [(yE2V e).1, (yE2V e).2])))) :
    vtxLoopOrderCheck yV2E yE2V [0, 1, 2] ht
      = some (0, [ht.headD 0, 0, ht.getD 1 0]) := by
  have h123 : ht.Perm [1, 2, 3] := hht.trans (by decide)
  rcases perm_triple_eq ht 1 2 3 h123 with rfl | rfl | rfl | rfl | rfl | rfl <;>
    decide

set_option maxRecDepth 8000 in
/-- C7 witness: the head/tail order `[1, 2, 3]`. -/
theorem claim7_branching_witness :
    ([1, 2, 3] : List Nat).Perm (headTailSet (([0, 1, 2] : List Nat).flatMap
      (fun e => [(yE2V e).1, (yE2V e).2]))) ∧
    vtxLoopOrderCheck yV2E yE2V [0, 1, 2] [1, 2, 3]
      = some (0, [([1, 2, 3] : List Nat).headD 0, 0,
          ([1, 2, 3] : List Nat).getD 1 0]) :=
  ⟨by decide, claim7_branching_amended [1, 2, 3] (by decide)⟩

set_option maxRecDepth 8000 in
/-- C7 counterexample: fed the Y-shaped selection with the realizable
head/tail order `[2, 1, 3]`, the loop orderer returns a result (no exception,
no failure signal), refuting the claim that no partial result is returned. -/
theorem claim7_counterexample :
    ([2, 1, 3] : List Nat).Perm (headTailSet (([0, 1, 2] : List Nat).flatMap
      (fun e => [(yE2V e).1, (yE2V e).2]))) ∧
    (vtxLoopOrderCheck yV2E yE2V [0, 1, 2] [2, 1, 3]).isSome = true := by
  constructor <;> decide

/-- C8 (amended): the vertex-ordering walk executes at most 1000 iterations
on every input (whenever a count is returned it is at most 1000), but hitting
the cap is not surfaced as a failure: on the 1003-vertex path the orderer
returns a silently truncated ordering of 1002 of the 1003 vertices. -/
theorem claim8_iteration_cap_amended {E V : Type} [DecidableEq E]
    [DecidableEq V] [Inhabited V] (v2e : V → List E) (e2v : E → V × V)
    (selEdges : List E) (ht : List V) (c : Nat)
    (h : vtxLoopOrderCount v2e e2v selEdges ht = some c) :
    c ≤ 1000 ∧
    vtxLoopOrderCheck (pathV2E 1003) pathE2V (List.range 1002) [0, 1002]
      = some (0, List.range 1001 ++ [1002]) ∧
    (List.range 1001 ++ [(1002 : Nat)]).length = 1002 := by
  refine ⟨vtxLoopOrderCount_le v2e e2v selEdges ht c h, ?_, by simp⟩
  have heq := vtxLoopOrderCheck_path_fwd 1003 (by norm_num)
  rw [show min 1000 (1003 - 2) = 1000 from by norm_num] at heq
  exact heq

set_option maxRecDepth 8000 in
/-- C8 witness: the 5-vertex path, whose walk runs 3 iterations. -/
theorem claim8_iteration_cap_witness :
    vtxLoopOrderCount (pathV2E 5) pathE2V (List.range 4) [0, 4] = some 3 ∧
    (3 ≤ 1000 ∧
     vtxLoopOrderCheck (pathV2E 1003) pathE2V (List.range 1002) [0, 1002]
       = some (0, List.range 1001 ++ [1002]) ∧
     (List.range 1001 ++ [(1002 : Nat)]).length = 1002) :=
  ⟨by decide,
   claim8_iteration_cap_amended (pathV2E 5) pathE2V (List.range 4) [0, 4] 3
     (by decide)⟩

/-- C8 counterexample: on the 1003-vertex path the walk stops at the
1000-iteration cap, yet the orderer returns a length-1002 ordering instead of
surfacing a failure — the cap is silent truncation, not an error. -/
theorem claim8_counterexample :
    vtxLoopOrderCount (pathV2E 1003) pathE2V (List.range 1002) [0, 1002]
      = some 1000 ∧
    vtxLoopOrderCheck (pathV2E 1003) pathE2V (List.range 1002) [0, 1002]
      = some (0, List.range 1001 ++ [1002]) ∧
    (List.range 1001 ++ [(1002 : Nat)]).length ≠ 1003 := by
  have hcnt := vtxLoopOrderCount_path_fwd 1003 (by norm_num)
  have heq := vtxLoopOrderCheck_path_fwd 1003 (by norm_num)
  rw [show min 1000 (1003 - 2) = 1000 from by norm_num] at hcnt heq
  exact ⟨hcnt, heq, by simp⟩


/-! ## Claim 6: edge conservation of the ring grouper (general inputs) -/

/-- `lookupRemove` misses exactly when the key is absent. -/
theorem lookupRemove_eq_none {E β : Type} [DecidableEq E] :
    ∀ (l : List (E × β)) (e : E),
      lookupRemove l e = none ↔ e ∉ l.map Prod.fst := by
  intro l e
  induction l with
  | nil => simp [lookupRemove]
  | cons kv rest ih =>
      obtain ⟨k, v⟩ := kv
      simp only [lookupRemove, List.map_cons, List.mem_cons]
      by_cases hk : k = e
      · rw [if_pos hk]
        simp [hk]
      · rw [if_neg hk]
        cases hlr : lookupRemove rest e with
        | none =>
            simp only [true_iff]
            intro hc
            rcases hc with h1 | h2
            · exact hk h1.symm
            · exact (ih.mp hlr) h2
        | some pr =>
            have hmem : e ∈ rest.map Prod.fst := by
              by_contra hmem
              exact absurd (ih.mpr hmem) (by simp [hlr])
            constructor
            · intro h
              exact absurd h (by simp)
            · intro h
              exact absurd (Or.inr hmem) h

/-- A successful `lookupRemove` splits the key multiset. -/
theorem lookupRemove_perm {E β : Type} [DecidableEq E] :
    ∀ (l : List (E × β)) (e : E) (v : β) (l2 : List (E × β)),
      lookupRemove l e = some (v, l2) →
      (l.map Prod.fst).Perm (e :: l2.map Prod.fst) := by
  intro l
  induction l with
  | nil => intro e v l2 h; simp [lookupRemove] at h
  | cons kv rest ih =>
      obtain ⟨k, v0⟩ := kv
      intro e v l2 h
      simp only [lookupRemove] at h
      by_cases hk : k = e
      · rw [if_pos hk] at h
        simp only [Option.some.injEq, Prod.mk.injEq] at h
        obtain ⟨hv, hl⟩ := h
        subst hl
        subst hk
        simp
      · rw [if_neg hk] at h
        cases hlr : lookupRemove rest e with
        | none => rw [hlr] at h; simp at h
        | some pr =>
            obtain ⟨r, rest2⟩ := pr
            rw [hlr] at h
            simp only [Option.some.injEq, Prod.mk.injEq] at h
            obtain ⟨hv, hl⟩ := h
            subst hl
            simp only [List.map_cons]
            exact ((ih e r rest2 hlr).cons k).trans (List.Perm.swap e k _)

/-- The walk only removes dict rows: together with the ring it conserves the
edge multiset. -/
theorem ringWalk_conservation {E V : Type} [DecidableEq E] [DecidableEq V] :
    ∀ (fuel : Nat) (v2e : V → List E) (e2v : List (E × (V × V))) (cur : V)
      (p : Bool) (ring : List E),
      ((ringWalk fuel v2e e2v cur p ring).1
        ++ ((ringWalk fuel v2e e2v cur p ring).2.1.map Prod.fst)).Perm
        (ring ++ e2v.map Prod.fst) := by
  intro fuel
  induction fuel with
  | zero => intro v2e e2v cur p ring; simp [ringWalk]
  | succ f ih =>
      intro v2e e2v cur p ring
      rcases hv : v2e cur with _ | ⟨e, rest⟩
      · simp [ringWalk, hv]
      rcases rest with _ | ⟨e2, rest2⟩
      · rcases hl : lookupRemove e2v e with _ | ⟨⟨a, b⟩, e2v2⟩
        · simp [ringWalk, hv, hl]
        · have hperm := lookupRemove_perm e2v e (a, b) e2v2 hl
          simp only [ringWalk, hv, hl]
          refine (ih _ e2v2 (if a = cur then b else a) p
            (if p then e :: ring else ring ++ [e])).trans ?_
          have h2 : (ring ++ e2v.map Prod.fst).Perm
              (ring ++ e :: e2v2.map Prod.fst) := List.Perm.append_left ring hperm
          refine (h2.trans ?_).symm
          cases p
          · show (ring ++ e :: List.map Prod.fst e2v2).Perm
              ((ring ++ [e]) ++ List.map Prod.fst e2v2)
            rw [List.append_assoc]
            exact List.Perm.refl _
          · show (ring ++ e :: List.map Prod.fst e2v2).Perm
              ((e :: ring) ++ List.map Prod.fst e2v2)
            exact List.perm_middle
      · simp [ringWalk, hv]

/-- The walk never introduces dict keys. -/
theorem ringWalk_keys_mem {E V : Type} [DecidableEq E] [DecidableEq V] :
    ∀ (fuel : Nat) (v2e : V → List E) (e2v : List (E × (V × V))) (cur : V)
      (p : Bool) (ring : List E) (k : E),
      k ∈ (ringWalk fuel v2e e2v cur p ring).2.1.map Prod.fst →
      k ∈ e2v.map Prod.fst := by
  intro fuel
  induction fuel with
  | zero => intro v2e e2v cur p ring k h; simpa [ringWalk] using h
  | succ f ih =>
      intro v2e e2v cur p ring k h
      rcases hv : v2e cur with _ | ⟨e, rest⟩
      · simpa [ringWalk, hv] using h
      rcases rest with _ | ⟨e2, rest2⟩
      · rcases hl : lookupRemove e2v e with _ | ⟨⟨a, b⟩, e2v2⟩
        · simpa [ringWalk, hv, hl] using h
        · have hperm := lookupRemove_perm e2v e (a, b) e2v2 hl
          simp only [ringWalk, hv, hl] at h
          have h2 := ih _ e2v2 (if a = cur then b else a) p
            (if p then e :: ring else ring ++ [e]) k h
          exact hperm.symm.subset (List.mem_cons_of_mem e h2)
      · simpa [ringWalk, hv] using h

/-- The walk preserves distinctness of the dict keys. -/
theorem ringWalk_keys_nodup {E V : Type} [DecidableEq E] [DecidableEq V] :
    ∀ (fuel : Nat) (v2e : V → List E) (e2v : List (E × (V × V))) (cur : V)
      (p : Bool) (ring : List E),
      (e2v.map Prod.fst).Nodup →
      ((ringWalk fuel v2e e2v cur p ring).2.1.map Prod.fst).Nodup := by
  intro fuel
  induction fuel with
  | zero => intro v2e e2v cur p ring h; simpa [ringWalk] using h
  | succ f ih =>
      intro v2e e2v cur p ring h
      rcases hv : v2e cur with _ | ⟨e, rest⟩
      · simpa [ringWalk, hv] using h
      rcases rest with _ | ⟨e2, rest2⟩
      · rcases hl : lookupRemove e2v e with _ | ⟨⟨a, b⟩, e2v2⟩
        · simpa [ringWalk, hv, hl] using h
        · have hperm := lookupRemove_perm e2v e (a, b) e2v2 hl
          simp only [ringWalk, hv, hl]
          exact ih _ e2v2 (if a = cur then b else a) p
            (if p then e :: ring else ring ++ [e]) (hperm.nodup h).of_cons
      · simpa [ringWalk, hv] using h

/-- Every dict row ends up in exactly one ring: the concatenation of the
rings is a permutation of the dict keys, provided the key snapshot covers the
dict and the keys are distinct. -/
theorem groupsLoop_conservation {E V : Type} [DecidableEq E] [DecidableEq V] :
    ∀ (keys : List E) (e2v : List (E × (V × V))) (v2e : V → List E),
      (e2v.map Prod.fst).Nodup →
      (∀ k ∈ e2v.map Prod.fst, k ∈ keys) →
      (groupsLoop keys e2v v2e).flatten.Perm (e2v.map Prod.fst) := by
  intro keys
  induction keys with
  | nil =>
      intro e2v v2e hnd hsub
      have : e2v.map Prod.fst = [] := by
        cases hmap : e2v.map Prod.fst with
        | nil => rfl
        | cons a tl => exact absurd (hsub a (by simp [hmap])) (by simp)
      simp [groupsLoop, this]
  | cons start keys ih =>
      intro e2v v2e hnd hsub
      rcases hl : lookupRemove e2v start with _ | ⟨⟨v1, v2⟩, e2v1⟩
      · have hst : start ∉ e2v.map Prod.fst := (lookupRemove_eq_none _ _).mp hl
        simp only [groupsLoop, hl]
        refine ih e2v v2e hnd ?_
        intro k hk
        rcases List.mem_cons.mp (hsub k hk) with h1 | h2
        · exact absurd (h1 ▸ hk) hst
        · exact h2
      · have hperm := lookupRemove_perm e2v start (v1, v2) e2v1 hl
        have hnd1 : (start :: e2v1.map Prod.fst).Nodup := hperm.nodup hnd
        simp only [groupsLoop, hl, List.flatten_cons]
        set v2e1 := discardEdge (discardEdge v2e v1 start) v2 start with hv2e1
        set r1 := ringWalk e2v1.length v2e1 e2v1 v2 false [start] with hr1
        set r2 := ringWalk r1.2.1.length r1.2.2 r1.2.1 v1 true r1.1 with hr2
        have hc1 := ringWalk_conservation e2v1.length v2e1 e2v1 v2 false [start]
        have hc2 := ringWalk_conservation r1.2.1.length r1.2.2 r1.2.1 v1 true r1.1
        rw [← hr1] at hc1
        rw [← hr2] at hc2
        have hnodup2 : (r2.2.1.map Prod.fst).Nodup := by
          rw [hr2]
          exact ringWalk_keys_nodup _ _ _ _ _ _
            (by rw [hr1]; exact ringWalk_keys_nodup _ _ _ _ _ _ hnd1.of_cons)
        have hmem2 : ∀ k ∈ r2.2.1.map Prod.fst, k ∈ e2v1.map Prod.fst := by
          intro k hk
          rw [hr2] at hk
          have := ringWalk_keys_mem _ _ _ _ _ _ k hk
          rw [hr1] at this
          exact ringWalk_keys_mem _ _ _ _ _ _ k this
        have hsub2 : ∀ k ∈ r2.2.1.map Prod.fst, k ∈ keys := by
          intro k hk
          have hk1 := hmem2 k hk
          have hkfull : k ∈ e2v.map Prod.fst :=
            hperm.symm.subset (List.mem_cons_of_mem start hk1)
          rcases List.mem_cons.mp (hsub k hkfull) with h1 | h2
          · exact absurd (h1 ▸ hk1) ((List.nodup_cons.mp hnd1).1)
          · exact h2
        have hrec := ih r2.2.1 r2.2.2 hnodup2 hsub2
        refine ((List.Perm.append_left r2.1 hrec).trans ?_)
        refine hc2.trans (hc1.trans ?_)
        exact hperm.symm

/-- Assigning a fresh key appends the row. -/
theorem assocSet_append {E β : Type} [DecidableEq E] (l : List (E × β)) (e : E)
    (v : β) (h : e ∉ l.map Prod.fst) : assocSet l e v = l ++ [(e, v)] := by
  induction l with
  | nil => rfl
  | cons kv rest ih =>
      obtain ⟨k, v0⟩ := kv
      simp only [List.map_cons, List.mem_cons] at h
      push_neg at h
      simp only [assocSet, if_neg (Ne.symm h.1)]
      rw [ih h.2]
      simp

/-- The dict part of the fold: with distinct fresh edges it appends rows in
order. -/
theorem buildMaps_fold_fst {E V : Type} [DecidableEq E] [DecidableEq V]
    (h : E → V × V) :
    ∀ (l : List E) (acc : List (E × (V × V)) × (V → List E)),
      l.Nodup → (∀ e ∈ l, e ∉ acc.1.map Prod.fst) →
      (l.foldl (fun acc e =>
        (assocSet acc.1 e (h e),
         addEdge (addEdge acc.2 (h e).1 e) (h e).2 e)) acc).1
        = acc.1 ++ l.map (fun e => (e, h e)) := by
  intro l
  induction l with
  | nil => intro acc _ _; simp
  | cons e rest ih =>
      intro acc hnd hdisj
      have hd : ∀ e2 ∈ rest, e2 ∉ ((assocSet acc.1 e (h e)).map Prod.fst) := by
        intro e2 he2
        rw [assocSet_append _ _ _ (hdisj e (by simp))]
        simp only [List.map_append, List.mem_append]
        rintro (hc | hc)
        · exact hdisj e2 (by simp [he2]) hc
        · simp only [List.map_cons, List.map_nil, List.mem_cons,
            List.not_mem_nil, or_false] at hc
          exact (List.nodup_cons.mp hnd).1 (hc ▸ he2)
      simp only [List.foldl_cons, List.map_cons]
      rw [ih _ hnd.of_cons hd]
      rw [assocSet_append _ _ _ (hdisj e (by simp))]
      simp

/-- For a duplicate-free selection the dict rows are the edges in order. -/
theorem buildMaps_fst {E V : Type} [DecidableEq E] [DecidableEq V]
    (h : E → V × V) (sel : List E) (hnd : sel.Nodup) :
    (buildMaps h sel).1 = sel.map (fun e => (e, h e)) := by
  have := buildMaps_fold_fst h sel ([], fun _ => []) hnd (by simp)
  simpa [buildMaps] using this

/-- Edge conservation on arbitrary duplicate-free selections: the
concatenation of the returned rings is a permutation of the input edges —
no edge is duplicated or dropped, whatever the topology. -/
theorem getEdgeRingGroupList_flatten_perm {E V : Type} [DecidableEq E]
    [DecidableEq V] (h : E → V × V) (sel : List E) (hnd : sel.Nodup) :
    (getEdgeRingGroupList h sel).flatten.Perm sel := by
  by_cases hs : sel.isEmpty = true
  · have hnil : sel = [] := List.isEmpty_iff.mp hs
    subst hnil
    simp [getEdgeRingGroupList]
  · unfold getEdgeRingGroupList
    rw [if_neg hs]
    have hfst : (buildMaps h sel).1.map Prod.fst = sel := by
      have hid : (Prod.fst ∘ fun e : E => (e, h e)) = id := rfl
      rw [buildMaps_fst h sel hnd, List.map_map, hid, List.map_id]
    show (groupsLoop ((buildMaps h sel).1.map Prod.fst)
      (buildMaps h sel).1 (buildMaps h sel).2).flatten.Perm sel
    rw [hfst]
    have hmain := groupsLoop_conservation sel (buildMaps h sel).1
      (buildMaps h sel).2 (by rw [hfst]; exact hnd)
      (fun k hk => by rw [hfst] at hk; exact hk)
    rw [hfst] at hmain
    exact hmain

/-! ## Claim 6: canonical characterization of the built maps -/

theorem mem_compEdges (m j : Nat) (e : Nat × Nat) :
    e ∈ compEdges m j ↔ e.1 = j ∧ e.2 < m := by
  obtain ⟨a, b⟩ := e
  simp only [compEdges, List.mem_map, List.mem_range, Prod.mk.injEq]
  constructor
  · rintro ⟨i, hi, rfl, rfl⟩
    exact ⟨rfl, hi⟩
  · rintro ⟨rfl, hb⟩
    exact ⟨b, hb, rfl, rfl⟩

theorem mem_sufEdges_tag :
    ∀ (cs : List (Bool × Nat)) (j0 : Nat) (e : Nat × Nat),
      e ∈ sufEdges cs j0 → j0 ≤ e.1 ∧ e.1 < j0 + cs.length := by
  intro cs
  induction cs with
  | nil => intro j0 e h; simp [sufEdges] at h
  | cons c rest ih =>
      intro j0 e h
      simp only [sufEdges, List.mem_append] at h
      rcases h with h | h
      · have := (mem_compEdges _ _ _).mp h
        simp only [List.length_cons]
        omega
      · have := ih (j0 + 1) e h
        simp only [List.length_cons]
        omega

theorem compEdges_nodup (m j : Nat) : (compEdges m j).Nodup := by
  refine List.Nodup.map ?_ (List.nodup_range ..)
  intro a b hab
  simpa using hab

theorem sufEdges_nodup : ∀ (cs : List (Bool × Nat)) (j0 : Nat),
    (sufEdges cs j0).Nodup := by
  intro cs
  induction cs with
  | nil => intro j0; simp [sufEdges]
  | cons c rest ih =>
      intro j0
      simp only [sufEdges]
      refine List.Nodup.append (compEdges_nodup _ _) (ih (j0 + 1)) ?_
      intro e h1 h2
      have ha := (mem_compEdges _ _ _).mp h1
      have hb := mem_sufEdges_tag rest (j0 + 1) e h2
      omega

/-- The canonical dict rows are the canonical edges paired with the host
data. -/
theorem sufAssoc_eq_map :
    ∀ (cs cs0 : List (Bool × Nat)),
      sufAssoc cs cs0.length
        = (sufEdges cs cs0.length).map (fun e => (e, multiE2V (cs0 ++ cs) e)) := by
  intro cs
  induction cs with
  | nil => intro cs0; rfl
  | cons c rest ih =>
      intro cs0
      simp only [sufAssoc, sufEdges, List.map_append]
      congr 1
      · simp only [compAssoc, compEdges, List.map_map]
        refine List.map_congr_left ?_
        intro i hi
        simp only [Function.comp_apply, multiE2V]
        congr 1
        rw [List.getD_eq_getElem?_getD]
        rw [List.getElem?_append_right (by omega)]
        simp
      · have h1 := ih (cs0 ++ [c])
        simp only [List.length_append, List.length_cons, List.length_nil,
          List.append_assoc, List.cons_append, List.nil_append] at h1
        exact h1

/-- The dict built from the canonical selection is the canonical dict. -/
theorem buildMaps_fst_canonical (cs : List (Bool × Nat)) :
    (buildMaps (multiE2V cs) (multiEdges cs)).1 = sufAssoc cs 0 := by
  simp only [multiEdges]
  rw [buildMaps_fst _ _ (sufEdges_nodup cs 0)]
  have h := sufAssoc_eq_map cs []
  simp only [List.length_nil, List.nil_append] at h
  rw [h]

/-- The incidence part of `buildMaps` is the fold of `buildStep`. -/
theorem buildMaps_snd {E V : Type} [DecidableEq E] [DecidableEq V]
    (h : E → V × V) (sel : List E) :
    (buildMaps h sel).2 = sel.foldl (buildStep h) (fun _ => []) := by
  have key : ∀ (l : List E) (a : List (E × (V × V))) (b : V → List E),
      (l.foldl (fun acc e =>
        (assocSet acc.1 e (h e),
         addEdge (addEdge acc.2 (h e).1 e) (h e).2 e)) (a, b)).2
        = l.foldl (buildStep h) b := by
    intro l
    induction l with
    | nil => intro a b; rfl
    | cons e rest ih =>
        intro a b
        simp only [List.foldl_cons]
        exact ih _ _
  exact key sel [] _

set_option maxHeartbeats 4000000 in
/-- Inserting the open chain edge `(j,t)` advances the partial incidence
table one step. -/
theorem chain_step (j t : Nat) (g : Nat × Nat → List (Nat × Nat)) :
    addEdge (addEdge (overlayV2E j (chainUpto j t) g) (j, t) (j, t)) (j, t + 1) (j, t)
      = overlayV2E j (chainUpto j (t + 1)) g := by
  funext v
  obtain ⟨jv, i⟩ := v
  simp only [addEdge, overlayV2E, chainUpto, Prod.mk.injEq]
  split_ifs <;> first
    | rfl
    | omega
    | simp_all
    | (simp only [List.mem_singleton, List.mem_cons, List.not_mem_nil,
        Prod.mk.injEq, or_false] at * ; omega)

set_option maxHeartbeats 4000000 in
/-- After all `m` edges of a path component are inserted, the partial table
is the full one. -/
theorem chainUpto_path (j m : Nat) (hm : 1 ≤ m) :
    chainUpto j m = compV2E (false, m) j := by
  funext i
  simp only [chainUpto, compV2E]
  split_ifs <;> first
    | rfl
    | omega
    | simp_all
    | (simp only [List.mem_singleton, List.mem_cons, List.not_mem_nil,
        Prod.mk.injEq, or_false] at * ; omega)

set_option maxHeartbeats 4000000 in
/-- Inserting the closing edge of a cycle component completes its incidence
table. -/
theorem cyc_close_step (j m : Nat) (hm : 3 ≤ m) (g : Nat × Nat → List (Nat × Nat)) :
    addEdge (addEdge (overlayV2E j (chainUpto j (m - 1)) g) (j, m - 1) (j, m - 1))
        (j, 0) (j, m - 1)
      = overlayV2E j (compV2E (true, m) j) g := by
  funext v
  obtain ⟨jv, i⟩ := v
  simp only [addEdge, overlayV2E, chainUpto, compV2E, Prod.mk.injEq]
  split_ifs <;> first
    | rfl
    | omega
    | simp_all
    | (simp only [List.mem_singleton, List.mem_cons, List.not_mem_nil,
        Prod.mk.injEq, or_false] at * ; omega)

/-- Folding a run of open chain edges. -/
theorem foldG_chain (h : Nat × Nat → (Nat × Nat) × (Nat × Nat)) (j : Nat) :
    ∀ (n t : Nat) (g : Nat × Nat → List (Nat × Nat)),
      (∀ i, t ≤ i → i < t + n → h (j, i) = ((j, i), (j, i + 1))) →
      ((List.range' t n).map (fun i => ((j, i) : Nat × Nat))).foldl (buildStep h)
          (overlayV2E j (chainUpto j t) g)
        = overlayV2E j (chainUpto j (t + n)) g := by
  intro n
  induction n with
  | zero => intro t g _; rfl
  | succ nn ih =>
      intro t g hh
      rw [List.range'_succ]
      simp only [List.map_cons, List.foldl_cons]
      have hstep : buildStep h (overlayV2E j (chainUpto j t) g) (j, t)
          = overlayV2E j (chainUpto j (t + 1)) g := by
        rw [buildStep, hh t (le_refl t) (by omega)]
        exact chain_step j t g
      rw [hstep, ih (t + 1) g (fun i h1 h2 => hh i (by omega) (by omega))]
      rw [show t + 1 + nn = t + (nn + 1) from by omega]

/-- Folding one whole component over a table that is empty on its vertices. -/
theorem foldG_comp (h : Nat × Nat → (Nat × Nat) × (Nat × Nat)) (c : Bool × Nat)
    (j : Nat) (hm : 1 ≤ c.2) (hcy : c.1 = true → 3 ≤ c.2)
    (hopen : ∀ i, i < c.2 → ¬(c.1 = true ∧ i = c.2 - 1) →
      h (j, i) = ((j, i), (j, i + 1)))
    (hclose : c.1 = true → h (j, c.2 - 1) = ((j, c.2 - 1), (j, 0)))
    (g : Nat × Nat → List (Nat × Nat)) (hg : ∀ i, g (j, i) = []) :
    (compEdges c.2 j).foldl (buildStep h) g = overlayV2E j (compV2E c j) g := by
  have hg0 : g = overlayV2E j (chainUpto j 0) g := by
    funext v
    obtain ⟨jv, i⟩ := v
    by_cases hj : jv = j
    · subst hj
      simp [overlayV2E, chainUpto, hg i]
    · simp [overlayV2E, hj]
  obtain ⟨cy, m⟩ := c
  cases cy
  · simp only at hm hopen ⊢
    rw [compEdges, List.range_eq_range']
    conv_lhs => rw [hg0]
    rw [foldG_chain h j m 0 g (fun i h1 h2 => hopen i (by omega) (by simp))]
    rw [show 0 + m = m from by omega, chainUpto_path j m hm]
  · have hm3 : 3 ≤ m := hcy rfl
    simp only at hopen hclose ⊢
    rw [compEdges, List.range_eq_range']
    have hsplit : List.range' 0 m = List.range' 0 (m - 1) ++ [m - 1] := by
      have hr := List.range'_1_concat 0 (m - 1)
      rw [show m - 1 + 1 = m from by omega] at hr
      simpa using hr
    rw [hsplit, List.map_append, List.foldl_append]
    conv_lhs => rw [hg0]
    rw [foldG_chain h j (m - 1) 0 g
      (fun i h1 h2 => hopen i (by omega) (by rintro ⟨h3, h4⟩; omega))]
    simp only [List.map_cons, List.map_nil, List.foldl_cons, List.foldl_nil]
    rw [show 0 + (m - 1) = m - 1 from by omega]
    rw [buildStep, hclose trivial]
    exact cyc_close_step j m hm3 g

/-- Folding the components from position `j0` on, over a table that is empty
from tag `j0` on. -/
theorem foldG_suf :
    ∀ (cs2 cs0 : List (Bool × Nat)) (g : Nat × Nat → List (Nat × Nat)),
      (∀ c ∈ cs2, 1 ≤ c.2 ∧ (c.1 = true → 3 ≤ c.2)) →
      (∀ v : Nat × Nat, cs0.length ≤ v.1 → g v = []) →
      (sufEdges cs2 cs0.length).foldl (buildStep (multiE2V (cs0 ++ cs2))) g
        = fun v => if cs0.length ≤ v.1 then sufV2E cs2 cs0.length v else g v := by
  intro cs2
  induction cs2 with
  | nil =>
      intro cs0 g _ hg
      simp only [sufEdges, List.foldl_nil, sufV2E]
      funext v
      by_cases hv : cs0.length ≤ v.1
      · rw [if_pos hv, hg v hv]
      · rw [if_neg hv]
  | cons c rest ih =>
      intro cs0 g hvalid hg
      have hgd : (cs0 ++ c :: rest).getD cs0.length (false, 0) = c := by
        rw [List.getD_eq_getElem?_getD, List.getElem?_append_right (le_refl _)]
        simp
      simp only [sufEdges, List.foldl_append]
      have hc1 : (compEdges c.2 cs0.length).foldl
            (buildStep (multiE2V (cs0 ++ c :: rest))) g
          = overlayV2E cs0.length (compV2E c cs0.length) g := by
        refine foldG_comp _ c cs0.length (hvalid c (by simp)).1
          (hvalid c (by simp)).2 ?_ ?_ g ?_
        · intro i hi hno
          simp only [multiE2V, hgd]
          rw [compE2V, if_neg hno]
        · intro hcy
          simp only [multiE2V, hgd]
          rw [compE2V, if_pos ⟨hcy, rfl⟩]
        · intro i
          exact hg (cs0.length, i) (by simp)
      rw [hc1]
      have hg2 : ∀ v : Nat × Nat, (cs0 ++ [c]).length ≤ v.1 →
          overlayV2E cs0.length (compV2E c cs0.length) g v = [] := by
        intro v hv
        simp only [List.length_append, List.length_cons, List.length_nil] at hv
        simp only [overlayV2E]
        rw [if_neg (by omega)]
        exact hg v (by omega)
      have h2 := ih (cs0 ++ [c]) (overlayV2E cs0.length (compV2E c cs0.length) g)
        (fun cc hcc => hvalid cc (by simp [hcc])) hg2
      simp only [List.length_append, List.length_cons, List.length_nil,
        List.append_assoc, List.cons_append, List.nil_append] at h2
      rw [h2]
      funext v
      by_cases h1 : cs0.length + 1 ≤ v.1
      · rw [if_pos h1, if_pos (by omega : cs0.length ≤ v.1)]
        show sufV2E rest (cs0.length + 1) v = sufV2E (c :: rest) cs0.length v
        simp only [sufV2E, overlayV2E]
        rw [if_neg (by omega : ¬ v.1 = cs0.length)]
      · rw [if_neg h1]
        by_cases h0 : v.1 = cs0.length
        · rw [if_pos (by omega : cs0.length ≤ v.1)]
          show overlayV2E cs0.length (compV2E c cs0.length) g v
            = sufV2E (c :: rest) cs0.length v
          simp only [sufV2E, overlayV2E]
          rw [if_pos h0, if_pos h0]
        · rw [if_neg (by omega : ¬ cs0.length ≤ v.1)]
          show overlayV2E cs0.length (compV2E c cs0.length) g v = g v
          simp only [overlayV2E]
          rw [if_neg h0]

/-- The incidence table built from the canonical selection is the canonical
table. -/
theorem buildMaps_snd_canonical (cs : List (Bool × Nat))
    (hvalid : ∀ c ∈ cs, 1 ≤ c.2 ∧ (c.1 = true → 3 ≤ c.2)) :
    (buildMaps (multiE2V cs) (multiEdges cs)).2 = sufV2E cs 0 := by
  rw [buildMaps_snd]
  simp only [multiEdges]
  have h := foldG_suf cs [] (fun _ => []) hvalid (fun v _ => rfl)
  simp only [List.length_nil, List.nil_append] at h
  rw [h]
  funext v
  rw [if_pos (Nat.zero_le _)]

/-! ## Claim 6: the ring walk on canonical components -/

/-- The walk stops as soon as the current vertex does not have exactly one
remaining incident edge. -/
theorem ringWalk_break {E V : Type} [DecidableEq E] [DecidableEq V]
    (fuel : Nat) (v2e : V → List E) (e2v : List (E × (V × V))) (cur : V)
    (p : Bool) (ring : List E) (h : ∀ e : E, v2e cur ≠ [e]) :
    ringWalk fuel v2e e2v cur p ring = (ring, e2v, v2e) := by
  cases fuel with
  | zero => rfl
  | succ f =>
      rcases hv : v2e cur with _ | ⟨e, rest⟩
      · simp [ringWalk, hv]
      rcases rest with _ | ⟨e2, r2⟩
      · exact absurd hv (h e)
      · simp [ringWalk, hv]

theorem compAssoc_cons (c : Bool × Nat) (j : Nat) (hm : 1 ≤ c.2) :
    compAssoc c j = ((j, 0), compE2V c j 0) :: compAssocFrom c j 0 := by
  rw [compAssoc, compAssocFrom, List.range_eq_range']
  have h1 : List.range' 0 c.2 = 0 :: List.range' 1 (c.2 - 1) := by
    conv_lhs => rw [show c.2 = (c.2 - 1) + 1 from by omega]
    rw [List.range'_succ]
  rw [h1]
  simp

theorem compAssocFrom_cons (c : Bool × Nat) (j t : Nat) (ht : t + 1 ≤ c.2 - 1) :
    compAssocFrom c j t
      = ((j, t + 1), compE2V c j (t + 1)) :: compAssocFrom c j (t + 1) := by
  rw [compAssocFrom, compAssocFrom]
  have h1 : List.range' (t + 1) (c.2 - 1 - t)
      = (t + 1) :: List.range' (t + 2) (c.2 - 1 - (t + 1)) := by
    conv_lhs => rw [show c.2 - 1 - t = (c.2 - 1 - (t + 1)) + 1 from by omega]
    rw [List.range'_succ]
  rw [h1]
  simp

theorem compAssocFrom_last (c : Bool × Nat) (j : Nat) :
    compAssocFrom c j (c.2 - 1) = [] := by
  rw [compAssocFrom]
  rw [show c.2 - 1 - (c.2 - 1) = 0 from by omega]
  rfl

theorem sufAssoc_map_fst : ∀ (cs : List (Bool × Nat)) (j0 : Nat),
    (sufAssoc cs j0).map Prod.fst = sufEdges cs j0 := by
  intro cs
  induction cs with
  | nil => intro j0; rfl
  | cons c rest ih =>
      intro j0
      simp only [sufAssoc, sufEdges, List.map_append, ih]
      congr 1
      rw [compAssoc, compEdges, List.map_map]
      rfl

theorem sufV2E_low : ∀ (cs : List (Bool × Nat)) (j0 : Nat) (v : Nat × Nat),
    v.1 < j0 → sufV2E cs j0 v = [] := by
  intro cs
  induction cs with
  | nil => intro j0 v _; rfl
  | cons c rest ih =>
      intro j0 v hv
      simp only [sufV2E, overlayV2E]
      rw [if_neg (by omega)]
      exact ih (j0 + 1) v (by omega)

/-- `List.erase` over the `BEq` instance induced by decidable equality. -/
theorem erase_nil_dec {α : Type} [DecidableEq α] (a : α) :
    ([] : List α).erase a = [] := rfl

theorem erase_cons_dec {α : Type} [DecidableEq α] (a b : α) (l : List α) :
    (b :: l).erase a = if b = a then l else b :: l.erase a := by
  rw [List.erase_cons]
  split_ifs <;> first
    | rfl
    | (exact absurd (of_decide_eq_true (by assumption)) (by assumption))
    | (exact absurd (decide_eq_true (by assumption)) (by assumption))

theorem erase_cons_head_dec {α : Type} [DecidableEq α] (a : α) (l : List α) :
    (a :: l).erase a = l := by
  rw [erase_cons_dec, if_pos rfl]

set_option maxHeartbeats 4000000 in
/-- Removing the starting edge `(j0,0)` of a path component from the full
incidence table. -/
theorem path_start_discard (m j0 : Nat) (hm : 1 ≤ m)
    (G : Nat × Nat → List (Nat × Nat)) :
    discardEdge (discardEdge (overlayV2E j0 (compV2E (false, m) j0) G)
        (j0, 0) (j0, 0)) (j0, 1) (j0, 0)
      = overlayV2E j0 (pathMidV2E m j0 0) G := by
  funext v
  obtain ⟨jv, i⟩ := v
  simp only [discardEdge, overlayV2E, compV2E, pathMidV2E, Prod.mk.injEq]
  split_ifs <;> first
    | rfl
    | omega
    | (exact absurd (by assumption : True ∧ False) (by simp))
    | (exact absurd (by assumption : False) (by simp))
    | (rw [erase_cons_head_dec, erase_nil_dec])
    | (rw [erase_cons_head_dec])
    | (rw [show m - 1 = 0 from by omega, erase_cons_head_dec])
    | (simp_all [erase_cons_dec, erase_nil_dec, erase_cons_head_dec, Prod.mk.injEq] ; done)
    | (simp_all [erase_cons_dec, erase_nil_dec, erase_cons_head_dec, Prod.mk.injEq] ; omega)
    | (simp only [List.mem_singleton, List.mem_cons, List.not_mem_nil,
        Prod.mk.injEq, or_false] at * ; omega)

set_option maxHeartbeats 4000000 in
/-- Removing the starting edge `(j0,0)` of a cycle component from the full
incidence table. -/
theorem cyc_start_discard (m j0 : Nat) (hm : 3 ≤ m)
    (G : Nat × Nat → List (Nat × Nat)) :
    discardEdge (discardEdge (overlayV2E j0 (compV2E (true, m) j0) G)
        (j0, 0) (j0, 0)) (j0, 1) (j0, 0)
      = overlayV2E j0 (cycMidV2E m j0 0) G := by
  funext v
  obtain ⟨jv, i⟩ := v
  simp only [discardEdge, overlayV2E, compV2E, cycMidV2E, Prod.mk.injEq]
  split_ifs <;> first
    | rfl
    | omega
    | (exact absurd (by assumption : True ∧ False) (by simp))
    | (exact absurd (by assumption : False) (by simp))
    | (rw [erase_cons_head_dec, erase_nil_dec])
    | (rw [erase_cons_head_dec])
    | (rw [show m - 1 = 0 from by omega, erase_cons_head_dec])
    | (simp_all [erase_cons_dec, erase_nil_dec, erase_cons_head_dec, Prod.mk.injEq] ; done)
    | (simp_all [erase_cons_dec, erase_nil_dec, erase_cons_head_dec, Prod.mk.injEq] ; omega)
    | (simp only [List.mem_singleton, List.mem_cons, List.not_mem_nil,
        Prod.mk.injEq, or_false] at * ; omega)

set_option maxHeartbeats 4000000 in
/-- Consuming the open chain edge `(j0,t+1)` of a path component mid walk. -/
theorem pathMid_step (m j0 t : Nat) (ht : t + 2 ≤ m)
    (G : Nat × Nat → List (Nat × Nat)) :
    discardEdge (discardEdge (discardEdge (overlayV2E j0 (pathMidV2E m j0 t) G)
        (j0, t + 1) (j0, t + 1)) (j0, t + 1) (j0, t + 1)) (j0, t + 2) (j0, t + 1)
      = overlayV2E j0 (pathMidV2E m j0 (t + 1)) G := by
  funext v
  obtain ⟨jv, i⟩ := v
  simp only [discardEdge, overlayV2E, pathMidV2E, Prod.mk.injEq]
  split_ifs <;> first
    | rfl
    | omega
    | (exact absurd (by assumption : True ∧ False) (by simp))
    | (exact absurd (by assumption : False) (by simp))
    | (rw [erase_cons_head_dec, erase_nil_dec])
    | (rw [erase_cons_head_dec])
    | (rw [show m - 1 = t + 1 from by omega, erase_cons_head_dec])
    | (rw [show t + 2 - 1 = t + 1 from by omega, erase_cons_head_dec])
    | (simp_all [erase_cons_dec, erase_nil_dec, erase_cons_head_dec, Prod.mk.injEq] ; done)
    | (simp_all [erase_cons_dec, erase_nil_dec, erase_cons_head_dec, Prod.mk.injEq] ; omega)
    | (simp only [List.mem_singleton, List.mem_cons, List.not_mem_nil,
        Prod.mk.injEq, or_false] at * ; omega)

/-- After the forward walk a path component's incidence lists are all empty. -/
theorem pathMid_final (m j0 : Nat) :
    pathMidV2E m j0 (m - 1) = fun _ => [] := by
  funext i
  simp only [pathMidV2E]
  split_ifs <;> first | rfl | omega

set_option maxHeartbeats 4000000 in
/-- Consuming an open chain edge `(j0,t+1)`, `t+1 < m-1`, of a cycle
component mid walk. -/
theorem cycMid_step (m j0 t : Nat) (ht : t + 2 ≤ m - 1)
    (G : Nat × Nat → List (Nat × Nat)) :
    discardEdge (discardEdge (discardEdge (overlayV2E j0 (cycMidV2E m j0 t) G)
        (j0, t + 1) (j0, t + 1)) (j0, t + 1) (j0, t + 1)) (j0, t + 2) (j0, t + 1)
      = overlayV2E j0 (cycMidV2E m j0 (t + 1)) G := by
  funext v
  obtain ⟨jv, i⟩ := v
  simp only [discardEdge, overlayV2E, cycMidV2E, Prod.mk.injEq]
  split_ifs <;> first
    | rfl
    | omega
    | (exact absurd (by assumption : True ∧ False) (by simp))
    | (exact absurd (by assumption : False) (by simp))
    | (rw [erase_cons_head_dec, erase_nil_dec])
    | (rw [erase_cons_head_dec])
    | (rw [show m - 1 = t + 1 from by omega, erase_cons_head_dec])
    | (rw [show t + 2 - 1 = t + 1 from by omega, erase_cons_head_dec])
    | (simp_all [erase_cons_dec, erase_nil_dec, erase_cons_head_dec, Prod.mk.injEq] ; done)
    | (simp_all [erase_cons_dec, erase_nil_dec, erase_cons_head_dec, Prod.mk.injEq] ; omega)
    | (simp only [List.mem_singleton, List.mem_cons, List.not_mem_nil,
        Prod.mk.injEq, or_false] at * ; omega)

set_option maxHeartbeats 4000000 in
/-- Consuming the closing edge `(j0,m-1)` of a cycle component. -/
theorem cycMid_close (m j0 t : Nat) (hm : 3 ≤ m) (ht : t + 1 = m - 1)
    (G : Nat × Nat → List (Nat × Nat)) :
    discardEdge (discardEdge (discardEdge (overlayV2E j0 (cycMidV2E m j0 t) G)
        (j0, t + 1) (j0, t + 1)) (j0, t + 1) (j0, t + 1)) (j0, 0) (j0, t + 1)
      = overlayV2E j0 (cycMidV2E m j0 (t + 1)) G := by
  funext v
  obtain ⟨jv, i⟩ := v
  simp only [discardEdge, overlayV2E, cycMidV2E, Prod.mk.injEq]
  split_ifs <;> first
    | rfl
    | omega
    | (exact absurd (by assumption : True ∧ False) (by simp))
    | (exact absurd (by assumption : False) (by simp))
    | (rw [erase_cons_head_dec, erase_nil_dec])
    | (rw [erase_cons_head_dec])
    | (rw [show m - 1 = t + 1 from by omega, erase_cons_head_dec])
    | (rw [show t + 2 - 1 = t + 1 from by omega, erase_cons_head_dec])
    | (simp_all [erase_cons_dec, erase_nil_dec, erase_cons_head_dec, Prod.mk.injEq] ; done)
    | (simp_all [erase_cons_dec, erase_nil_dec, erase_cons_head_dec, Prod.mk.injEq] ; omega)
    | (simp only [List.mem_singleton, List.mem_cons, List.not_mem_nil,
        Prod.mk.injEq, or_false] at * ; omega)

/-- After the forward walk a cycle component's incidence lists are all
empty. -/
theorem cycMid_final (m j0 : Nat) :
    cycMidV2E m j0 (m - 1) = fun _ => [] := by
  funext i
  simp only [cycMidV2E]
  split_ifs <;> first | rfl | omega

theorem lookupRemove_cons_self {E β : Type} [DecidableEq E] (k : E) (v : β)
    (rest : List (E × β)) : lookupRemove ((k, v) :: rest) k = some (v, rest) := by
  simp [lookupRemove]

/-- The forward walk along a path component consumes its remaining edges in
order and stops at the far endpoint. -/
theorem pathRingWalk (m j0 : Nat) (G : Nat × Nat → List (Nat × Nat))
    (R : List ((Nat × Nat) × ((Nat × Nat) × (Nat × Nat)))) :
    ∀ (fuel t : Nat) (rng : List (Nat × Nat)), 1 ≤ m → t ≤ m - 1 →
      m - 1 - t ≤ fuel →
      ringWalk fuel (overlayV2E j0 (pathMidV2E m j0 t) G)
          (compAssocFrom (false, m) j0 t ++ R) (j0, t + 1) false rng
        = (rng ++ (List.range' (t + 1) (m - 1 - t)).map
             (fun i => ((j0, i) : Nat × Nat)),
           R, overlayV2E j0 (pathMidV2E m j0 (m - 1)) G) := by
  intro fuel
  induction fuel with
  | zero =>
      intro t rng hm ht hf
      have htm : t = m - 1 := by omega
      subst htm
      rw [compAssocFrom_last]
      simp [ringWalk]
  | succ f ih =>
      intro t rng hm ht hf
      by_cases hend : t = m - 1
      · subst hend
        have hv : overlayV2E j0 (pathMidV2E m j0 (m - 1)) G (j0, m - 1 + 1) = [] := by
          have c1 : ¬ (m - 1 + 1 ≤ m - 1) := by omega
          have c3 : ¬ (m - 1 + 1 < m) := by omega
          simp [overlayV2E, pathMidV2E, c1, c3]
        simp only [ringWalk, hv]
        rw [compAssocFrom_last]
        simp
      · have ht2 : t + 2 ≤ m := by omega
        have hv : overlayV2E j0 (pathMidV2E m j0 t) G (j0, t + 1) = [(j0, t + 1)] := by
          have c1 : ¬ (t + 1 ≤ t) := by omega
          have c2 : t + 1 < m := by omega
          simp [overlayV2E, pathMidV2E, c1, c2]
        have hdec := compAssocFrom_cons (false, m) j0 t
          (by show t + 1 ≤ m - 1; omega)
        have hval : compE2V (false, m) j0 (t + 1) = ((j0, t + 1), (j0, t + 2)) := by
          rw [compE2V, if_neg (by simp)]
        simp only [ringWalk, hv]
        rw [hdec, hval, List.cons_append, lookupRemove_cons_self]
        simp only []
        rw [if_pos trivial]
        simp only [Bool.false_eq_true, if_false]
        rw [pathMid_step m j0 t ht2 G]
        have hrec := ih (t + 1) (rng ++ [(j0, t + 1)]) hm (by omega) (by omega)
        rw [show ((j0, t + 1 + 1) : Nat × Nat) = (j0, t + 2) from rfl] at hrec ⊢
        rw [hrec]
        have hr : List.range' (t + 1) (m - 1 - t)
            = (t + 1) :: List.range' (t + 2) (m - 1 - (t + 1)) := by
          conv_lhs => rw [show m - 1 - t = (m - 1 - (t + 1)) + 1 from by omega]
          rw [List.range'_succ]
        rw [hr]
        simp

/-- The forward walk around a cycle component consumes its remaining edges in
order and stops back at the starting vertex. -/
theorem cycRingWalk (m j0 : Nat) (G : Nat × Nat → List (Nat × Nat))
    (R : List ((Nat × Nat) × ((Nat × Nat) × (Nat × Nat)))) :
    ∀ (fuel t : Nat) (rng : List (Nat × Nat)), 3 ≤ m → t ≤ m - 1 →
      m - 1 - t ≤ fuel →
      ringWalk fuel (overlayV2E j0 (cycMidV2E m j0 t) G)
          (compAssocFrom (true, m) j0 t ++ R)
          (if t = m - 1 then ((j0, 0) : Nat × Nat) else (j0, t + 1)) false rng
        = (rng ++ (List.range' (t + 1) (m - 1 - t)).map
             (fun i => ((j0, i) : Nat × Nat)),
           R, overlayV2E j0 (cycMidV2E m j0 (m - 1)) G) := by
  intro fuel
  induction fuel with
  | zero =>
      intro t rng hm ht hf
      have htm : t = m - 1 := by omega
      subst htm
      rw [compAssocFrom_last]
      simp [ringWalk]
  | succ f ih =>
      intro t rng hm ht hf
      by_cases hend : t = m - 1
      · subst hend
        rw [if_pos rfl]
        have hv : overlayV2E j0 (cycMidV2E m j0 (m - 1)) G (j0, 0) = [] := by
          simp [overlayV2E, cycMidV2E]
        simp only [ringWalk, hv]
        rw [compAssocFrom_last]
        simp
      · rw [if_neg hend]
        have hv : overlayV2E j0 (cycMidV2E m j0 t) G (j0, t + 1) = [(j0, t + 1)] := by
          have c1 : ¬ ((t + 1 : Nat) = 0) := by omega
          have c2 : ¬ (t + 1 ≤ t) := by omega
          have c3 : t + 1 ≤ m - 1 := by omega
          simp [overlayV2E, cycMidV2E, c1, c2, c3]
        have hdec := compAssocFrom_cons (true, m) j0 t
          (by show t + 1 ≤ m - 1; omega)
        simp only [ringWalk, hv]
        rw [hdec, List.cons_append, lookupRemove_cons_self]
        by_cases hc : t + 1 = m - 1
        · have hval : compE2V (true, m) j0 (t + 1) = ((j0, t + 1), (j0, 0)) := by
            rw [compE2V, if_pos]
            exact ⟨rfl, by show t + 1 = m - 1; omega⟩
          rw [hval]
          simp only []
          rw [if_pos trivial]
          simp only [Bool.false_eq_true, if_false]
          rw [cycMid_close m j0 t hm (by omega) G]
          have hrec := ih (t + 1) (rng ++ [(j0, t + 1)]) hm (by omega) (by omega)
          rw [if_pos hc] at hrec
          rw [hrec]
          have hr : List.range' (t + 1) (m - 1 - t)
              = (t + 1) :: List.range' (t + 2) (m - 1 - (t + 1)) := by
            conv_lhs => rw [show m - 1 - t = (m - 1 - (t + 1)) + 1 from by omega]
            rw [List.range'_succ]
          rw [hr]
          simp
        · have hval : compE2V (true, m) j0 (t + 1) = ((j0, t + 1), (j0, t + 2)) := by
            rw [compE2V, if_neg]
            rintro ⟨h1, h2⟩
            exact hc (by omega)
          rw [hval]
          simp only []
          rw [if_pos trivial]
          simp only [Bool.false_eq_true, if_false]
          rw [cycMid_step m j0 t (by omega) G]
          have hrec := ih (t + 1) (rng ++ [(j0, t + 1)]) hm (by omega) (by omega)
          rw [if_neg hc, show ((j0, t + 1 + 1) : Nat × Nat) = (j0, t + 2) from rfl]
            at hrec
          rw [hrec]
          have hr : List.range' (t + 1) (m - 1 - t)
              = (t + 1) :: List.range' (t + 2) (m - 1 - (t + 1)) := by
            conv_lhs => rw [show m - 1 - t = (m - 1 - (t + 1)) + 1 from by omega]
            rw [List.range'_succ]
          rw [hr]
          simp

/-- Snapshot keys whose rows are already consumed are skipped. -/
theorem groupsLoop_skip {E V : Type} [DecidableEq E] [DecidableEq V] :
    ∀ (ks0 ks : List E) (e2v : List (E × (V × V))) (v2e : V → List E),
      (∀ k ∈ ks0, k ∉ e2v.map Prod.fst) →
      groupsLoop (ks0 ++ ks) e2v v2e = groupsLoop ks e2v v2e := by
  intro ks0
  induction ks0 with
  | nil => intro ks e2v v2e _; rfl
  | cons k ks0 ih =>
      intro ks e2v v2e h
      have hn : lookupRemove e2v k = none :=
        (lookupRemove_eq_none _ _).mpr (h k (by simp))
      simp only [List.cons_append, groupsLoop, hn]
      exact ih ks e2v v2e (fun k2 hk2 => h k2 (by simp [hk2]))

theorem compEdges_cons (m j : Nat) (hm : 1 ≤ m) :
    compEdges m j = (j, 0) :: (List.range' 1 (m - 1)).map
      (fun i => ((j, i) : Nat × Nat)) := by
  rw [compEdges, List.range_eq_range']
  have h1 : List.range' 0 m = 0 :: List.range' 1 (m - 1) := by
    conv_lhs => rw [show m = (m - 1) + 1 from by omega]
    rw [List.range'_succ]
  rw [h1]
  simp

theorem sufRings_length : ∀ (cs : List (Bool × Nat)) (j0 : Nat),
    (sufRings cs j0).length = cs.length := by
  intro cs
  induction cs with
  | nil => intro j0; rfl
  | cons c rest ih => intro j0; simp [sufRings, ih]

set_option maxHeartbeats 1000000 in
/-- The grouping loop on the canonical disjoint selection returns exactly one
ring per component, each ring being that component's edges in order. -/
theorem groupsLoop_suf :
    ∀ (cs2 : List (Bool × Nat)) (j0 : Nat),
      (∀ c ∈ cs2, 1 ≤ c.2 ∧ (c.1 = true → 3 ≤ c.2)) →
      groupsLoop (sufEdges cs2 j0) (sufAssoc cs2 j0) (sufV2E cs2 j0)
        = sufRings cs2 j0 := by
  intro cs2
  induction cs2 with
  | nil => intro j0 _; rfl
  | cons c rest ih =>
      intro j0 hvalid
      obtain ⟨cy, m⟩ := c
      have hm1 : 1 ≤ m := (hvalid (cy, m) (by simp)).1
      have hcy3 : cy = true → 3 ≤ m := (hvalid (cy, m) (by simp)).2
      have hval0 : compE2V (cy, m) j0 0 = ((j0, 0), (j0, 1)) := by
        rw [compE2V, if_neg]
        rintro ⟨h1, h2⟩
        have := hcy3 h1
        simp at h2
        omega
      have hstart : lookupRemove (sufAssoc ((cy, m) :: rest) j0) ((j0, 0) : Nat × Nat)
          = some (((j0, 0), (j0, 1)),
              compAssocFrom (cy, m) j0 0 ++ sufAssoc rest (j0 + 1)) := by
        simp only [sufAssoc]
        rw [compAssoc_cons (cy, m) j0 hm1, hval0, List.cons_append,
          lookupRemove_cons_self]
      have hkeys : sufEdges ((cy, m) :: rest) j0
          = (j0, 0) :: ((List.range' 1 (m - 1)).map (fun i => ((j0, i) : Nat × Nat))
              ++ sufEdges rest (j0 + 1)) := by
        simp only [sufEdges]
        rw [compEdges_cons m j0 hm1, List.cons_append]
      have hnotin : ∀ k ∈ (List.range' 1 (m - 1)).map (fun i => ((j0, i) : Nat × Nat)),
          k ∉ (sufAssoc rest (j0 + 1)).map Prod.fst := by
        intro k hk hmem
        rw [sufAssoc_map_fst] at hmem
        have htag := mem_sufEdges_tag rest (j0 + 1) k hmem
        simp only [List.mem_map] at hk
        obtain ⟨i, hi, rfl⟩ := hk
        have hcontra : j0 + 1 ≤ j0 := by simpa using htag.1
        omega
      have hov : overlayV2E j0 (fun _ => ([] : List (Nat × Nat))) (sufV2E rest (j0 + 1))
          = sufV2E rest (j0 + 1) := by
        funext v
        simp only [overlayV2E]
        split_ifs with h
        · exact (sufV2E_low rest (j0 + 1) v (by omega)).symm
        · rfl
      have hlen : m - 1 - 0
          ≤ (compAssocFrom ((cy, m) : Bool × Nat) j0 0 ++ sufAssoc rest (j0 + 1)).length := by
        simp only [List.length_append, compAssocFrom, List.length_map,
          List.length_range']
        omega
      have hvrest : ∀ cc ∈ rest, 1 ≤ cc.2 ∧ (cc.1 = true → 3 ≤ cc.2) :=
        fun cc hcc => hvalid cc (by simp [hcc])
      cases cy
      · rw [hkeys]
        simp only [groupsLoop]
        rw [hstart]
        simp only []
        rw [show sufV2E ((false, m) :: rest) j0
            = overlayV2E j0 (compV2E (false, m) j0) (sufV2E rest (j0 + 1)) from rfl]
        rw [path_start_discard m j0 hm1 (sufV2E rest (j0 + 1))]
        have hwalk := pathRingWalk m j0 (sufV2E rest (j0 + 1)) (sufAssoc rest (j0 + 1))
          (compAssocFrom ((false, m) : Bool × Nat) j0 0 ++ sufAssoc rest (j0 + 1)).length
          0 [((j0, 0) : Nat × Nat)] hm1 (by omega) hlen
        simp only [Nat.sub_zero, Nat.zero_add] at hwalk
        rw [hwalk]
        simp only []
        rw [pathMid_final m j0]
        have hbreak := ringWalk_break (sufAssoc rest (j0 + 1)).length
          (overlayV2E j0 (fun _ => ([] : List (Nat × Nat))) (sufV2E rest (j0 + 1)))
          (sufAssoc rest (j0 + 1)) ((j0, 0) : Nat × Nat) true
          ([((j0, 0) : Nat × Nat)] ++ (List.range' 1 (m - 1)).map
            (fun i => ((j0, i) : Nat × Nat)))
          (by intro e
              rw [hov, sufV2E_low rest (j0 + 1) (j0, 0) (by omega)]
              simp)
        rw [hbreak]
        simp only []
        rw [groupsLoop_skip _ _ _ _ hnotin, hov, ih (j0 + 1) hvrest]
        rw [show sufRings ((false, m) :: rest) j0
            = compEdges m j0 :: sufRings rest (j0 + 1) from rfl]
        rw [compEdges_cons m j0 hm1]
        rfl
      · have hm3 : 3 ≤ m := hcy3 rfl
        rw [hkeys]
        simp only [groupsLoop]
        rw [hstart]
        simp only []
        rw [show sufV2E ((true, m) :: rest) j0
            = overlayV2E j0 (compV2E (true, m) j0) (sufV2E rest (j0 + 1)) from rfl]
        rw [cyc_start_discard m j0 hm3 (sufV2E rest (j0 + 1))]
        have hwalk := cycRingWalk m j0 (sufV2E rest (j0 + 1)) (sufAssoc rest (j0 + 1))
          (compAssocFrom ((true, m) : Bool × Nat) j0 0 ++ sufAssoc rest (j0 + 1)).length
          0 [((j0, 0) : Nat × Nat)] hm3 (by omega) hlen
        rw [if_neg (by omega : ¬ (0 : Nat) = m - 1)] at hwalk
        simp only [Nat.sub_zero, Nat.zero_add] at hwalk
        rw [hwalk]
        simp only []
        rw [cycMid_final m j0]
        have hbreak := ringWalk_break (sufAssoc rest (j0 + 1)).length
          (overlayV2E j0 (fun _ => ([] : List (Nat × Nat))) (sufV2E rest (j0 + 1)))
          (sufAssoc rest (j0 + 1)) ((j0, 0) : Nat × Nat) true
          ([((j0, 0) : Nat × Nat)] ++ (List.range' 1 (m - 1)).map
            (fun i => ((j0, i) : Nat × Nat)))
          (by intro e
              rw [hov, sufV2E_low rest (j0 + 1) (j0, 0) (by omega)]
              simp)
        rw [hbreak]
        simp only []
        rw [groupsLoop_skip _ _ _ _ hnotin, hov, ih (j0 + 1) hvrest]
        rw [show sufRings ((true, m) :: rest) j0
            = compEdges m j0 :: sufRings rest (j0 + 1) from rfl]
        rw [compEdges_cons m j0 hm1]
        rfl

/-! ## List utilities over the decidable-equality erase -/

theorem erase_sublist_dec {α : Type} [DecidableEq α] (a : α) :
    ∀ l : List α, List.Sublist (l.erase a) l := by
  intro l
  induction l with
  | nil => simp [erase_nil_dec]
  | cons b l ih =>
      rw [erase_cons_dec]
      by_cases hb : b = a
      · rw [if_pos hb]
        exact List.sublist_cons_self b l
      · rw [if_neg hb]
        exact ih.cons₂ b

theorem erase_of_not_mem_dec {α : Type} [DecidableEq α] {a : α} :
    ∀ {l : List α}, a ∉ l → l.erase a = l := by
  intro l
  induction l with
  | nil => intro _; rfl
  | cons b l ih =>
      intro hmem
      rw [erase_cons_dec, if_neg (fun hc => hmem (by simp [hc])),
        ih (fun hc => hmem (by simp [hc]))]

theorem mem_erase_dec {α : Type} [DecidableEq α] {a b : α} :
    ∀ {l : List α}, l.Nodup → (a ∈ l.erase b ↔ a ∈ l ∧ a ≠ b) := by
  intro l
  induction l with
  | nil => intro _; simp [erase_nil_dec]
  | cons c l ih =>
      intro hnd
      rw [erase_cons_dec]
      by_cases hc : c = b
      · rw [if_pos hc]
        subst hc
        constructor
        · intro hmem
          refine ⟨by simp [hmem], ?_⟩
          intro hab
          exact (List.nodup_cons.mp hnd).1 (hab ▸ hmem)
        · rintro ⟨hmem, hne⟩
          rcases List.mem_cons.mp hmem with h | h
          · exact absurd h hne
          · exact h
      · rw [if_neg hc]
        constructor
        · intro hmem
          rcases List.mem_cons.mp hmem with h | h
          · exact ⟨by simp [h], fun hab => hc (by rw [← h, hab])⟩
          · obtain ⟨h1, h2⟩ := (ih (List.nodup_cons.mp hnd).2).mp h
            exact ⟨by simp [h1], h2⟩
        · rintro ⟨hmem, hne⟩
          rcases List.mem_cons.mp hmem with h | h
          · exact h ▸ List.mem_cons_self _ _
          · exact List.mem_cons_of_mem _
              ((ih (List.nodup_cons.mp hnd).2).mpr ⟨h, hne⟩)

theorem not_mem_erase_dec {α : Type} [DecidableEq α] {a : α} {l : List α}
    (h : l.Nodup) : a ∉ l.erase a :=
  fun hc => ((mem_erase_dec h).mp hc).2 rfl

theorem nodup_erase_dec {α : Type} [DecidableEq α] {a : α} {l : List α}
    (h : l.Nodup) : (l.erase a).Nodup :=
  h.sublist (erase_sublist_dec a l)

theorem filter_erase_neg {α : Type} [DecidableEq α] (p : α → Bool) {a : α}
    (hpa : p a = false) : ∀ l : List α, (l.erase a).filter p = l.filter p := by
  intro l
  induction l with
  | nil => rfl
  | cons b l ih =>
      rw [erase_cons_dec]
      by_cases hb : b = a
      · rw [if_pos hb]
        subst hb
        rw [List.filter_cons, if_neg (by simp [hpa])]
      · rw [if_neg hb]
        by_cases hpb : p b = true
        · rw [List.filter_cons, if_pos hpb, List.filter_cons, if_pos hpb, ih]
        · rw [List.filter_cons, if_neg hpb, List.filter_cons, if_neg hpb, ih]

theorem filter_erase_comm {α : Type} [DecidableEq α] (p : α → Bool) (a : α) :
    ∀ l : List α, (l.filter p).erase a = (l.erase a).filter p := by
  intro l
  induction l with
  | nil => rfl
  | cons b l ih =>
      by_cases hb : b = a
      · subst hb
        by_cases hpb : p b = true
        · rw [List.filter_cons, if_pos hpb, erase_cons_head_dec,
            erase_cons_head_dec]
        · rw [List.filter_cons, if_neg hpb, erase_cons_head_dec, ih,
            filter_erase_neg p (by simpa using hpb)]
      · by_cases hpb : p b = true
        · rw [List.filter_cons, if_pos hpb, erase_cons_dec, if_neg hb,
            erase_cons_dec, if_neg hb, List.filter_cons, if_pos hpb, ih]
        · rw [List.filter_cons, if_neg hpb, erase_cons_dec, if_neg hb,
            List.filter_cons, if_neg hpb, ih]

theorem filter_eq_nil_all {α : Type} (p : α → Bool) :
    ∀ l : List α, (∀ x ∈ l, p x = false) → l.filter p = [] := by
  intro l
  induction l with
  | nil => intro _; rfl
  | cons b l ih =>
      intro h
      rw [List.filter_cons, if_neg (by simp [h b (by simp)]),
        ih (fun x hx => h x (by simp [hx]))]

theorem filter_eq_singleton_of {α : Type} [DecidableEq α] (p : α → Bool)
    (a : α) : ∀ l : List α, l.Nodup → a ∈ l →
      (∀ x ∈ l, (p x = true ↔ x = a)) → l.filter p = [a] := by
  intro l
  induction l with
  | nil => intro _ h _; simp at h
  | cons b l ih =>
      intro hnd hmem hiff
      by_cases hb : b = a
      · subst hb
        rw [List.filter_cons, if_pos ((hiff b (by simp)).mpr rfl)]
        have hnil : l.filter p = [] := by
          refine filter_eq_nil_all p l (fun x hx => ?_)
          cases hpx : p x with
          | false => rfl
          | true =>
              exact absurd (((hiff x (by simp [hx])).mp hpx) ▸ hx)
                (List.nodup_cons.mp hnd).1
        rw [hnil]
      · rw [List.filter_cons, if_neg (fun hc => hb ((hiff b (by simp)).mp hc))]
        refine ih (List.nodup_cons.mp hnd).2 ?_
          (fun x hx => hiff x (by simp [hx]))
        rcases List.mem_cons.mp hmem with h | h
        · exact absurd h.symm hb
        · exact h

theorem lookupRemove_some_of_mem {E β : Type} [DecidableEq E]
    (l : List (E × β)) (e : E) (hmem : e ∈ l.map Prod.fst) :
    ∃ v l2, lookupRemove l e = some (v, l2) := by
  cases hl : lookupRemove l e with
  | none => exact absurd hmem ((lookupRemove_eq_none l e).mp hl)
  | some pr =>
      obtain ⟨v, l2⟩ := pr
      exact ⟨v, l2, rfl⟩

theorem lookupRemove_split {E β : Type} [DecidableEq E] :
    ∀ (l : List (E × β)) (e : E) (v : β) (l2 : List (E × β)),
      lookupRemove l e = some (v, l2) →
      (e, v) ∈ l ∧ (∀ x ∈ l2, x ∈ l) ∧
        l2.map Prod.fst = (l.map Prod.fst).erase e := by
  intro l
  induction l with
  | nil => intro e v l2 h; simp [lookupRemove] at h
  | cons kv rest ih =>
      obtain ⟨k, v0⟩ := kv
      intro e v l2 h
      simp only [lookupRemove] at h
      by_cases hk : k = e
      · rw [if_pos hk] at h
        simp only [Option.some.injEq, Prod.mk.injEq] at h
        obtain ⟨hv, hl⟩ := h
        subst hv
        subst hl
        subst hk
        refine ⟨by simp, fun x hx => by simp [hx], ?_⟩
        simp only [List.map_cons]
        rw [erase_cons_head_dec]
      · rw [if_neg hk] at h
        cases hlr : lookupRemove rest e with
        | none => rw [hlr] at h; simp at h
        | some pr =>
            obtain ⟨r, rest2⟩ := pr
            rw [hlr] at h
            simp only [Option.some.injEq, Prod.mk.injEq] at h
            obtain ⟨hv, hl⟩ := h
            subst hv
            subst hl
            obtain ⟨h1, h2, h3⟩ := ih e r rest2 hlr
            refine ⟨by simp [h1], ?_, ?_⟩
            · intro x hx
              rcases List.mem_cons.mp hx with h | h
              · simp [h]
              · simp [h2 x h]
            · simp only [List.map_cons, h3]
              rw [erase_cons_dec, if_neg hk]

theorem mem_foldl_erase {α : Type} [DecidableEq α] (x : α) :
    ∀ (es K : List α), K.Nodup →
      (x ∈ es.foldl (fun l e => l.erase e) K ↔ x ∈ K ∧ x ∉ es) := by
  intro es
  induction es with
  | nil => intro K _; simp
  | cons e es ih =>
      intro K hK
      simp only [List.foldl_cons]
      rw [ih (K.erase e) (nodup_erase_dec hK), mem_erase_dec hK]
      constructor
      · rintro ⟨⟨h1, h2⟩, h3⟩
        exact ⟨h1, by simp [h2, h3]⟩
      · rintro ⟨h1, h2⟩
        simp only [List.mem_cons, not_or] at h2
        exact ⟨⟨h1, h2.1⟩, h2.2⟩

theorem foldl_erase_nodup {α : Type} [DecidableEq α] :
    ∀ (es K : List α), K.Nodup → (es.foldl (fun l e => l.erase e) K).Nodup := by
  intro es
  induction es with
  | nil => intro K h; exact h
  | cons e es ih => intro K h; exact ih _ (nodup_erase_dec h)

theorem perm_foldl_erase {α : Type} [DecidableEq α] :
    ∀ (del K rest : List α), K.Perm (del ++ rest) →
      (del.foldl (fun l e => l.erase e) K).Perm rest := by
  intro del
  induction del with
  | nil => intro K rest h; simpa using h
  | cons d del ih =>
      intro K rest h
      simp only [List.foldl_cons]
      rw [List.cons_append] at h
      have h2 := h.erase d
      rw [erase_cons_head_dec] at h2
      exact ih _ _ h2

/-! ## Chain structure lemmas -/

theorem inc_iff {E V : Type} [DecidableEq V] (h : E → V × V) (v : V) (e : E) :
    inc h v e = true ↔ ((h e).1 = v ∨ (h e).2 = v) := by
  simp [inc]

theorem chainOk_cons_iff {E V : Type} [DecidableEq V] (h : E → V × V) (v : V)
    (f : E) (es : List E) :
    chainOk h v (f :: es) = true ↔
      (inc h v f = true ∧ chainOk h (otherEnd h f v) es = true) := by
  simp [chainOk, Bool.and_eq_true]

theorem chainVerts_shape {E V : Type} [DecidableEq V] (h : E → V × V) (v : V)
    (es : List E) : ∃ tl, chainVerts h v es = v :: tl := by
  cases es with
  | nil => exact ⟨[], rfl⟩
  | cons f es => exact ⟨_, rfl⟩

theorem self_mem_chainVerts {E V : Type} [DecidableEq V] (h : E → V × V)
    (v : V) (es : List E) : v ∈ chainVerts h v es := by
  obtain ⟨tl, htl⟩ := chainVerts_shape h v es
  rw [htl]
  simp

theorem otherEnd_invol {E V : Type} [DecidableEq V] (h : E → V × V) (e : E)
    (v : V) (hv : (h e).1 = v ∨ (h e).2 = v) :
    otherEnd h e (otherEnd h e v) = v := by
  unfold otherEnd
  by_cases h1 : (h e).1 = v
  · rw [if_pos h1]
    by_cases h12 : (h e).1 = (h e).2
    · rw [if_pos h12, ← h12]
      exact h1
    · rw [if_neg h12]
      exact h1
  · rw [if_neg h1, if_pos rfl]
    rcases hv with hx | hx
    · exact absurd hx h1
    · exact hx

theorem inc_otherEnd {E V : Type} [DecidableEq V] (h : E → V × V) (e : E)
    (v : V) (hi : inc h v e = true) : inc h (otherEnd h e v) e = true := by
  rw [inc_iff]
  unfold otherEnd
  by_cases h1 : (h e).1 = v
  · rw [if_pos h1]
    exact Or.inr rfl
  · rw [if_neg h1]
    exact Or.inl rfl

theorem chainVerts_endpoints {E V : Type} [DecidableEq V] (h : E → V × V) :
    ∀ (es : List E) (v : V), chainOk h v es = true →
      ∀ e ∈ es, (h e).1 ∈ chainVerts h v es ∧ (h e).2 ∈ chainVerts h v es := by
  intro es
  induction es with
  | nil => intro v _ e he; simp at he
  | cons f es ih =>
      intro v hok e he
      obtain ⟨hincf, hok2⟩ := (chainOk_cons_iff h v f es).mp hok
      rw [show chainVerts h v (f :: es)
          = v :: chainVerts h (otherEnd h f v) es from rfl]
      rcases List.mem_cons.mp he with h1 | h1
      · subst h1
        by_cases hv1 : (h e).1 = v
        · constructor
          · rw [hv1]
            simp
          · have hoe : (h e).2 = otherEnd h e v := by
              unfold otherEnd
              rw [if_pos hv1]
            rw [hoe]
            exact List.mem_cons_of_mem _ (self_mem_chainVerts h _ es)
        · have hv2 : (h e).2 = v := by
            rcases (inc_iff h v e).mp hincf with hx | hx
            · exact absurd hx hv1
            · exact hx
          constructor
          · have hoe : (h e).1 = otherEnd h e v := by
              unfold otherEnd
              rw [if_neg hv1]
            rw [hoe]
            exact List.mem_cons_of_mem _ (self_mem_chainVerts h _ es)
          · rw [hv2]
            simp
      · obtain ⟨hm1, hm2⟩ := ih (otherEnd h f v) hok2 e h1
        exact ⟨List.mem_cons_of_mem _ hm1, List.mem_cons_of_mem _ hm2⟩

theorem chain_head_inc {E V : Type} [DecidableEq V] (h : E → V × V)
    (v : V) (f : E) (es : List E) (hok : chainOk h v (f :: es) = true)
    (hnd : (chainVerts h v (f :: es)).Nodup) :
    ∀ e ∈ f :: es, inc h v e = true → e = f := by
  intro e he hi
  rcases List.mem_cons.mp he with h1 | h1
  · exact h1
  · exfalso
    obtain ⟨hincf, hok2⟩ := (chainOk_cons_iff h v f es).mp hok
    obtain ⟨hm1, hm2⟩ := chainVerts_endpoints h es (otherEnd h f v) hok2 e h1
    rw [show chainVerts h v (f :: es)
        = v :: chainVerts h (otherEnd h f v) es from rfl] at hnd
    have hvnotin := (List.nodup_cons.mp hnd).1
    rcases (inc_iff h v e).mp hi with h2 | h2
    · exact hvnotin (h2 ▸ hm1)
    · exact hvnotin (h2 ▸ hm2)

theorem chainEnd_append {E V : Type} [DecidableEq V] (h : E → V × V) :
    ∀ (es1 es2 : List E) (v : V),
      chainEnd h v (es1 ++ es2) = chainEnd h (chainEnd h v es1) es2 := by
  intro es1
  induction es1 with
  | nil => intro es2 v; rfl
  | cons f es1 ih =>
      intro es2 v
      simp only [List.cons_append]
      rw [show chainEnd h v (f :: (es1 ++ es2))
          = chainEnd h (otherEnd h f v) (es1 ++ es2) from rfl,
        show chainEnd h v (f :: es1)
          = chainEnd h (otherEnd h f v) es1 from rfl, ih]

theorem chainOk_append {E V : Type} [DecidableEq V] (h : E → V × V) :
    ∀ (es1 es2 : List E) (v : V),
      chainOk h v (es1 ++ es2) = true ↔
        (chainOk h v es1 = true ∧
         chainOk h (chainEnd h v es1) es2 = true) := by
  intro es1
  induction es1 with
  | nil => intro es2 v; simp [chainOk, chainEnd]
  | cons f es1 ih =>
      intro es2 v
      simp only [List.cons_append]
      rw [chainOk_cons_iff, chainOk_cons_iff,
        show chainEnd h v (f :: es1)
          = chainEnd h (otherEnd h f v) es1 from rfl, ih, and_assoc]

theorem chainVerts_append {E V : Type} [DecidableEq V] (h : E → V × V) :
    ∀ (es1 es2 : List E) (v : V),
      chainVerts h v (es1 ++ es2)
        = (chainVerts h v es1).dropLast
            ++ chainVerts h (chainEnd h v es1) es2 := by
  intro es1
  induction es1 with
  | nil => intro es2 v; simp [chainVerts, chainEnd]
  | cons f es1 ih =>
      intro es2 v
      simp only [List.cons_append]
      rw [show chainVerts h v (f :: (es1 ++ es2))
          = v :: chainVerts h (otherEnd h f v) (es1 ++ es2) from rfl, ih,
        show chainVerts h v (f :: es1)
          = v :: chainVerts h (otherEnd h f v) es1 from rfl,
        show chainEnd h v (f :: es1)
          = chainEnd h (otherEnd h f v) es1 from rfl]
      obtain ⟨tl, htl⟩ := chainVerts_shape h (otherEnd h f v) es1
      rw [htl]
      rfl

theorem chain_reverse {E V : Type} [DecidableEq V] (h : E → V × V) :
    ∀ (es : List E) (v : V), chainOk h v es = true →
      chainOk h (chainEnd h v es) es.reverse = true ∧
      chainEnd h (chainEnd h v es) es.reverse = v ∧
      chainVerts h (chainEnd h v es) es.reverse
        = (chainVerts h v es).reverse := by
  intro es
  induction es with
  | nil => intro v _; exact ⟨rfl, rfl, rfl⟩
  | cons f es ih =>
      intro v hok
      obtain ⟨hincf, hok2⟩ := (chainOk_cons_iff h v f es).mp hok
      obtain ⟨ih1, ih2, ih3⟩ := ih (otherEnd h f v) hok2
      rw [show chainEnd h v (f :: es)
          = chainEnd h (otherEnd h f v) es from rfl]
      have hrev : (f :: es).reverse = es.reverse ++ [f] := by simp
      rw [hrev]
      have hincf2 : inc h (otherEnd h f v) f = true := inc_otherEnd h f v hincf
      have hoe : otherEnd h f (otherEnd h f v) = v :=
        otherEnd_invol h f v ((inc_iff h v f).mp hincf)
      refine ⟨?_, ?_, ?_⟩
      · rw [chainOk_append]
        refine ⟨ih1, ?_⟩
        rw [ih2]
        simp [chainOk, hincf2]
      · rw [chainEnd_append, ih2]
        rw [show chainEnd h (otherEnd h f v) [f]
            = otherEnd h f (otherEnd h f v) from rfl]
        exact hoe
      · rw [chainVerts_append, ih3, ih2]
        rw [show chainVerts h (otherEnd h f v) [f]
            = [otherEnd h f v, otherEnd h f (otherEnd h f v)] from rfl, hoe]
        obtain ⟨tl, htl⟩ := chainVerts_shape h (otherEnd h f v) es
        rw [show chainVerts h v (f :: es)
            = v :: chainVerts h (otherEnd h f v) es from rfl, htl]
        simp

/-! ## The walk hypothesis and the incidence-table invariant -/

theorem erase_erase_self {α : Type} [DecidableEq α] {l : List α} (h : l.Nodup)
    (a : α) : (l.erase a).erase a = l.erase a :=
  erase_of_not_mem_dec (not_mem_erase_dec h)

theorem chainInc_of {E V : Type} [DecidableEq E] [DecidableEq V]
    (h : E → V × V) :
    ∀ (es : List E) (v : V) (R : List E),
      chainOk h v es = true →
      (chainVerts h v es).Nodup →
      es.Nodup → R.Nodup →
      (∀ e ∈ R, (inc h v e = true ↔ es.head? = some e)) →
      (∀ u ∈ (chainVerts h v es).tail, ∀ e ∈ R, inc h u e = true → e ∈ es) →
      chainInc h R v es := by
  intro es
  induction es with
  | nil =>
      intro v R _ _ _ _ hA _
      simp only [chainInc]
      intro e he
      cases hie : inc h v e with
      | false => rfl
      | true => simpa using (hA e he).mp hie
  | cons f es ih =>
      intro v R hok hvnd hesnd hRnd hA hB
      obtain ⟨hincf, hok2⟩ := (chainOk_cons_iff h v f es).mp hok
      have htail : (chainVerts h v (f :: es)).tail
          = chainVerts h (otherEnd h f v) es := rfl
      have hvnd' : (v :: chainVerts h (otherEnd h f v) es).Nodup := hvnd
      simp only [chainInc]
      constructor
      · intro e he
        rw [hA e he]
        simp only [List.head?_cons, Option.some.injEq]
        exact eq_comm
      · refine ih (otherEnd h f v) (R.erase f) hok2 hvnd'.of_cons
          hesnd.of_cons (nodup_erase_dec hRnd) ?_ ?_
        · intro e he
          have heR : e ∈ R := ((mem_erase_dec hRnd).mp he).1
          have hef : e ≠ f := ((mem_erase_dec hRnd).mp he).2
          constructor
          · intro hie
            have hv2tail : otherEnd h f v ∈ (chainVerts h v (f :: es)).tail := by
              rw [htail]
              exact self_mem_chainVerts h _ es
            have hmem : e ∈ f :: es := hB (otherEnd h f v) hv2tail e heR hie
            have hes : e ∈ es := by
              rcases List.mem_cons.mp hmem with h1 | h1
              · exact absurd h1 hef
              · exact h1
            cases es with
            | nil => simp at hes
            | cons g es2 =>
                have hg := chain_head_inc h (otherEnd h f v) g es2 hok2
                  hvnd'.of_cons e hes hie
                simp [hg]
          · intro hhead
            cases es with
            | nil => simp at hhead
            | cons g es2 =>
                simp only [List.head?_cons, Option.some.injEq] at hhead
                subst hhead
                exact ((chainOk_cons_iff h _ g es2).mp hok2).1
        · intro u hu e he hie
          have heR : e ∈ R := ((mem_erase_dec hRnd).mp he).1
          have hef : e ≠ f := ((mem_erase_dec hRnd).mp he).2
          have hu2 : u ∈ (chainVerts h v (f :: es)).tail := by
            rw [htail]
            exact (List.tail_sublist _).subset hu
          have hmem : e ∈ f :: es := hB u hu2 e heR hie
          rcases List.mem_cons.mp hmem with h1 | h1
          · exact absurd h1 hef
          · exact h1

theorem discard2_filter {E V : Type} [DecidableEq E] [DecidableEq V]
    (h : E → V × V) (K : List E) (hK : K.Nodup) (f : E) (x y : V)
    (hxy : ∀ v : V, inc h v f = true → v = x ∨ v = y) :
    discardEdge (discardEdge (fun v => K.filter (inc h v)) x f) y f
      = fun v => (K.erase f).filter (inc h v) := by
  funext v
  simp only [discardEdge]
  by_cases hy : v = y
  · rw [if_pos hy]
    by_cases hyx : y = x
    · rw [if_pos hyx, erase_erase_self (hK.filter _), filter_erase_comm,
        hy, hyx]
    · rw [if_neg hyx, filter_erase_comm, hy]
  · rw [if_neg hy]
    by_cases hx : v = x
    · rw [if_pos hx, filter_erase_comm, hx]
    · rw [if_neg hx]
      have hif : inc h v f = false := by
        cases hif : inc h v f with
        | false => rfl
        | true =>
            rcases hxy v hif with hc | hc
            · exact absurd hc hx
            · exact absurd hc hy
      rw [filter_erase_neg _ hif]

theorem discard3_filter {E V : Type} [DecidableEq E] [DecidableEq V]
    (h : E → V × V) (K : List E) (hK : K.Nodup) (f : E) (w x y : V)
    (hxy : ∀ v : V, inc h v f = true → v = x ∨ v = y) :
    discardEdge (discardEdge (discardEdge
        (fun v => K.filter (inc h v)) w f) x f) y f
      = fun v => (K.erase f).filter (inc h v) := by
  funext v
  simp only [discardEdge]
  by_cases hy : v = y
  · rw [if_pos hy]
    by_cases hyx : y = x
    · rw [if_pos hyx]
      by_cases hxw : x = w
      · rw [if_pos hxw, erase_erase_self (hK.filter _),
          erase_erase_self (hK.filter _), filter_erase_comm, hy, hyx, hxw]
      · rw [if_neg hxw, erase_erase_self (hK.filter _), filter_erase_comm,
          hy, hyx]
    · rw [if_neg hyx]
      by_cases hyw : y = w
      · rw [if_pos hyw, erase_erase_self (hK.filter _), filter_erase_comm,
          hy, hyw]
      · rw [if_neg hyw, filter_erase_comm, hy]
  · rw [if_neg hy]
    by_cases hx : v = x
    · rw [if_pos hx]
      by_cases hxw : x = w
      · rw [if_pos hxw, erase_erase_self (hK.filter _), filter_erase_comm,
          hx, hxw]
      · rw [if_neg hxw, filter_erase_comm, hx]
    · rw [if_neg hx]
      by_cases hw : v = w
      · rw [if_pos hw, filter_erase_comm, hw]
      · rw [if_neg hw]
        have hif : inc h v f = false := by
          cases hif : inc h v f with
          | false => rfl
          | true =>
              rcases hxy v hif with hc | hc
              · exact absurd hc hx
              · exact absurd hc hy
        rw [filter_erase_neg _ hif]

theorem buildStep_filter {E V : Type} [DecidableEq E] [DecidableEq V]
    (h : E → V × V) (g : V → List E) (e : E) (hfresh : ∀ v, e ∉ g v) :
    buildStep h g e
      = fun v => g v ++ (if inc h v e = true then [e] else []) := by
  funext v
  simp only [buildStep, addEdge]
  by_cases h2 : v = (h e).2
  · rw [if_pos h2]
    by_cases h21 : (h e).2 = (h e).1
    · rw [if_pos h21, if_neg (hfresh ((h e).1)), if_pos (by simp)]
      rw [if_pos (by rw [inc_iff]; right; rw [h2]), h2, h21]
    · rw [if_neg h21, if_neg (hfresh ((h e).2))]
      rw [if_pos (by rw [inc_iff]; right; rw [h2]), h2]
  · rw [if_neg h2]
    by_cases h1 : v = (h e).1
    · rw [if_pos h1, if_neg (hfresh ((h e).1))]
      rw [if_pos (by rw [inc_iff]; left; rw [h1]), h1]
    · rw [if_neg h1]
      have hif : inc h v e = false := by
        cases hif : inc h v e with
        | false => rfl
        | true =>
            rcases (inc_iff h v e).mp hif with hc | hc
            · exact absurd hc.symm h1
            · exact absurd hc.symm h2
      rw [hif]
      simp

theorem buildMaps_fold_filter {E V : Type} [DecidableEq E] [DecidableEq V]
    (h : E → V × V) :
    ∀ (l : List E) (g : V → List E), l.Nodup → (∀ v, ∀ e ∈ l, e ∉ g v) →
      l.foldl (buildStep h) g = fun v => g v ++ l.filter (inc h v) := by
  intro l
  induction l with
  | nil => intro g _ _; funext v; simp
  | cons e l ih =>
      intro g hnd hfresh
      simp only [List.foldl_cons]
      rw [buildStep_filter h g e (fun v => hfresh v e (by simp))]
      rw [ih _ hnd.of_cons ?_]
      · funext v
        rw [List.filter_cons]
        by_cases hie : inc h v e = true
        · rw [if_pos hie, if_pos hie]
          simp
        · rw [if_neg hie, if_neg hie]
          simp
      · intro v e2 he2
        simp only [List.mem_append]
        rintro (hc | hc)
        · exact hfresh v e2 (by simp [he2]) hc
        · by_cases hie : inc h v e = true
          · rw [if_pos hie] at hc
            simp only [List.mem_singleton] at hc
            exact (List.nodup_cons.mp hnd).1 (hc ▸ he2)
          · rw [if_neg hie] at hc
            simp at hc

theorem buildMaps_snd_filter {E V : Type} [DecidableEq E] [DecidableEq V]
    (h : E → V × V) (sel : List E) (hnd : sel.Nodup) :
    (buildMaps h sel).2 = fun v => sel.filter (inc h v) := by
  rw [buildMaps_snd, buildMaps_fold_filter h sel (fun _ => []) hnd (by simp)]
  funext v
  simp

theorem ringWalk_chainInc {E V : Type} [DecidableEq E] [DecidableEq V]
    (h : E → V × V) :
    ∀ (es : List E) (fuel : Nat) (w : V) (R : List (E × (V × V))) (p : Bool)
      (ring : List E),
      chainInc h (R.map Prod.fst) w es →
      es.length ≤ fuel →
      es.Nodup →
      (∀ e ∈ es, e ∈ R.map Prod.fst) →
      (R.map Prod.fst).Nodup →
      (∀ kv ∈ R, kv.2 = h kv.1) →
      ∃ R2 : List (E × (V × V)),
        ringWalk fuel (fun v => (R.map Prod.fst).filter (inc h v)) R w p ring
          = ((if p = true then es.reverse ++ ring else ring ++ es), R2,
             fun v => (R2.map Prod.fst).filter (inc h v)) ∧
        R2.map Prod.fst
          = es.foldl (fun l e => l.erase e) (R.map Prod.fst) ∧
        (∀ kv ∈ R2, kv ∈ R) := by
  intro es
  induction es with
  | nil =>
      intro fuel w R p ring hinc _ _ _ _ _
      simp only [chainInc] at hinc
      have hfil : (R.map Prod.fst).filter (inc h w) = [] :=
        filter_eq_nil_all _ _ hinc
      refine ⟨R, ?_, by simp, fun kv hkv => hkv⟩
      have hring : (if p = true then ([] : List E).reverse ++ ring
          else ring ++ []) = ring := by
        cases p <;> simp
      rw [hring]
      exact ringWalk_break fuel _ R w p ring
        (fun e heq => by
          simp only [hfil] at heq
          exact absurd heq (by simp))
  | cons f es ih =>
      intro fuel w R p ring hinc hfuel hnd hsub hknd hval
      simp only [chainInc] at hinc
      obtain ⟨hA, hinctail⟩ := hinc
      cases fuel with
      | zero => simp at hfuel
      | succ fu =>
          have hfK : f ∈ R.map Prod.fst := hsub f (by simp)
          have hfil : (R.map Prod.fst).filter (inc h w) = [f] :=
            filter_eq_singleton_of _ f _ hknd hfK hA
          obtain ⟨val, R', hlook⟩ := lookupRemove_some_of_mem R f hfK
          obtain ⟨hmemR, hsubR', hkeys'⟩ := lookupRemove_split R f val R' hlook
          have hvalf : val = h f := hval (f, val) hmemR
          subst hvalf
          rcases hhf : h f with ⟨a, b⟩
          rw [hhf] at hlook
          have hcov : ∀ v : V, inc h v f = true → v = a ∨ v = b := by
            intro v hv
            have hv2 := (inc_iff h v f).mp hv
            rw [hhf] at hv2
            rcases hv2 with hc | hc
            · exact Or.inl hc.symm
            · exact Or.inr hc.symm
          have hotherEnd : (if a = w then b else a) = otherEnd h f w := by
            unfold otherEnd
            rw [hhf]
          have hstep : ringWalk (fu + 1)
              (fun v => (R.map Prod.fst).filter (inc h v)) R w p ring
            = ringWalk fu
                (fun v => (R'.map Prod.fst).filter (inc h v))
                R' (otherEnd h f w) p
                (if p then f :: ring else ring ++ [f]) := by
            simp only [ringWalk, hfil, hlook]
            rw [discard3_filter h _ hknd f w a b hcov, ← hkeys', hotherEnd]
          rw [← hkeys'] at hinctail
          have hfuel2 : es.length ≤ fu := by
            simp only [List.length_cons] at hfuel
            omega
          have hsub2 : ∀ e ∈ es, e ∈ R'.map Prod.fst := by
            intro e he
            rw [hkeys', mem_erase_dec hknd]
            exact ⟨hsub e (by simp [he]),
              fun hc => (List.nodup_cons.mp hnd).1 (hc ▸ he)⟩
          have hknd2 : (R'.map Prod.fst).Nodup := by
            rw [hkeys']
            exact nodup_erase_dec hknd
          have hval2 : ∀ kv ∈ R', kv.2 = h kv.1 :=
            fun kv hkv => hval kv (hsubR' kv hkv)
          obtain ⟨R2, heq, hk2, hs2⟩ := ih fu (otherEnd h f w) R' p
            (if p then f :: ring else ring ++ [f])
            hinctail hfuel2 hnd.of_cons hsub2 hknd2 hval2
          refine ⟨R2, ?_, ?_, fun kv hkv => hsubR' kv (hs2 kv hkv)⟩
          · rw [hstep, heq]
            have hr : (if p = true then
                  es.reverse ++ (if p then f :: ring else ring ++ [f])
                else (if p then f :: ring else ring ++ [f]) ++ es)
              = (if p = true then (f :: es).reverse ++ ring
                else ring ++ (f :: es)) := by
              cases p <;> simp
            rw [hr]
          · simp only [List.foldl_cons]
            rw [← hkeys']
            exact hk2

/-! ## Sole-chain conditions from component structure -/

theorem chainVerts_dropLast_end {E V : Type} [DecidableEq V] (h : E → V × V) :
    ∀ (es : List E) (v : V),
      chainVerts h v es
        = (chainVerts h v es).dropLast ++ [chainEnd h v es] := by
  intro es
  induction es with
  | nil => intro v; rfl
  | cons f es ih =>
      intro v
      rw [show chainVerts h v (f :: es)
          = v :: chainVerts h (otherEnd h f v) es from rfl,
        show chainEnd h v (f :: es)
          = chainEnd h (otherEnd h f v) es from rfl]
      obtain ⟨tl, htl⟩ := chainVerts_shape h (otherEnd h f v) es
      conv_lhs => rw [ih (otherEnd h f v)]
      rw [htl]
      simp [List.dropLast_cons₂]

theorem dropLast_append_ne {α : Type} :
    ∀ (A B : List α), B ≠ [] → (A ++ B).dropLast = A ++ B.dropLast := by
  intro A
  induction A with
  | nil => intro B _; simp
  | cons a A ih =>
      intro B hB
      cases hAB : A ++ B with
      | nil =>
          rcases List.append_eq_nil.mp hAB with ⟨_, h2⟩
          exact absurd h2 hB
      | cons x xs =>
          simp only [List.cons_append, hAB, List.dropLast_cons₂]
          rw [← hAB, ih B hB]

theorem sole_of_chain {E V : Type} [DecidableEq E] [DecidableEq V]
    (h : E → V × V) (K : List E) (s : V) (es : List E) (seed : E) (u : V)
    (G : List E)
    (hGok : chainOk h u G = true)
    (hGvnd : (chainVerts h u G).Nodup)
    (hGW : ∀ x ∈ chainVerts h u G, x ∈ chainVerts h s es)
    (hGes : ∀ e ∈ G, e ∈ es)
    (havoid : ∀ e ∈ K, e ∈ es → e ≠ seed → e ∉ G →
        ∀ x ∈ chainVerts h u G, inc h x e = false)
    (hseedK : seed ∉ K)
    (hforeign : ∀ e ∈ K, ∀ x ∈ chainVerts h s es,
        inc h x e = true → e ∈ es) :
    (∀ e ∈ K, (inc h u e = true ↔ G.head? = some e)) ∧
    (∀ x ∈ (chainVerts h u G).tail, ∀ e ∈ K, inc h x e = true → e ∈ G) := by
  have hmemG : ∀ x ∈ chainVerts h u G, ∀ e ∈ K, inc h x e = true → e ∈ G := by
    intro x hx e he hie
    have hes : e ∈ es := hforeign e he x (hGW x hx) hie
    have hne : e ≠ seed := fun hc => hseedK (hc ▸ he)
    by_cases hG : e ∈ G
    · exact hG
    · exact absurd hie (by simp [havoid e he hes hne hG x hx])
  constructor
  · intro e he
    constructor
    · intro hie
      have hG : e ∈ G := hmemG u (self_mem_chainVerts h u G) e he hie
      cases G with
      | nil => simp at hG
      | cons g G2 =>
          have := chain_head_inc h u g G2 hGok hGvnd e hG hie
          simp [this]
    · intro hhead
      cases G with
      | nil => simp at hhead
      | cons g G2 =>
          simp only [List.head?_cons, Option.some.injEq] at hhead
          subst hhead
          exact ((chainOk_cons_iff h u g G2).mp hGok).1
  · intro x hx e he hie
    exact hmemG x ((List.tail_sublist _).subset hx) e he hie

theorem path_split_verts {E V : Type} [DecidableEq V] (h : E → V × V)
    (s : V) (es1 es2 : List E) (seed : E) :
    chainVerts h s (es1 ++ seed :: es2)
      = chainVerts h s es1
        ++ chainVerts h (otherEnd h seed (chainEnd h s es1)) es2 := by
  rw [chainVerts_append]
  rw [show chainVerts h (chainEnd h s es1) (seed :: es2)
      = chainEnd h s es1
        :: chainVerts h (otherEnd h seed (chainEnd h s es1)) es2 from rfl]
  conv_rhs => rw [chainVerts_dropLast_end h es1 s]
  simp

theorem path_side_data {E V : Type} [DecidableEq E] [DecidableEq V]
    (h : E → V × V) (s : V) (es1 es2 : List E) (seed : E)
    (hok : chainOk h s (es1 ++ seed :: es2) = true)
    (hvnd : (chainVerts h s (es1 ++ seed :: es2)).Nodup) :
    chainOk h (otherEnd h seed (chainEnd h s es1)) es2 = true ∧
    (chainVerts h (otherEnd h seed (chainEnd h s es1)) es2).Nodup ∧
    chainOk h (chainEnd h s es1) es1.reverse = true ∧
    (chainVerts h (chainEnd h s es1) es1.reverse).Nodup ∧
    (∀ x ∈ chainVerts h (otherEnd h seed (chainEnd h s es1)) es2,
        x ∈ chainVerts h s (es1 ++ seed :: es2)) ∧
    (∀ x ∈ chainVerts h (chainEnd h s es1) es1.reverse,
        x ∈ chainVerts h s (es1 ++ seed :: es2)) ∧
    (∀ e ∈ es1 ++ seed :: es2, e ≠ seed → e ∉ es2 →
        ∀ x ∈ chainVerts h (otherEnd h seed (chainEnd h s es1)) es2,
          inc h x e = false) ∧
    (∀ e ∈ es1 ++ seed :: es2, e ≠ seed → e ∉ es1.reverse →
        ∀ x ∈ chainVerts h (chainEnd h s es1) es1.reverse,
          inc h x e = false) := by
  obtain ⟨hok1, hokrest⟩ := (chainOk_append h es1 (seed :: es2) s).mp hok
  obtain ⟨hincseed, hok2⟩ :=
    (chainOk_cons_iff h (chainEnd h s es1) seed es2).mp hokrest
  have hfull := path_split_verts h s es1 es2 seed
  rw [hfull] at hvnd
  have hndP1 : (chainVerts h s es1).Nodup := (List.nodup_append.mp hvnd).1
  have hndQ : (chainVerts h (otherEnd h seed (chainEnd h s es1)) es2).Nodup :=
    (List.nodup_append.mp hvnd).2.1
  have hdisj := (List.nodup_append.mp hvnd).2.2
  obtain ⟨hrev_ok, hrev_end, hrev_verts⟩ := chain_reverse h es1 s hok1
  refine ⟨hok2, hndQ, hrev_ok, ?_, ?_, ?_, ?_, ?_⟩
  · rw [hrev_verts]
    exact List.nodup_reverse.mpr hndP1
  · intro x hx
    rw [hfull]
    exact List.mem_append_right _ hx
  · intro x hx
    rw [hfull]
    rw [hrev_verts] at hx
    exact List.mem_append_left _ (List.mem_reverse.mp hx)
  · intro e hees hne hnG x hx
    have he1 : e ∈ es1 := by
      rcases List.mem_append.mp hees with h1 | h1
      · exact h1
      · rcases List.mem_cons.mp h1 with h2 | h2
        · exact absurd h2 hne
        · exact absurd h2 hnG
    obtain ⟨hep1, hep2⟩ := chainVerts_endpoints h es1 s hok1 e he1
    cases hie : inc h x e with
    | false => rfl
    | true =>
        exfalso
        rcases (inc_iff h x e).mp hie with hc | hc
        · exact hdisj (hc ▸ hep1) hx
        · exact hdisj (hc ▸ hep2) hx
  · intro e hees hne hnG x hx
    have he2 : e ∈ es2 := by
      rcases List.mem_append.mp hees with h1 | h1
      · exact absurd (List.mem_reverse.mpr h1) hnG
      · rcases List.mem_cons.mp h1 with h2 | h2
        · exact absurd h2 hne
        · exact h2
    obtain ⟨hep1, hep2⟩ := chainVerts_endpoints h es2 _ hok2 e he2
    rw [hrev_verts] at hx
    have hxP1 : x ∈ chainVerts h s es1 := List.mem_reverse.mp hx
    cases hie : inc h x e with
    | false => rfl
    | true =>
        exfalso
        rcases (inc_iff h x e).mp hie with hc | hc
        · exact hdisj hxP1 (hc ▸ hep1)
        · exact hdisj hxP1 (hc ▸ hep2)

theorem cyc_data {E V : Type} [DecidableEq E] [DecidableEq V]
    (h : E → V × V) (s : V) (es1 es2 : List E) (seed : E)
    (hok : chainOk h s (es1 ++ seed :: es2) = true)
    (hcyc : chainEnd h s (es1 ++ seed :: es2) = s)
    (hdlnd : (chainVerts h s (es1 ++ seed :: es2)).dropLast.Nodup)
    (hesnd : (es1 ++ seed :: es2).Nodup) :
    chainOk h (otherEnd h seed (chainEnd h s es1)) (es2 ++ es1) = true ∧
    chainEnd h (otherEnd h seed (chainEnd h s es1)) (es2 ++ es1)
      = chainEnd h s es1 ∧
    (chainVerts h (otherEnd h seed (chainEnd h s es1)) (es2 ++ es1)).Nodup ∧
    (∀ x ∈ chainVerts h (otherEnd h seed (chainEnd h s es1)) (es2 ++ es1),
        x ∈ chainVerts h s (es1 ++ seed :: es2)) ∧
    (∀ e, e ∈ es2 ++ es1 ↔ (e ∈ es1 ++ seed :: es2 ∧ e ≠ seed)) := by
  obtain ⟨hok1, hokrest⟩ := (chainOk_append h es1 (seed :: es2) s).mp hok
  obtain ⟨hincseed, hok2⟩ :=
    (chainOk_cons_iff h (chainEnd h s es1) seed es2).mp hokrest
  have hfull := path_split_verts h s es1 es2 seed
  have hQend : chainEnd h (otherEnd h seed (chainEnd h s es1)) es2 = s := by
    rw [chainEnd_append] at hcyc
    rw [show chainEnd h (chainEnd h s es1) (seed :: es2)
        = chainEnd h (otherEnd h seed (chainEnd h s es1)) es2 from rfl] at hcyc
    exact hcyc
  have hC1ok : chainOk h (otherEnd h seed (chainEnd h s es1))
      (es2 ++ es1) = true := by
    rw [chainOk_append]
    refine ⟨hok2, ?_⟩
    rw [hQend]
    exact hok1
  have hC1end : chainEnd h (otherEnd h seed (chainEnd h s es1)) (es2 ++ es1)
      = chainEnd h s es1 := by
    rw [chainEnd_append, hQend]
  have hC1verts : chainVerts h (otherEnd h seed (chainEnd h s es1))
      (es2 ++ es1)
      = (chainVerts h (otherEnd h seed (chainEnd h s es1)) es2).dropLast
          ++ chainVerts h s es1 := by
    rw [chainVerts_append, hQend]
  obtain ⟨hnd1, hndrest, hdisjE⟩ := List.nodup_append.mp hesnd
  have hseed1 : seed ∉ es1 := fun hc => hdisjE hc (by simp)
  have hseed2 : seed ∉ es2 := (List.nodup_cons.mp hndrest).1
  refine ⟨hC1ok, hC1end, ?_, ?_, ?_⟩
  · rw [hC1verts]
    have hQne : chainVerts h (otherEnd h seed (chainEnd h s es1)) es2
        ≠ [] := by
      obtain ⟨tl, htl⟩ :=
        chainVerts_shape h (otherEnd h seed (chainEnd h s es1)) es2
      simp [htl]
    rw [hfull, dropLast_append_ne _ _ hQne] at hdlnd
    exact List.perm_append_comm.nodup hdlnd
  · intro x hx
    rw [hC1verts] at hx
    rw [hfull]
    rcases List.mem_append.mp hx with h1 | h1
    · exact List.mem_append_right _ ((List.dropLast_sublist _).subset h1)
    · exact List.mem_append_left _ h1
  · intro e
    constructor
    · intro he
      rcases List.mem_append.mp he with h1 | h1
      · exact ⟨List.mem_append_right _ (by simp [h1]),
          fun hc => hseed2 (hc ▸ h1)⟩
      · exact ⟨List.mem_append_left _ h1, fun hc => hseed1 (hc ▸ h1)⟩
    · rintro ⟨he, hne⟩
      rcases List.mem_append.mp he with h1 | h1
      · exact List.mem_append_right _ h1
      · rcases List.mem_cons.mp h1 with h2 | h2
        · exact absurd h2 hne
        · exact List.mem_append_left _ h2

theorem chainEnd_mem_chainVerts {E V : Type} [DecidableEq V] (h : E → V × V)
    (es : List E) (v : V) : chainEnd h v es ∈ chainVerts h v es := by
  rw [chainVerts_dropLast_end h es v]
  simp

/-- One directional walk consumes exactly its sole chain. -/
theorem walk_consume {E V : Type} [DecidableEq E] [DecidableEq V]
    (h : E → V × V) (s : V) (es : List E) (seed : E) (u : V) (G : List E)
    (Rk : List (E × (V × V))) (p : Bool) (ring : List E)
    (hGok : chainOk h u G = true)
    (hGvnd : (chainVerts h u G).Nodup)
    (hGnd : G.Nodup)
    (hGW : ∀ x ∈ chainVerts h u G, x ∈ chainVerts h s es)
    (hGes : ∀ e ∈ G, e ∈ es)
    (havoid : ∀ e ∈ Rk.map Prod.fst, e ∈ es → e ≠ seed → e ∉ G →
        ∀ x ∈ chainVerts h u G, inc h x e = false)
    (hseedK : seed ∉ Rk.map Prod.fst)
    (hforeign : ∀ e ∈ Rk.map Prod.fst, ∀ x ∈ chainVerts h s es,
        inc h x e = true → e ∈ es)
    (hGsub : ∀ e ∈ G, e ∈ Rk.map Prod.fst)
    (hknd : (Rk.map Prod.fst).Nodup)
    (hval : ∀ kv ∈ Rk, kv.2 = h kv.1) :
    ∃ R2 : List (E × (V × V)),
      ringWalk Rk.length (fun v => (Rk.map Prod.fst).filter (inc h v))
          Rk u p ring
        = ((if p = true then G.reverse ++ ring else ring ++ G), R2,
           fun v => (R2.map Prod.fst).filter (inc h v)) ∧
      R2.map Prod.fst = G.foldl (fun l e => l.erase e) (Rk.map Prod.fst) ∧
      (∀ kv ∈ R2, kv ∈ Rk) := by
  obtain ⟨hsoleA, hsoleB⟩ := sole_of_chain h (Rk.map Prod.fst) s es seed u G
    hGok hGvnd hGW hGes havoid hseedK hforeign
  have hinc : chainInc h (Rk.map Prod.fst) u G :=
    chainInc_of h G u (Rk.map Prod.fst) hGok hGvnd hGnd hknd hsoleA hsoleB
  have hfuel : G.length ≤ Rk.length := by
    have hle := (List.Nodup.subperm hGnd hGsub).length_le
    rw [List.length_map] at hle
    exact hle
  exact ringWalk_chainInc h G Rk.length u Rk p ring hinc hfuel hGnd hGsub
    hknd hval

set_option maxHeartbeats 1000000 in
/-- Popping a seed row and running both directional walks consumes exactly
the seed's two side chains `G1` (forward) and `G2` (backward). -/
theorem consume_assemble {E V : Type} [DecidableEq E] [DecidableEq V]
    (h : E → V × V) (R R1 : List (E × (V × V))) (s : V) (es : List E)
    (seed : E) (A1 B1 : V) (G1 G2 : List E)
    (hknd : (R.map Prod.fst).Nodup)
    (hval : ∀ kv ∈ R, kv.2 = h kv.1)
    (hCsub : ∀ e ∈ es, e ∈ R.map Prod.fst)
    (hCinc : ∀ e ∈ R.map Prod.fst, ∀ x ∈ chainVerts h s es,
        inc h x e = true → e ∈ es)
    (hkeys1 : R1.map Prod.fst = (R.map Prod.fst).erase seed)
    (hsubR1 : ∀ x ∈ R1, x ∈ R)
    (hdisc : discardEdge (discardEdge
        (fun v => (R.map Prod.fst).filter (inc h v)) A1 seed) B1 seed
      = fun v => (R1.map Prod.fst).filter (inc h v))
    (hG1ok : chainOk h B1 G1 = true)
    (hG1vnd : (chainVerts h B1 G1).Nodup)
    (hG1nd : G1.Nodup)
    (hG1W : ∀ x ∈ chainVerts h B1 G1, x ∈ chainVerts h s es)
    (hG1es : ∀ e ∈ G1, e ∈ es)
    (hG1seed : seed ∉ G1)
    (hG2ok : chainOk h A1 G2 = true)
    (hG2vnd : (chainVerts h A1 G2).Nodup)
    (hG2nd : G2.Nodup)
    (hG2W : ∀ x ∈ chainVerts h A1 G2, x ∈ chainVerts h s es)
    (hG2es : ∀ e ∈ G2, e ∈ es)
    (hG2seed : seed ∉ G2)
    (hG21 : ∀ e ∈ G2, e ∉ G1)
    (hcover : ∀ e ∈ es, e = seed ∨ e ∈ G1 ∨ e ∈ G2)
    (hsep1 : ∀ e ∈ G2, ∀ x ∈ chainVerts h B1 G1, inc h x e = false)
    (hperm : (seed :: (G1 ++ G2)).Perm es) :
    ∃ (ring : List E) (R3 : List (E × (V × V))),
      ringWalk (ringWalk R1.length
            (discardEdge (discardEdge
              (fun v => (R.map Prod.fst).filter (inc h v)) A1 seed) B1 seed)
            R1 B1 false [seed]).2.1.length
          (ringWalk R1.length (discardEdge (discardEdge
              (fun v => (R.map Prod.fst).filter (inc h v)) A1 seed) B1 seed)
            R1 B1 false [seed]).2.2
          (ringWalk R1.length (discardEdge (discardEdge
              (fun v => (R.map Prod.fst).filter (inc h v)) A1 seed) B1 seed)
            R1 B1 false [seed]).2.1
          A1 true
          (ringWalk R1.length (discardEdge (discardEdge
              (fun v => (R.map Prod.fst).filter (inc h v)) A1 seed) B1 seed)
            R1 B1 false [seed]).1
        = (ring, R3, fun v => (R3.map Prod.fst).filter (inc h v)) ∧
      ring.Perm es ∧
      (∀ rest : List E, (R.map Prod.fst).Perm (es ++ rest) →
        (R3.map Prod.fst).Perm rest) ∧
      (R3.map Prod.fst).Nodup ∧
      (∀ kv ∈ R3, kv ∈ R) := by
  have hK1nd : (R1.map Prod.fst).Nodup := by
    rw [hkeys1]
    exact nodup_erase_dec hknd
  have hK1sub : ∀ e ∈ R1.map Prod.fst, e ∈ R.map Prod.fst := by
    intro e he
    rw [hkeys1] at he
    exact ((mem_erase_dec hknd).mp he).1
  have hseedK1 : seed ∉ R1.map Prod.fst := by
    rw [hkeys1]
    exact not_mem_erase_dec hknd
  have hval1 : ∀ kv ∈ R1, kv.2 = h kv.1 :=
    fun kv hkv => hval kv (hsubR1 kv hkv)
  have hforeign1 : ∀ e ∈ R1.map Prod.fst, ∀ x ∈ chainVerts h s es,
      inc h x e = true → e ∈ es :=
    fun e he x hx hie => hCinc e (hK1sub e he) x hx hie
  have hmemK1 : ∀ e ∈ es, e ≠ seed → e ∈ R1.map Prod.fst := by
    intro e he hne
    rw [hkeys1, mem_erase_dec hknd]
    exact ⟨hCsub e he, hne⟩
  obtain ⟨R2, heq1, hk2, hs2⟩ := walk_consume h s es seed B1 G1 R1 false [seed]
    hG1ok hG1vnd hG1nd hG1W hG1es
    (fun e heK hees hne hnG x hx => by
      rcases hcover e hees with hc | hc | hc
      · exact absurd hc hne
      · exact absurd hc hnG
      · exact hsep1 e hc x hx)
    hseedK1 hforeign1
    (fun e he => hmemK1 e (hG1es e he) (fun hc => hG1seed (hc ▸ he)))
    hK1nd hval1
  have hK2mem : ∀ e : E, e ∈ R2.map Prod.fst ↔
      (e ∈ R1.map Prod.fst ∧ e ∉ G1) := by
    intro e
    rw [hk2]
    exact mem_foldl_erase e G1 _ hK1nd
  have hK2nd : (R2.map Prod.fst).Nodup := by
    rw [hk2]
    exact foldl_erase_nodup _ _ hK1nd
  have hseedK2 : seed ∉ R2.map Prod.fst :=
    fun hc => hseedK1 ((hK2mem seed).mp hc).1
  have hval2 : ∀ kv ∈ R2, kv.2 = h kv.1 :=
    fun kv hkv => hval1 kv (hs2 kv hkv)
  have hforeign2 : ∀ e ∈ R2.map Prod.fst, ∀ x ∈ chainVerts h s es,
      inc h x e = true → e ∈ es :=
    fun e he x hx hie => hforeign1 e ((hK2mem e).mp he).1 x hx hie
  obtain ⟨R3, heq2, hk3, hs3⟩ := walk_consume h s es seed A1 G2 R2 true
    ([seed] ++ G1)
    hG2ok hG2vnd hG2nd hG2W hG2es
    (fun e heK hees hne hnG x hx => by
      have hnG1 : e ∉ G1 := ((hK2mem e).mp heK).2
      rcases hcover e hees with hc | hc | hc
      · exact absurd hc hne
      · exact absurd hc hnG1
      · exact absurd hc hnG)
    hseedK2 hforeign2
    (fun e he => (hK2mem e).mpr
      ⟨hmemK1 e (hG2es e he) (fun hc => hG2seed (hc ▸ he)), hG21 e he⟩)
    hK2nd hval2
  have hwalk1 : ringWalk R1.length (discardEdge (discardEdge
      (fun v => (R.map Prod.fst).filter (inc h v)) A1 seed) B1 seed)
      R1 B1 false [seed]
    = ([seed] ++ G1, R2, fun v => (R2.map Prod.fst).filter (inc h v)) := by
    rw [hdisc, heq1]
    simp
  have hwalk2 : ringWalk R2.length
      (fun v => (R2.map Prod.fst).filter (inc h v)) R2 A1 true ([seed] ++ G1)
    = (G2.reverse ++ ([seed] ++ G1), R3,
       fun v => (R3.map Prod.fst).filter (inc h v)) := by
    rw [heq2]
    simp
  have hkeysfinal : R3.map Prod.fst
      = (seed :: (G1 ++ G2)).foldl (fun l e => l.erase e)
          (R.map Prod.fst) := by
    rw [hk3, hk2, hkeys1]
    simp only [List.foldl_cons, List.foldl_append]
  refine ⟨G2.reverse ++ ([seed] ++ G1), R3, ?_, ?_, ?_, ?_, ?_⟩
  · rw [hwalk1]
    exact hwalk2
  · refine List.Perm.trans ?_ hperm
    refine List.Perm.trans ((List.reverse_perm G2).append_right _) ?_
    refine List.Perm.trans List.perm_middle ?_
    exact List.Perm.cons seed List.perm_append_comm
  · intro rest hperm0
    rw [hkeysfinal]
    refine perm_foldl_erase _ _ rest ?_
    exact hperm0.trans (hperm.symm.append_right rest)
  · rw [hkeysfinal]
    exact foldl_erase_nodup _ _ hknd
  · exact fun kv hkv => hsubR1 kv (hs2 kv (hs3 kv hkv))

set_option maxHeartbeats 2000000 in
/-- Seeding the grouping loop anywhere inside a simple path or cycle
component consumes exactly that component. -/
theorem comp_consume {E V : Type} [DecidableEq E] [DecidableEq V]
    (h : E → V × V) (R : List (E × (V × V))) (s : V) (es : List E) (seed : E)
    (hseedmem : seed ∈ es)
    (hcomp : compOk h (s, es) = true)
    (hesnd : es.Nodup)
    (hknd : (R.map Prod.fst).Nodup)
    (hval : ∀ kv ∈ R, kv.2 = h kv.1)
    (hCsub : ∀ e ∈ es, e ∈ R.map Prod.fst)
    (hCinc : ∀ e ∈ R.map Prod.fst, ∀ x ∈ chainVerts h s es,
        inc h x e = true → e ∈ es) :
    ∃ (v1 v2 : V) (R1 : List (E × (V × V))) (ring : List E)
      (R3 : List (E × (V × V))),
      lookupRemove R seed = some ((v1, v2), R1) ∧
      ringWalk (ringWalk R1.length
            (discardEdge (discardEdge
              (fun v => (R.map Prod.fst).filter (inc h v)) v1 seed) v2 seed)
            R1 v2 false [seed]).2.1.length
          (ringWalk R1.length (discardEdge (discardEdge
              (fun v => (R.map Prod.fst).filter (inc h v)) v1 seed) v2 seed)
            R1 v2 false [seed]).2.2
          (ringWalk R1.length (discardEdge (discardEdge
              (fun v => (R.map Prod.fst).filter (inc h v)) v1 seed) v2 seed)
            R1 v2 false [seed]).2.1
          v1 true
          (ringWalk R1.length (discardEdge (discardEdge
              (fun v => (R.map Prod.fst).filter (inc h v)) v1 seed) v2 seed)
            R1 v2 false [seed]).1
        = (ring, R3, fun v => (R3.map Prod.fst).filter (inc h v)) ∧
      ring.Perm es ∧
      (∀ rest : List E, (R.map Prod.fst).Perm (es ++ rest) →
        (R3.map Prod.fst).Perm rest) ∧
      (R3.map Prod.fst).Nodup ∧
      (∀ kv ∈ R3, kv ∈ R) := by
  obtain ⟨es1, es2, hsplit⟩ := List.append_of_mem hseedmem
  subst hsplit
  simp only [compOk, Bool.and_eq_true] at hcomp
  obtain ⟨⟨hok, _⟩, hcond⟩ := hcomp
  obtain ⟨hok1, hokrest⟩ := (chainOk_append h es1 (seed :: es2) s).mp hok
  obtain ⟨hincseed, hok2⟩ :=
    (chainOk_cons_iff h (chainEnd h s es1) seed es2).mp hokrest
  obtain ⟨hnd1, hndrest, hdisjE⟩ := List.nodup_append.mp hesnd
  have hnd2 : es2.Nodup := (List.nodup_cons.mp hndrest).2
  have hseed1 : seed ∉ es1 := fun hc => hdisjE hc (by simp)
  have hseed2 : seed ∉ es2 := (List.nodup_cons.mp hndrest).1
  have hdisj12 : ∀ e ∈ es1, e ∉ es2 := fun e he hc => hdisjE he (by simp [hc])
  have hseedK : seed ∈ R.map Prod.fst := hCsub seed (by simp)
  obtain ⟨val, R1, hlook⟩ := lookupRemove_some_of_mem R seed hseedK
  obtain ⟨hmemR, hsubR1, hkeys1⟩ := lookupRemove_split R seed val R1 hlook
  have hvalseed : val = h seed := hval (seed, val) hmemR
  subst hvalseed
  rcases hhseed : h seed with ⟨A1, B1⟩
  rw [hhseed] at hlook
  have hcov2 : ∀ v : V, inc h v seed = true → v = A1 ∨ v = B1 := by
    intro v hv
    have hv2 := (inc_iff h v seed).mp hv
    rw [hhseed] at hv2
    rcases hv2 with hc | hc
    · exact Or.inl hc.symm
    · exact Or.inr hc.symm
  have hdisc : discardEdge (discardEdge
      (fun v => (R.map Prod.fst).filter (inc h v)) A1 seed) B1 seed
      = fun v => (R1.map Prod.fst).filter (inc h v) := by
    rw [discard2_filter h _ hknd seed A1 B1 hcov2, ← hkeys1]
  have hw1 : A1 = chainEnd h s es1 ∨ B1 = chainEnd h s es1 := by
    have hq := (inc_iff h (chainEnd h s es1) seed).mp hincseed
    rw [hhseed] at hq
    simpa using hq
  have horient : (A1 = chainEnd h s es1 ∧
        B1 = otherEnd h seed (chainEnd h s es1)) ∨
      (B1 = chainEnd h s es1 ∧
        A1 = otherEnd h seed (chainEnd h s es1)) := by
    by_cases hA1 : A1 = chainEnd h s es1
    · refine Or.inl ⟨hA1, ?_⟩
      unfold otherEnd
      rw [hhseed]
      simp [hA1]
    · have hB1 : B1 = chainEnd h s es1 := by
        rcases hw1 with hc | hc
        · exact absurd hc hA1
        · exact hc
      refine Or.inr ⟨hB1, ?_⟩
      unfold otherEnd
      rw [hhseed]
      simp [hA1]
  by_cases hcyc : chainEnd h s (es1 ++ seed :: es2) = s
  · -- cycle component
    rw [if_pos hcyc] at hcond
    simp only [Bool.and_eq_true, decide_eq_true_eq] at hcond
    obtain ⟨_, hdlnd⟩ := hcond
    obtain ⟨hC1ok, hC1end, hC1vnd, hC1sub, hcontent⟩ :=
      cyc_data h s es1 es2 seed hok hcyc hdlnd hesnd
    have hC1nd : (es2 ++ es1).Nodup :=
      List.nodup_append.mpr ⟨hnd2, hnd1, fun a ha hb => hdisj12 a hb ha⟩
    have hG1es : ∀ e ∈ es2 ++ es1, e ∈ es1 ++ seed :: es2 :=
      fun e he => ((hcontent e).mp he).1
    have hG1seed : seed ∉ es2 ++ es1 :=
      fun hc => ((hcontent seed).mp hc).2 rfl
    have hcover : ∀ e ∈ es1 ++ seed :: es2,
        e = seed ∨ e ∈ es2 ++ es1 ∨ e ∈ ([] : List E) := by
      intro e he
      by_cases hne : e = seed
      · exact Or.inl hne
      · exact Or.inr (Or.inl ((hcontent e).mpr ⟨he, hne⟩))
    have hpermC : (seed :: ((es2 ++ es1) ++ ([] : List E))).Perm
        (es1 ++ seed :: es2) := by
      rw [List.append_nil]
      refine List.Perm.trans (List.Perm.cons seed List.perm_append_comm) ?_
      exact List.perm_middle.symm
    rcases horient with ⟨hA1eq, hB1eq⟩ | ⟨hB1eq, hA1eq⟩
    · -- aligned: forward walk from B1 rounds the cycle, backward walk empty
      subst hA1eq
      subst hB1eq
      obtain ⟨ring, R3, hbody⟩ := consume_assemble h R R1 s
        (es1 ++ seed :: es2) seed (chainEnd h s es1)
        (otherEnd h seed (chainEnd h s es1)) (es2 ++ es1) []
        hknd hval hCsub hCinc hkeys1 hsubR1 hdisc
        hC1ok hC1vnd hC1nd hC1sub hG1es hG1seed
        rfl (by simp [chainVerts]) List.nodup_nil
        (fun x hx => by
          have hx2 : x = chainEnd h s es1 := by
            simpa [chainVerts] using hx
          rw [hx2, path_split_verts h s es1 es2 seed]
          exact List.mem_append_left _ (chainEnd_mem_chainVerts h es1 s))
        (fun e he => absurd he (List.not_mem_nil e))
        (fun hc => absurd hc (List.not_mem_nil seed))
        (fun e he => absurd he (List.not_mem_nil e))
        hcover
        (fun e he => absurd he (List.not_mem_nil e))
        hpermC
      exact ⟨_, _, R1, ring, R3, hlook, hbody.1, hbody.2.1, hbody.2.2.1,
        hbody.2.2.2.1, hbody.2.2.2.2⟩
    · -- flipped: forward walk from B1 rounds the cycle in reverse
      subst hB1eq
      subst hA1eq
      obtain ⟨hrok, hrend, hrverts⟩ :=
        chain_reverse h (es2 ++ es1)
          (otherEnd h seed (chainEnd h s es1)) hC1ok
      rw [hC1end] at hrok hrend hrverts
      obtain ⟨ring, R3, hbody⟩ := consume_assemble h R R1 s
        (es1 ++ seed :: es2) seed (otherEnd h seed (chainEnd h s es1))
        (chainEnd h s es1) (es2 ++ es1).reverse []
        hknd hval hCsub hCinc hkeys1 hsubR1 hdisc
        hrok (by rw [hrverts]; exact List.nodup_reverse.mpr hC1vnd)
        (List.nodup_reverse.mpr hC1nd)
        (fun x hx => by
          rw [hrverts] at hx
          exact hC1sub x (List.mem_reverse.mp hx))
        (fun e he => hG1es e (List.mem_reverse.mp he))
        (fun hc => hG1seed (List.mem_reverse.mp hc))
        rfl (by simp [chainVerts]) List.nodup_nil
        (fun x hx => by
          have hx2 : x = otherEnd h seed (chainEnd h s es1) := by
            simpa [chainVerts] using hx
          rw [hx2]
          exact hC1sub _ (self_mem_chainVerts h _ (es2 ++ es1)))
        (fun e he => absurd he (List.not_mem_nil e))
        (fun hc => absurd hc (List.not_mem_nil seed))
        (fun e he => absurd he (List.not_mem_nil e))
        (fun e he => by
          rcases hcover e he with hc | hc | hc
          · exact Or.inl hc
          · exact Or.inr (Or.inl (List.mem_reverse.mpr hc))
          · exact absurd hc (List.not_mem_nil e))
        (fun e he => absurd he (List.not_mem_nil e))
        (by
          refine List.Perm.trans ?_ hpermC
          refine List.Perm.cons seed ?_
          exact (List.reverse_perm (es2 ++ es1)).append_right _)
      exact ⟨_, _, R1, ring, R3, hlook, hbody.1, hbody.2.1, hbody.2.2.1,
        hbody.2.2.2.1, hbody.2.2.2.2⟩
  · -- path component
    rw [if_neg hcyc] at hcond
    simp only [decide_eq_true_eq] at hcond
    obtain ⟨hok2', hndQ, hokrev, hndrev, hsubQ, hsubrev, havoid2, havoid1⟩ :=
      path_side_data h s es1 es2 seed hok hcond
    have hG1es2 : ∀ e ∈ es2, e ∈ es1 ++ seed :: es2 :=
      fun e he => List.mem_append_right _ (List.mem_cons_of_mem _ he)
    have hG1es1 : ∀ e ∈ es1.reverse, e ∈ es1 ++ seed :: es2 :=
      fun e he => List.mem_append_left _ (List.mem_reverse.mp he)
    have hcover : ∀ e ∈ es1 ++ seed :: es2,
        e = seed ∨ e ∈ es2 ∨ e ∈ es1.reverse := by
      intro e he
      rcases List.mem_append.mp he with h1 | h1
      · exact Or.inr (Or.inr (List.mem_reverse.mpr h1))
      · rcases List.mem_cons.mp h1 with h2 | h2
        · exact Or.inl h2
        · exact Or.inr (Or.inl h2)
    rcases horient with ⟨hA1eq, hB1eq⟩ | ⟨hB1eq, hA1eq⟩
    · -- aligned: forward walk takes es2, backward walk takes es1 reversed
      subst hA1eq
      subst hB1eq
      obtain ⟨ring, R3, hbody⟩ := consume_assemble h R R1 s
        (es1 ++ seed :: es2) seed (chainEnd h s es1)
        (otherEnd h seed (chainEnd h s es1)) es2 es1.reverse
        hknd hval hCsub hCinc hkeys1 hsubR1 hdisc
        hok2' hndQ hnd2 hsubQ hG1es2 hseed2
        hokrev hndrev (List.nodup_reverse.mpr hnd1) hsubrev hG1es1
        (fun hc => hseed1 (List.mem_reverse.mp hc))
        (fun e he hc => hdisj12 e (List.mem_reverse.mp he) hc)
        hcover
        (fun e he x hx => havoid2 e (hG1es1 e he)
          (fun hc => hseed1 (hc ▸ List.mem_reverse.mp he))
          (hdisj12 e (List.mem_reverse.mp he)) x hx)
        (by
          refine List.Perm.trans (List.Perm.cons seed ?_) List.perm_middle.symm
          exact ((List.Perm.append_left es2 (List.reverse_perm es1)).trans
            List.perm_append_comm))
      exact ⟨_, _, R1, ring, R3, hlook, hbody.1, hbody.2.1, hbody.2.2.1,
        hbody.2.2.2.1, hbody.2.2.2.2⟩
    · -- flipped: forward walk takes es1 reversed, backward walk takes es2
      subst hB1eq
      subst hA1eq
      obtain ⟨ring, R3, hbody⟩ := consume_assemble h R R1 s
        (es1 ++ seed :: es2) seed (otherEnd h seed (chainEnd h s es1))
        (chainEnd h s es1) es1.reverse es2
        hknd hval hCsub hCinc hkeys1 hsubR1 hdisc
        hokrev hndrev (List.nodup_reverse.mpr hnd1) hsubrev hG1es1
        (fun hc => hseed1 (List.mem_reverse.mp hc))
        hok2' hndQ hnd2 hsubQ hG1es2 hseed2
        (fun e he hc => hdisj12 e (List.mem_reverse.mp hc) he)
        (fun e he => by
          rcases hcover e he with hc | hc | hc
          · exact Or.inl hc
          · exact Or.inr (Or.inr hc)
          · exact Or.inr (Or.inl hc))
        (fun e he x hx => havoid1 e (hG1es2 e he)
          (fun hc => hseed2 (hc ▸ he))
          (fun hc => hdisj12 e (List.mem_reverse.mp hc) he) x hx)
        (by
          refine List.Perm.trans (List.Perm.cons seed ?_) List.perm_middle.symm
          refine List.Perm.trans ((List.reverse_perm es1).append_right es2) ?_
          exact List.Perm.refl _)
      exact ⟨_, _, R1, ring, R3, hlook, hbody.1, hbody.2.1, hbody.2.2.1,
        hbody.2.2.2.1, hbody.2.2.2.2⟩

set_option maxHeartbeats 1000000 in
/-- The grouping loop returns exactly one ring per component of a disjoint
union of simple paths and cycles, whatever the key order and seeds. -/
theorem groupsLoop_rings {E V : Type} [DecidableEq E] [DecidableEq V]
    (h : E → V × V) :
    ∀ (keys : List E) (R : List (E × (V × V)))
      (comps : List (V × List E)),
      (R.map Prod.fst).Nodup →
      (∀ kv ∈ R, kv.2 = h kv.1) →
      (∀ k ∈ R.map Prod.fst, k ∈ keys) →
      (R.map Prod.fst).Perm (comps.flatMap (fun c => c.2)) →
      (∀ c ∈ comps, compOk h c = true) →
      comps.Pairwise (fun c1 c2 => ∀ v ∈ chainVerts h c1.1 c1.2,
        v ∉ chainVerts h c2.1 c2.2) →
      (groupsLoop keys R
          (fun v => (R.map Prod.fst).filter (inc h v))).length
        = comps.length := by
  intro keys
  induction keys with
  | nil =>
      intro R comps hknd hval hsub hperm hcomps hdisj
      have hR : R.map Prod.fst = [] := by
        cases hmap : R.map Prod.fst with
        | nil => rfl
        | cons a tl => exact absurd (hsub a (by simp [hmap])) (by simp)
      rw [hR] at hperm
      cases comps with
      | nil => rfl
      | cons c cs =>
          exfalso
          have hc := hcomps c (by simp)
          simp only [compOk, Bool.and_eq_true] at hc
          obtain ⟨⟨_, hne⟩, _⟩ := hc
          cases hc2 : c.2 with
          | nil => rw [hc2] at hne; simp at hne
          | cons e es =>
              have hmem : e ∈ (c :: cs).flatMap (fun c => c.2) := by
                refine List.mem_flatMap.mpr ⟨c, by simp, ?_⟩
                simp [hc2]
              exact absurd (hperm.symm.subset hmem) (List.not_mem_nil e)
  | cons seed keys ih =>
      intro R comps hknd hval hsub hperm hcomps hdisj
      cases hlook : lookupRemove R seed with
      | none =>
          have hst : seed ∉ R.map Prod.fst :=
            (lookupRemove_eq_none _ _).mp hlook
          have hskip : groupsLoop (seed :: keys) R
              (fun v => (R.map Prod.fst).filter (inc h v))
            = groupsLoop keys R
                (fun v => (R.map Prod.fst).filter (inc h v)) := by
            simp only [groupsLoop, hlook]
          rw [hskip]
          refine ih R comps hknd hval ?_ hperm hcomps hdisj
          intro k hk
          rcases List.mem_cons.mp (hsub k hk) with h1 | h1
          · exact absurd (h1 ▸ hk) hst
          · exact h1
      | some pr =>
          have hseedmem : seed ∈ R.map Prod.fst := by
            by_contra hc
            rw [(lookupRemove_eq_none R seed).mpr hc] at hlook
            simp at hlook
          have hflat : seed ∈ comps.flatMap (fun c => c.2) :=
            hperm.subset hseedmem
          obtain ⟨c, hcmem, hseedc⟩ := List.mem_flatMap.mp hflat
          obtain ⟨cs1, ces⟩ := c
          obtain ⟨pre, post, hcompsplit⟩ := List.append_of_mem hcmem
          subst hcompsplit
          -- the flattened key multiset, grouped around the hit component
          have hflatsplit : (pre ++ (cs1, ces) :: post).flatMap
              (fun c => c.2)
            = pre.flatMap (fun c => c.2)
                ++ (ces ++ post.flatMap (fun c => c.2)) := by
            rw [List.flatMap_append, List.flatMap_cons]
          have hflatnd : (pre.flatMap (fun c => c.2)
              ++ (ces ++ post.flatMap (fun c => c.2))).Nodup := by
            rw [← hflatsplit]
            exact hperm.nodup hknd
          obtain ⟨hndpre, hndmid, hdisjpre⟩ := List.nodup_append.mp hflatnd
          obtain ⟨hndces, hndpost, hdisjces⟩ := List.nodup_append.mp hndmid
          -- pairwise disjointness facts around the hit component
          obtain ⟨hpwpre, hpwrest, hcross⟩ := List.pairwise_append.mp hdisj
          have hpwpost := (List.pairwise_cons.mp hpwrest).1
          have hpwtail := (List.pairwise_cons.mp hpwrest).2
          -- apply the component-consumption lemma
          have hCsub : ∀ e ∈ ces, e ∈ R.map Prod.fst := by
            intro e he
            refine hperm.symm.subset ?_
            exact List.mem_flatMap.mpr ⟨(cs1, ces), hcmem, he⟩
          have hCinc : ∀ e ∈ R.map Prod.fst,
              ∀ x ∈ chainVerts h cs1 ces, inc h x e = true → e ∈ ces := by
            intro e he x hx hie
            obtain ⟨c', hc'mem, hec'⟩ := List.mem_flatMap.mp (hperm.subset he)
            have hc'ok := hcomps c' hc'mem
            have hc'chain : chainOk h c'.1 c'.2 = true := by
              simp only [compOk, Bool.and_eq_true] at hc'ok
              exact hc'ok.1.1
            obtain ⟨hep1, hep2⟩ :=
              chainVerts_endpoints h c'.2 c'.1 hc'chain e hec'
            have hxc' : x ∈ chainVerts h c'.1 c'.2 := by
              rcases (inc_iff h x e).mp hie with hc | hc
              · exact hc ▸ hep1
              · exact hc ▸ hep2
            rcases List.mem_append.mp hc'mem with hpre | hrest
            · exact absurd hx (hcross c' hpre (cs1, ces) (by simp) x hxc')
            · rcases List.mem_cons.mp hrest with hceq | hpost
              · rw [hceq] at hec'
                exact hec'
              · exact absurd hxc' (hpwpost c' hpost x hx)
          obtain ⟨v1, v2, R1, ring, R3, hlookC, hbody, hringperm, hrest,
            hknd3, hsub3⟩ :=
            comp_consume h R cs1 ces seed hseedc
              (hcomps (cs1, ces) hcmem) hndces hknd hval hCsub hCinc
          -- run the loop body
          have hunfold : groupsLoop (seed :: keys) R
              (fun v => (R.map Prod.fst).filter (inc h v))
            = ring :: groupsLoop keys R3
                (fun v => (R3.map Prod.fst).filter (inc h v)) := by
            simp only [groupsLoop, hlookC, hbody]
          rw [hunfold]
          -- the remaining keys are the remaining components
          have hR3perm : (R3.map Prod.fst).Perm
              ((pre ++ post).flatMap (fun c => c.2)) := by
            have hassoc1 : pre.flatMap (fun c => c.2)
                ++ (ces ++ post.flatMap (fun c => c.2))
              = (pre.flatMap (fun c => c.2) ++ ces)
                  ++ post.flatMap (fun c => c.2) := by
              rw [List.append_assoc]
            have hassoc2 : (ces ++ pre.flatMap (fun c => c.2))
                ++ post.flatMap (fun c => c.2)
              = ces ++ (pre.flatMap (fun c => c.2)
                  ++ post.flatMap (fun c => c.2)) := by
              rw [List.append_assoc]
            have hkperm : (R.map Prod.fst).Perm
                (ces ++ (pre.flatMap (fun c => c.2)
                  ++ post.flatMap (fun c => c.2))) := by
              refine hperm.trans ?_
              rw [hflatsplit, hassoc1, ← hassoc2]
              exact List.perm_append_comm.append_right _
            rw [List.flatMap_append]
            exact hrest _ hkperm
          have hseedR3 : seed ∉ R3.map Prod.fst := by
            intro hc
            have := hR3perm.subset hc
            rw [List.flatMap_append] at this
            rcases List.mem_append.mp this with h1 | h1
            · exact hdisjpre h1 (List.mem_append_left _ hseedc)
            · exact hdisjces hseedc h1
          have hsub3' : ∀ k ∈ R3.map Prod.fst, k ∈ keys := by
            intro k hk
            have hkR : k ∈ R.map Prod.fst := by
              obtain ⟨kv, hkv, hkfst⟩ := List.mem_map.mp hk
              exact hkfst ▸ List.mem_map_of_mem Prod.fst (hsub3 kv hkv)
            rcases List.mem_cons.mp (hsub k hkR) with h1 | h1
            · exact absurd (h1 ▸ hk) hseedR3
            · exact h1
          have hval3 : ∀ kv ∈ R3, kv.2 = h kv.1 :=
            fun kv hkv => hval kv (hsub3 kv hkv)
          have hcomps3 : ∀ c ∈ pre ++ post, compOk h c = true := by
            intro c hc
            refine hcomps c ?_
            rcases List.mem_append.mp hc with h1 | h1
            · exact List.mem_append_left _ h1
            · exact List.mem_append_right _ (List.mem_cons_of_mem _ h1)
          have hdisj3 : (pre ++ post).Pairwise
              (fun c1 c2 => ∀ v ∈ chainVerts h c1.1 c1.2,
                v ∉ chainVerts h c2.1 c2.2) :=
            List.Pairwise.sublist
              ((List.sublist_cons_self (cs1, ces) post).append_left pre) hdisj
          rw [List.length_cons,
            ih R3 (pre ++ post) hknd3 hval3 hsub3' hR3perm hcomps3 hdisj3]
          simp only [List.length_append, List.length_cons]
          omega

/-- C6: for every host adjacency and every duplicate-free input edge set
that is a disjoint union of `K` vertex-disjoint simple components — open
paths or cycles, presented by a decomposition `comps` in arbitrary order,
with arbitrary edge/vertex labels, arbitrary per-edge endpoint orientations
and arbitrary seed positions — `getEdgeRingGroupList` returns exactly `K`
rings; the concatenation of the returned rings is a permutation of the input
(every input edge appears in exactly one output ring, no edge duplicated or
dropped) and the ring edge counts sum to the input edge count. -/
theorem claim6_ring_partition {E V : Type} [DecidableEq E]
    [DecidableEq V] (h : E → V × V) (sel : List E)
    (comps : List (V × List E))
    (hnd : sel.Nodup)
    (hperm : sel.Perm (comps.flatMap (fun c => c.2)))
    (hcomps : ∀ c ∈ comps, compOk h c = true)
    (hdisj : comps.Pairwise (fun c1 c2 => ∀ v ∈ chainVerts h c1.1 c1.2,
        v ∉ chainVerts h c2.1 c2.2)) :
    (getEdgeRingGroupList h sel).length = comps.length ∧
    (getEdgeRingGroupList h sel).flatten.Perm sel ∧
    ((getEdgeRingGroupList h sel).map List.length).sum = sel.length := by
  have hflat : (getEdgeRingGroupList h sel).flatten.Perm sel :=
    getEdgeRingGroupList_flatten_perm h sel hnd
  refine ⟨?_, hflat, ?_⟩
  · by_cases hempty : sel.isEmpty
    · rw [getEdgeRingGroupList, if_pos hempty]
      have hselnil : sel = [] := List.isEmpty_iff.mp hempty
      rw [hselnil] at hperm
      cases comps with
      | nil => rfl
      | cons c cs =>
          exfalso
          have hc := hcomps c (by simp)
          simp only [compOk, Bool.and_eq_true] at hc
          obtain ⟨⟨_, hne⟩, _⟩ := hc
          cases hc2 : c.2 with
          | nil => rw [hc2] at hne; simp at hne
          | cons e es =>
              have hmem : e ∈ (c :: cs).flatMap (fun c => c.2) := by
                refine List.mem_flatMap.mpr ⟨c, by simp, ?_⟩
                simp [hc2]
              exact absurd (hperm.symm.subset hmem) (List.not_mem_nil e)
    · rw [getEdgeRingGroupList, if_neg hempty]
      have hkeys : ((sel.map (fun e => (e, h e))).map Prod.fst) = sel := by
        rw [List.map_map]
        have hid : (Prod.fst ∘ fun e : E => (e, h e)) = id := by
          funext e
          rfl
        rw [hid, List.map_id]
      show (groupsLoop ((buildMaps h sel).1.map Prod.fst)
          (buildMaps h sel).1 (buildMaps h sel).2).length = comps.length
      rw [buildMaps_fst h sel hnd, buildMaps_snd_filter h sel hnd, hkeys]
      have hmain := groupsLoop_rings h sel (sel.map (fun e => (e, h e))) comps
        (by rw [hkeys]; exact hnd)
        (by
          intro kv hkv
          obtain ⟨e, _, hkveq⟩ := List.mem_map.mp hkv
          rw [← hkveq])
        (by rw [hkeys]; exact fun k hk => hk)
        (by rw [hkeys]; exact hperm)
        hcomps hdisj
      rw [hkeys] at hmain
      exact hmain
  · rw [← List.length_flatten]
    exact hflat.length_eq

/-- C6 witness: a 4-edge open path (with one edge's endpoints flipped) and a
3-cycle, selected interleaved and scrambled with a mid-path seed, give
exactly two rings, conserving and counting all seven edges. -/
theorem claim6_ring_partition_witness :
    (getEdgeRingGroupList (fun e =>
        if e = 10 then ((20 : Nat), (21 : Nat)) else if e = 11 then (21, 22)
        else if e = 12 then (22, 20) else if e = 2 then (3, 2)
        else (e, e + 1)) [11, 2, 0, 12, 3, 1, 10]).length = 2 ∧
    (getEdgeRingGroupList (fun e =>
        if e = 10 then ((20 : Nat), (21 : Nat)) else if e = 11 then (21, 22)
        else if e = 12 then (22, 20) else if e = 2 then (3, 2)
        else (e, e + 1)) [11, 2, 0, 12, 3, 1, 10]).flatten.Perm
      [11, 2, 0, 12, 3, 1, 10] ∧
    ((getEdgeRingGroupList (fun e =>
        if e = 10 then ((20 : Nat), (21 : Nat)) else if e = 11 then (21, 22)
        else if e = 12 then (22, 20) else if e = 2 then (3, 2)
        else (e, e + 1)) [11, 2, 0, 12, 3, 1, 10]).map List.length).sum
      = 7 := by
  have hres := claim6_ring_partition
    (fun e => if e = 10 then ((20 : Nat), (21 : Nat))
      else if e = 11 then (21, 22) else if e = 12 then (22, 20)
      else if e = 2 then (3, 2) else (e, e + 1))
    [11, 2, 0, 12, 3, 1, 10]
    [((0 : Nat), [0, 1, 2, 3]), (20, [10, 11, 12])]
    (by decide) (by decide) (by decide) (by decide)
  exact ⟨hres.1, hres.2.1, hres.2.2⟩
end QuadPatch
